import Mathlib

/-!
Verification development for the OnPair string compressor (Rust sources:
src/compressor/onpair.rs, src/compressor/onpair16.rs, src/lpm/lpm.rs,
src/lpm/lpm16.rs).

Shallow embedding conventions:
* Machine integers are `Nat`; wrapping casts and wrapping arithmetic are made
  explicit with `% 2^w` at the places the Rust code can overflow (`u16`
  frequency counters, `as u16` / `as u32` casts).
* `FxHashMap` is modelled as an association list with update-in-place /
  prepend-on-new-key semantics; iteration order of a hash map is unspecified
  in Rust, the model fixes one deterministic order.
* The unsafe unconditional 8-byte load `*(ptr as *const u64)` is modelled by
  reading up to 8 bytes and treating bytes past the end of the slice as 0.
  Every use in the source masks the loaded word down to a length that is
  within the slice, so the masked value never depends on the out-of-bounds
  garbage; the model's 0-filling is therefore observationally faithful.
  (The *memory-safety* of these loads is a separate question, treated by the
  padding claims.)
* `sort_unstable_by` sorts by the given comparator with an unspecified order
  of ties; the model uses insertion sort with the same comparator.  All
  properties proved here are either independent of the tie order or are
  stated for the model's deterministic order.
* Fallible / panicking code (`unwrap`, infinite loops that the source rules
  out by invariants) is modelled with `Option`; `none` models a panic or
  divergence.
-/

set_option maxRecDepth 100000

namespace OnPairModel

/-- Bit masks for extracting little-endian word values of 0..8 bytes.
`MASKS k = 2^(8k) - 1`, matching the constant table `MASKS: [u64; 9]` in
lpm.rs / lpm16.rs (`MASKS[0] = 0`, ..., `MASKS[8] = u64::MAX`). -/
def MASKS (k : Nat) : Nat := 2 ^ (8 * k) - 1

/-- Little-endian value of a byte list (first byte is least significant). -/
def encodeLE : List Nat → Nat
  | [] => 0
  | b :: bs => b + 256 * encodeLE bs

/-- Model of `bytes_to_u64_le(bytes, len)` (lpm.rs:186, lpm16.rs:315): an
unconditional unaligned 8-byte little-endian load masked with `MASKS[len]`.
Bytes beyond the end of the slice (which the real load reads as garbage and
the mask removes at every call site) are modelled as 0. -/
def bytesToU64LE (bytes : List Nat) (len : Nat) : Nat :=
  Nat.land (encodeLE (bytes.take 8)) (MASKS len)

/-- Trailing-zero count with explicit fuel (enough fuel for 64-bit words). -/
def tzFuel : Nat → Nat → Nat
  | 0, _ => 0
  | f + 1, n => if n % 2 = 1 then 0 else 1 + tzFuel f (n / 2)

/-- Model of `u64::trailing_zeros`: 64 on input 0. -/
def trailingZeros64 (n : Nat) : Nat :=
  if n = 0 then 64 else tzFuel 64 n

/-- Model of `shared_prefix_size(a, b) = ((a ^ b).trailing_zeros() >> 3)`
(lpm16.rs:332). -/
def sharedPrefixSize (a b : Nat) : Nat :=
  trailingZeros64 (a ^^^ b) / 8

/-- Model of `is_prefix(text, prefix, text_size, prefix_size)` (lpm16.rs:326):
the candidate word is a byte-prefix of the text word. -/
def isPrefixWord (text cand : Nat) (textSize candSize : Nat) : Bool :=
  decide (candSize ≤ textSize) && decide (candSize ≤ sharedPrefixSize text cand)

/-- Model of `u64::to_le_bytes` restricted to `len` bytes (used with len = 8
in `finalize`, lpm16.rs:128). -/
def toLEBytes : Nat → Nat → List Nat
  | _, 0 => []
  | w, len + 1 => w % 256 :: toLEBytes (w / 256) len

/-- The slice `data[a..b]` of a byte buffer. -/
def slice (data : List Nat) (a b : Nat) : List Nat :=
  (data.take b).drop a

/- ### Basic lemmas about the primitives -/

theorem MASKS_eq (k : Nat) : MASKS k = 2 ^ (8 * k) - 1 := rfl

theorem land_MASKS (n k : Nat) : Nat.land n (MASKS k) = n % 2 ^ (8 * k) := by
  have h := Nat.and_pow_two_sub_one_eq_mod n (8 * k)
  simpa [MASKS, HAnd.hAnd, AndOp.and] using h

theorem encodeLE_append (l₁ l₂ : List Nat) :
    encodeLE (l₁ ++ l₂) = encodeLE l₁ + 256 ^ l₁.length * encodeLE l₂ := by
  induction l₁ with
  | nil => simp [encodeLE]
  | cons b bs ih => simp [encodeLE, ih, List.length_cons]; ring

theorem encodeLE_lt (l : List Nat) (h : ∀ b ∈ l, b < 256) :
    encodeLE l < 256 ^ l.length := by
  induction l with
  | nil => simp [encodeLE]
  | cons b bs ih =>
    have hb : b < 256 := h b (List.mem_cons_self b bs)
    have hbs : encodeLE bs < 256 ^ bs.length := ih fun x hx => h x (List.mem_cons_of_mem _ hx)
    simp only [encodeLE, List.length_cons, pow_succ]
    calc b + 256 * encodeLE bs ≤ 255 + 256 * encodeLE bs := by omega
    _ < 256 * (encodeLE bs + 1) := by omega
    _ ≤ 256 * 256 ^ bs.length := by
        have : encodeLE bs + 1 ≤ 256 ^ bs.length := hbs
        exact Nat.mul_le_mul_left _ this
    _ = 256 ^ bs.length * 256 := by ring

theorem encodeLE_mod (l : List Nat) (k : Nat) (h : ∀ b ∈ l, b < 256) :
    encodeLE l % 256 ^ k = encodeLE (l.take k) := by
  rcases le_or_lt l.length k with hk | hk
  · rw [List.take_of_length_le hk]
    exact Nat.mod_eq_of_lt (lt_of_lt_of_le (encodeLE_lt l h)
      (Nat.pow_le_pow_right (by norm_num) hk))
  · have hsplit : l = l.take k ++ l.drop k := (List.take_append_drop k l).symm
    have hlen : (l.take k).length = k := List.length_take_of_le (le_of_lt hk)
    calc encodeLE l % 256 ^ k
        = (encodeLE (l.take k) + 256 ^ k * encodeLE (l.drop k)) % 256 ^ k := by
          conv_lhs => rw [hsplit]
          rw [encodeLE_append, hlen]
    _ = encodeLE (l.take k) % 256 ^ k := by
          rw [Nat.add_mul_mod_self_left]
    _ = encodeLE (l.take k) := Nat.mod_eq_of_lt (by
          have : encodeLE (l.take k) < 256 ^ (l.take k).length :=
            encodeLE_lt _ (fun b hb => h b (List.mem_of_mem_take hb))
          rwa [hlen] at this)

theorem pow_256_eq (k : Nat) : (256 : Nat) ^ k = 2 ^ (8 * k) := by
  rw [show (256 : Nat) = 2 ^ 8 by norm_num, ← pow_mul]

/-- For in-range lengths and genuine byte data the masked load is the value
of the first `len` bytes of the slice. -/
theorem bytesToU64LE_eq (bytes : List Nat) (len : Nat)
    (hb : ∀ b ∈ bytes, b < 256) (hlen : len ≤ 8) :
    bytesToU64LE bytes len = encodeLE (bytes.take len) := by
  unfold bytesToU64LE
  rw [land_MASKS, ← pow_256_eq,
    encodeLE_mod _ _ (fun b hb' => hb b (List.mem_of_mem_take hb')),
    List.take_take, Nat.min_eq_left hlen]

theorem bytesToU64LE_lt (bytes : List Nat) (len : Nat) :
    bytesToU64LE bytes len < 2 ^ (8 * len) := by
  unfold bytesToU64LE
  rw [land_MASKS]
  exact Nat.mod_lt _ (Nat.pos_pow_of_pos _ (by norm_num))

theorem bytesToU64LE_lt64 (bytes : List Nat) (len : Nat) (h : len ≤ 8) :
    bytesToU64LE bytes len < 2 ^ 64 := by
  have hlt := bytesToU64LE_lt bytes len
  exact lt_of_lt_of_le hlt (Nat.pow_le_pow_right (by norm_num) (by omega))

theorem encodeLE_inj (l₁ l₂ : List Nat) (h₁ : ∀ b ∈ l₁, b < 256)
    (h₂ : ∀ b ∈ l₂, b < 256) (hlen : l₁.length = l₂.length)
    (h : encodeLE l₁ = encodeLE l₂) : l₁ = l₂ := by
  induction l₁ generalizing l₂ with
  | nil => cases l₂ with
    | nil => rfl
    | cons c cs => simp at hlen
  | cons b bs ih =>
    cases l₂ with
    | nil => simp at hlen
    | cons c cs =>
      simp only [encodeLE] at h
      have hb : b < 256 := h₁ b (List.mem_cons_self _ _)
      have hc : c < 256 := h₂ c (List.mem_cons_self _ _)
      have hbc : b = c := by omega
      subst hbc
      have : encodeLE bs = encodeLE cs := by omega
      have heq : bs = cs := ih cs (fun x hx => h₁ x (List.mem_cons_of_mem _ hx))
        (fun x hx => h₂ x (List.mem_cons_of_mem _ hx))
        (by simpa using hlen) this
      rw [heq]

theorem toLEBytes_length (w len : Nat) : (toLEBytes w len).length = len := by
  induction len generalizing w with
  | zero => rfl
  | succ k ih => simp [toLEBytes, ih]

theorem toLEBytes_lt (w len : Nat) : ∀ b ∈ toLEBytes w len, b < 256 := by
  induction len generalizing w with
  | zero => intro b hb; simp [toLEBytes] at hb
  | succ k ih =>
    intro b hb
    simp only [toLEBytes, List.mem_cons] at hb
    rcases hb with h | h
    · subst h; exact Nat.mod_lt _ (by norm_num)
    · exact ih _ b h

theorem encodeLE_toLEBytes (w len : Nat) (h : w < 256 ^ len) :
    encodeLE (toLEBytes w len) = w := by
  induction len generalizing w with
  | zero => simp at h; simp [toLEBytes, encodeLE, h]
  | succ k ih =>
    simp only [toLEBytes, encodeLE]
    rw [ih (w / 256) (by
      have h2 : 256 ^ (k + 1) = 256 ^ k * 256 := by ring
      rw [h2] at h
      exact Nat.div_lt_of_lt_mul (by omega))]
    omega

theorem tzFuel_le_iff (f : Nat) : ∀ n j : Nat, n ≠ 0 → n < 2 ^ f → j ≤ f →
    (j ≤ tzFuel f n ↔ n % 2 ^ j = 0) := by
  induction f with
  | zero =>
    intro n j hn hlt _
    simp at hlt
    omega
  | succ f ih =>
    intro n j hn hlt hj
    by_cases hodd : n % 2 = 1
    · have htz0 : tzFuel (f + 1) n = 0 := by simp [tzFuel, hodd]
      rw [htz0]
      constructor
      · intro h
        have hj0 : j = 0 := Nat.le_zero.mp h
        simp [hj0, Nat.mod_one]
      · intro h
        by_contra hc
        have hj1 : 1 ≤ j := by omega
        have : n % 2 = 0 := by
          have h2 : (2 : Nat) ^ 1 ∣ 2 ^ j := pow_dvd_pow 2 hj1
          have h3 : n % 2 ^ 1 = 0 := by
            have := Nat.mod_mod_of_dvd n h2
            omega
          simpa using h3
        omega
    · have heven : n % 2 = 0 := by omega
      have htz1 : tzFuel (f + 1) n = 1 + tzFuel f (n / 2) := by simp [tzFuel, hodd]
      rw [htz1]
      have hn2 : n / 2 ≠ 0 := by omega
      have hlt2 : n / 2 < 2 ^ f := by
        have : 2 ^ (f + 1) = 2 ^ f * 2 := by ring
        omega
      cases j with
      | zero => simp [Nat.mod_one]
      | succ k =>
        have hk : k ≤ f := by omega
        have hih := ih (n / 2) k hn2 hlt2 hk
        have hsplit : n = 2 * (n / 2) := by omega
        constructor
        · intro h
          have hk2 : k ≤ tzFuel f (n / 2) := by omega
          have hmod : n / 2 % 2 ^ k = 0 := hih.mp hk2
          obtain ⟨t, ht⟩ := Nat.dvd_of_mod_eq_zero hmod
          have hdvd : 2 ^ (k + 1) ∣ n := ⟨t, by rw [hsplit, ht, pow_succ]; ring⟩
          exact Nat.eq_zero_of_dvd_of_lt hdvd |> fun _ => Nat.mod_eq_zero_of_dvd hdvd
        · intro h
          have hdvd : 2 ^ (k + 1) ∣ n := Nat.dvd_of_mod_eq_zero h
          obtain ⟨t, ht⟩ := hdvd
          have hn' : n = 2 * (2 ^ k * t) := by rw [ht, pow_succ]; ring
          have hq : n / 2 = 2 ^ k * t := by
            rw [hn']; exact Nat.mul_div_cancel_left _ (by norm_num)
          have hmod : n / 2 % 2 ^ k = 0 :=
            Nat.mod_eq_zero_of_dvd ⟨t, hq⟩
          have := hih.mpr hmod
          omega

theorem xor_mod_two_pow (a b j : Nat) :
    (a ^^^ b) % 2 ^ j = (a % 2 ^ j) ^^^ (b % 2 ^ j) := by
  apply Nat.eq_of_testBit_eq
  intro i
  simp only [Nat.testBit_mod_two_pow, Nat.testBit_xor]
  by_cases h : i < j <;> simp [h]

theorem xor_eq_zero_iff (a b : Nat) : a ^^^ b = 0 ↔ a = b := by
  constructor
  · intro h
    apply Nat.eq_of_testBit_eq
    intro i
    have h2 := congrArg (fun n => Nat.testBit n i) h
    simp only [Nat.testBit_xor, Nat.zero_testBit] at h2
    cases hA : a.testBit i <;> cases hB : b.testBit i <;>
      simp [hA, hB] at h2 ⊢
  · intro h; subst h; simp

theorem sharedPrefixSize_ge_iff (a b k : Nat) (ha : a < 2 ^ 64) (hb : b < 2 ^ 64)
    (hk : k ≤ 8) : k ≤ sharedPrefixSize a b ↔ a % 2 ^ (8 * k) = b % 2 ^ (8 * k) := by
  unfold sharedPrefixSize
  by_cases heq : a ^^^ b = 0
  · have hab : a = b := (xor_eq_zero_iff a b).mp heq
    have h64 : trailingZeros64 (a ^^^ b) = 64 := by
      rw [heq]; rfl
    rw [h64]
    constructor
    · intro _; rw [hab]
    · intro _
      calc k ≤ 8 := hk
      _ = 64 / 8 := by norm_num
  · have htz : trailingZeros64 (a ^^^ b) = tzFuel 64 (a ^^^ b) := by
      unfold trailingZeros64
      rw [if_neg heq]
    rw [htz]
    have hlt : a ^^^ b < 2 ^ 64 := Nat.xor_lt_two_pow ha hb
    have h1 : k ≤ tzFuel 64 (a ^^^ b) / 8 ↔ 8 * k ≤ tzFuel 64 (a ^^^ b) := by
      rw [Nat.le_div_iff_mul_le (by norm_num)]
      omega
    rw [h1, tzFuel_le_iff 64 (a ^^^ b) (8 * k) heq hlt (by omega), xor_mod_two_pow]
    constructor
    · intro h
      exact (xor_eq_zero_iff (a % 2 ^ (8 * k)) (b % 2 ^ (8 * k))).mp h
    · intro h
      rw [h]
      simp

/-- The core fact behind the bitwise matching: the masked words agree on
their low `k` bytes iff the corresponding byte lists agree. -/
theorem isPrefixWord_true_iff (text cand : Nat) (textSize candSize : Nat)
    (ht : text < 2 ^ 64) (hc : cand < 2 ^ 64) (hcs : candSize ≤ 8) :
    isPrefixWord text cand textSize candSize = true ↔
      candSize ≤ textSize ∧ text % 2 ^ (8 * candSize) = cand % 2 ^ (8 * candSize) := by
  unfold isPrefixWord
  rw [Bool.and_eq_true, decide_eq_true_iff, decide_eq_true_iff,
    sharedPrefixSize_ge_iff text cand candSize ht hc hcs]

/- ### Association-list model of FxHashMap -/

/-- Lookup in an association list (model of `FxHashMap::get`). -/
def alookup {α β : Type} [DecidableEq α] : List (α × β) → α → Option β
  | [], _ => none
  | (k, v) :: rest, key => if key = k then some v else alookup rest key

/-- Insert into an association list: update in place if the key is present,
otherwise prepend (model of `FxHashMap::insert` / `entry().or_...`; the
iteration order this induces is one legitimate instance of a hash map's
unspecified order). -/
def ainsert {α β : Type} [DecidableEq α] (l : List (α × β)) (key : α) (v : β) :
    List (α × β) :=
  match l with
  | [] => [(key, v)]
  | (k, w) :: rest => if key = k then (key, v) :: rest else (k, w) :: ainsert rest key v

/-- Remove a key from an association list (model of `FxHashMap::remove`). -/
def aremove {α β : Type} [DecidableEq α] : List (α × β) → α → List (α × β)
  | [], _ => []
  | (k, v) :: rest, key => if key = k then rest else (k, v) :: aremove rest key

theorem alookup_ainsert {α β : Type} [DecidableEq α] (l : List (α × β)) (k : α) (v : β) :
    alookup (ainsert l k v) k = some v := by
  induction l with
  | nil => simp [ainsert, alookup]
  | cons p rest ih =>
    obtain ⟨k', w⟩ := p
    by_cases h : k = k'
    · simp [ainsert, h, alookup]
    · simp [ainsert, h, alookup, ih]

theorem alookup_ainsert_ne {α β : Type} [DecidableEq α] (l : List (α × β)) (k k' : α)
    (v : β) (h : k' ≠ k) : alookup (ainsert l k v) k' = alookup l k' := by
  induction l with
  | nil => simp [ainsert, alookup, h]
  | cons p rest ih =>
    obtain ⟨k₀, w⟩ := p
    by_cases h0 : k = k₀
    · subst h0
      simp [ainsert, alookup, h]
    · by_cases h1 : k' = k₀ <;> simp [ainsert, alookup, h0, h1, ih]

theorem alookup_aremove_ne {α β : Type} [DecidableEq α] (l : List (α × β)) (k k' : α)
    (h : k' ≠ k) : alookup (aremove l k) k' = alookup l k' := by
  induction l with
  | nil => simp [aremove]
  | cons p rest ih =>
    obtain ⟨k₀, w⟩ := p
    by_cases h0 : k = k₀
    · subst h0
      simp [aremove, alookup, h]
    · by_cases h1 : k' = k₀ <;> simp [aremove, alookup, h0, h1, ih]

theorem alookup_mem {α β : Type} [DecidableEq α] (l : List (α × β)) (k : α) (v : β)
    (h : alookup l k = some v) : (k, v) ∈ l := by
  induction l with
  | nil => simp [alookup] at h
  | cons p rest ih =>
    obtain ⟨k₀, w⟩ := p
    by_cases h0 : k = k₀
    · subst h0
      simp [alookup] at h
      simp [h]
    · simp [alookup, h0] at h
      exact List.mem_cons_of_mem _ (ih h)

theorem mem_ainsert {α β : Type} [DecidableEq α] (l : List (α × β)) (k : α) (v : β)
    (p : α × β) (h : p ∈ ainsert l k v) : p ∈ l ∨ p = (k, v) := by
  induction l with
  | nil => simp [ainsert] at h; right; exact h
  | cons q rest ih =>
    obtain ⟨k₀, w⟩ := q
    by_cases h0 : k = k₀
    · subst h0
      simp only [ainsert, if_pos rfl, if_true, eq_self_iff_true, List.mem_cons] at h
      rcases h with h | h
      · right; exact h
      · left; exact List.mem_cons_of_mem _ h
    · simp only [ainsert, if_neg h0, List.mem_cons] at h
      rcases h with h | h
      · left; simp [h]
      · rcases ih h with h' | h'
        · left; exact List.mem_cons_of_mem _ h'
        · right; exact h'

theorem mem_aremove {α β : Type} [DecidableEq α] (l : List (α × β)) (k : α)
    (p : α × β) (h : p ∈ aremove l k) : p ∈ l := by
  induction l with
  | nil => simp [aremove] at h
  | cons q rest ih =>
    obtain ⟨k₀, w⟩ := q
    by_cases h0 : k = k₀
    · subst h0
      simp only [aremove, if_pos rfl] at h
      exact List.mem_cons_of_mem _ h
    · simp only [aremove, if_neg h0, List.mem_cons] at h
      rcases h with h | h
      · simp [h]
      · exact List.mem_cons_of_mem _ (ih h)

/- ### Dynamic longest prefix matcher for 16-byte constrained patterns
(lpm16.rs, `LongestPrefixMatcher16`) -/

/-- `MAX_BUCKET_SIZE` (lpm16.rs:17). -/
def MAX_BUCKET_SIZE : Nat := 128

/-- One long-pattern bucket entry: `(suffix_word, suffix_len, token_id)`. -/
abbrev BEntry := Nat × Nat × Nat

/-- Model of `LongestPrefixMatcher16` (lpm16.rs:36): `dictionary` maps
`(masked_word, length)` to a token ID for short patterns; `buckets` maps an
8-byte prefix word to its long-pattern entries. -/
structure LPM16 where
  dictionary : List ((Nat × Nat) × Nat)
  buckets : List (Nat × List BEntry)

/-- `LongestPrefixMatcher16::new` (lpm16.rs:43). -/
def LPM16.empty : LPM16 := ⟨[], []⟩

/-- The comparator of `bucket.sort_unstable_by(|&a, &b| b.1.cmp(&a.1))`
(lpm16.rs:82): sort by decreasing suffix length.  The unstable sort's tie
order is unspecified; the model uses insertion sort with the same key. -/
def sortByLenDesc (l : List BEntry) : List BEntry :=
  l.insertionSort (fun a b => b.2.1 ≤ a.2.1)

/-- Model of `LongestPrefixMatcher16::insert` (lpm16.rs:58): returns the
`bool` result together with the updated matcher. -/
def LPM16.insert (st : LPM16) (data : List Nat) (id : Nat) : Bool × LPM16 :=
  let length := data.length
  if length ≤ 8 then
    (true, { st with dictionary := ainsert st.dictionary (bytesToU64LE data length, length) id })
  else
    let pfx := bytesToU64LE data 8
    let bucket := (alookup st.buckets pfx).getD []
    if bucket.length > MAX_BUCKET_SIZE then
      (false, { st with buckets := ainsert st.buckets pfx bucket })
    else
      let suffixLen := length - 8
      let suffixW := bytesToU64LE (data.drop 8) suffixLen
      let newBucket := sortByLenDesc (bucket ++ [(suffixW, suffixLen, id)])
      (true, { st with buckets := ainsert st.buckets pfx newBucket })

/-- Linear scan of a bucket, first match wins (the loop in lpm16.rs:97). -/
def scanBucket : List BEntry → Nat → Nat → Option (Nat × Nat)
  | [], _, _ => none
  | (eSuffix, eLen, eId) :: rest, suffixW, suffixLen =>
    if isPrefixWord suffixW eSuffix suffixLen eLen then some (eId, 8 + eLen)
    else scanBucket rest suffixW suffixLen

/-- Phase-2 short scan (lpm16.rs:107-113): lengths from `l` down to 1, with
the running word masked down at each step. -/
def shortScan (dict : List ((Nat × Nat) × Nat)) (w : Nat) : Nat → Option (Nat × Nat)
  | 0 => none
  | l + 1 =>
    let w' := Nat.land w (MASKS (l + 1))
    match alookup dict (w', l + 1) with
    | some id => some (id, l + 1)
    | none => shortScan dict w' l

/-- Model of `LongestPrefixMatcher16::find_longest_match` (lpm16.rs:89). -/
def LPM16.findLongestMatch (st : LPM16) (data : List Nat) : Option (Nat × Nat) :=
  let phase1 :=
    if data.length > 8 then
      let suffixLen := min data.length 16 - 8
      let pfx := bytesToU64LE data 8
      let suffixW := bytesToU64LE (data.drop 8) suffixLen
      match alookup st.buckets pfx with
      | some bucket => scanBucket bucket suffixW suffixLen
      | none => none
    else none
  match phase1 with
  | some r => some r
  | none => shortScan st.dictionary (bytesToU64LE data 8) (min 8 data.length)

/- ### Static longest prefix matcher (lpm16.rs, `StaticLongestPrefixMatcher16`) -/

/-- `N_INLINE_SUFFIXES` (lpm16.rs:15). -/
def N_INLINE_SUFFIXES : Nat := 4

/-- Model of `LongMatchInfo` (lpm16.rs:218).  The three parallel inline arrays
`inline_suffixes/inline_lengths/inline_ids` are modelled by the single list
`inline` holding only the filled entries (the query loop reads exactly the
first `min(4, n_suffixes)` slots, which is what `inline` holds for every
record `finalize` builds).  `nSuffixes` and `offset` carry the `u16` values
(hence the `% 2^16` where they are computed). -/
structure LongMatchInfo where
  prefixW : Nat
  inline : List BEntry
  nSuffixes : Nat
  offset : Nat
  answerId : Nat
  answerLength : Nat

/-- Model of `LongMatchInfo::default()`: the all-zero record. -/
def LongMatchInfo.default : LongMatchInfo := ⟨0, [], 0, 0, 0, 0⟩

/-- Model of `StaticLongestPrefixMatcher16` (lpm16.rs:234).  `phfKeys` models
the state of the external `ptr_hash::PtrHash` minimal perfect hash, which is
not part of this repository: the key set in a fixed order. -/
structure Static16 where
  shortDictionary : List ((Nat × Nat) × Nat)
  phfKeys : List Nat
  longInfo : List LongMatchInfo
  longBuckets : List BEntry

/-- Modelled from the spec: `PtrHash::index_no_remap` of the external
`ptr_hash` crate (its implementation is not in this repository).  The spec
requires (i) a dense index range over the key set, (ii) a deterministic index
for keys of the set, (iii) that the caller can detect spurious indices of
absent keys by comparing the stored 8-byte prefix with the query prefix.  The
model gives each present key its position in the key list (dense and
deterministic) and sends absent keys out of the dense range, so that the
caller's detection always succeeds. -/
def phfIndexNoRemap (keys : List Nat) (k : Nat) : Nat :=
  if k ∈ keys then keys.indexOf k else keys.length + 1

/-- First loop of `finalize` (lpm16.rs:127-160): build one `LongMatchInfo`
per bucket, spilling entries beyond the first 4 into `long_buckets`.
`none` models the `unwrap` panic when the dynamic matcher has no answer for
a bucket's own 8-byte prefix. -/
def finalizeBuckets (st : LPM16) :
    List (Nat × List BEntry) → List (Nat × LongMatchInfo) → List BEntry →
    Option (List (Nat × LongMatchInfo) × List BEntry)
  | [], longDict, longBkts => some (longDict, longBkts)
  | (pfx, bucket) :: rest, longDict, longBkts =>
    match st.findLongestMatch (toLEBytes pfx 8) with
    | none => none
    | some (answerId, answerLength) =>
      let offset := longBkts.length % 65536
      let nSuffixes := bucket.length % 65536
      let info : LongMatchInfo :=
        ⟨pfx, bucket.take N_INLINE_SUFFIXES, nSuffixes, offset, answerId, answerLength⟩
      finalizeBuckets st rest (ainsert longDict pfx info)
        (longBkts ++ bucket.drop N_INLINE_SUFFIXES)

/-- Second loop of `finalize` (lpm16.rs:164-187): promote 8-byte short keys
into the long dictionary (unless their prefix already has a record) and copy
the remaining short keys into the residual short dictionary. -/
def finalizeShortDict :
    List ((Nat × Nat) × Nat) → List (Nat × LongMatchInfo) → List ((Nat × Nat) × Nat) →
    List (Nat × LongMatchInfo) × List ((Nat × Nat) × Nat)
  | [], longDict, shortDict => (longDict, shortDict)
  | ((pfx, length), id) :: rest, longDict, shortDict =>
    if length = 8 then
      if (alookup longDict pfx).isSome then
        finalizeShortDict rest longDict shortDict
      else
        finalizeShortDict rest
          (ainsert longDict pfx ⟨pfx, [], 0, 0, id, length⟩) shortDict
    else
      finalizeShortDict rest longDict (ainsert shortDict (pfx, length) id)

/-- Model of `LongestPrefixMatcher16::finalize` (lpm16.rs:123). -/
def LPM16.finalize (st : LPM16) : Option Static16 :=
  match finalizeBuckets st st.buckets [] [] with
  | none => none
  | some (longDict0, longBkts) =>
    let pair := finalizeShortDict st.dictionary longDict0 []
    let longDict := pair.1
    let shortDict := pair.2
    let keys := longDict.map (fun p => p.1)
    let maxIdx := (keys.map (phfIndexNoRemap keys)).foldl max 0
    let longInfo0 := List.replicate (maxIdx + 1) LongMatchInfo.default
    let longInfo := longDict.foldl
      (fun acc p => acc.set (phfIndexNoRemap keys p.1) p.2) longInfo0
    some ⟨shortDict, keys, longInfo, longBkts⟩

/-- Model of `StaticLongestPrefixMatcher16::compute_long_answer`
(lpm16.rs:275).  The overflow scan `long_buckets[offset .. offset+n-4]` is
modelled with `take/drop`; in every state `finalize` produces, the slice is
within bounds (the stored offset is `len % 2^16 ≤ len` at push time), so
this matches the panicking indexed loop of the source. -/
def Static16.computeLongAnswer (st : Static16) (pfx suffixW suffixLen : Nat) :
    Option (Nat × Nat) :=
  let index := phfIndexNoRemap st.phfKeys pfx
  if index ≥ st.longInfo.length then none
  else
    let info := st.longInfo.getD index LongMatchInfo.default
    if pfx ≠ info.prefixW then none
    else
      match scanBucket (info.inline.take (min N_INLINE_SUFFIXES info.nSuffixes))
          suffixW suffixLen with
      | some r => some r
      | none =>
        if info.nSuffixes > N_INLINE_SUFFIXES then
          let start := info.offset
          let stop := start + info.nSuffixes - N_INLINE_SUFFIXES
          match scanBucket ((st.longBuckets.take stop).drop start) suffixW suffixLen with
          | some r => some r
          | none => some (info.answerId, info.answerLength)
        else some (info.answerId, info.answerLength)

/-- Model of `StaticLongestPrefixMatcher16::find_longest_match`
(lpm16.rs:248). -/
def Static16.findLongestMatch (st : Static16) (data : List Nat) : Option (Nat × Nat) :=
  let phase1 :=
    if data.length ≥ 8 then
      let suffixLen := min data.length 16 - 8
      st.computeLongAnswer (bytesToU64LE data 8)
        (bytesToU64LE (data.drop 8) suffixLen) suffixLen
    else none
  match phase1 with
  | some r => some r
  | none => shortScan st.shortDictionary (bytesToU64LE data 8) (min 7 data.length)

/- ### OnPair16 compressor (onpair16.rs) -/

/-- `MAX_LENGTH` (onpair16.rs:7). -/
def MAX_LENGTH : Nat := 16

/-- The mutable training state of `OnPair16::train_dictionary`: matcher,
pair-frequency map (`u16` counters), dictionary arena, token boundaries
(`u32` offsets) and the next token ID. -/
structure TrainSt16 where
  lpm : LPM16
  freq : List ((Nat × Nat) × Nat)
  dict : List Nat
  tb : List Nat
  nextId : Nat

/-- One iteration of the inner `while pos < end` loop of
`OnPair16::train_dictionary` (onpair16.rs:112-147).  Returns the updated
state together with the new `(previous_token_id, previous_length, pos)` and
the `break 'outer` flag; `none` models the `unwrap` panic.  The frequency
increment is the wrapping `u16` addition `+= 1` of the release build
(`% 2^16`); the `as u32` boundary cast is `% 2^32`. -/
def trainStep16 (data : List Nat) (endPos threshold : Nat) (s : TrainSt16)
    (prevId prevLen pos : Nat) : Option (TrainSt16 × Nat × Nat × Nat × Bool) :=
  match s.lpm.findLongestMatch (slice data pos endPos) with
  | none => none
  | some (mId, mLen) =>
    if mLen + prevLen ≤ MAX_LENGTH then
      let cnt := ((alookup s.freq (prevId, mId)).getD 0 + 1) % 65536
      let freq1 := ainsert s.freq (prevId, mId) cnt
      if cnt ≥ threshold then
        let merged := slice data (pos - prevLen) (pos + mLen)
        let ins := s.lpm.insert merged s.nextId
        if ins.1 then
          let dict1 := s.dict ++ merged
          let tb1 := s.tb ++ [dict1.length % 4294967296]
          let s1 : TrainSt16 := ⟨ins.2, aremove freq1 (prevId, mId), dict1, tb1, s.nextId⟩
          if s.nextId = 65535 then
            some (s1, s.nextId, merged.length, pos + mLen, true)
          else
            some ({ s1 with nextId := s.nextId + 1 }, s.nextId, merged.length,
              pos + mLen, false)
        else
          some ({ s with lpm := ins.2, freq := freq1 }, mId, mLen, pos + mLen, false)
      else
        some ({ s with freq := freq1 }, mId, mLen, pos + mLen, false)
    else
      some (s, mId, mLen, pos + mLen, false)

/-- The inner `while pos < end` training loop, generic in the per-iteration
step (shared by both variants, whose loops are textually identical up to the
step body); with fuel (each iteration advances `pos` by at least one byte
once coverage holds, so `end - start` fuel suffices). -/
def gTrainLoop {σ : Type} (endPos : Nat)
    (step : σ → Nat → Nat → Nat → Option (σ × Nat × Nat × Nat × Bool)) :
    Nat → σ → Nat → Nat → Nat → Option (σ × Bool)
  | 0, s, _, _, pos => if pos < endPos then none else some (s, false)
  | fuel + 1, s, prevId, prevLen, pos =>
    if pos < endPos then
      match step s prevId prevLen pos with
      | none => none
      | some (s1, pid, plen, pos1, brk) =>
        if brk then some (s1, true)
        else gTrainLoop endPos step fuel s1 pid plen pos1
    else some (s, false)

/-- The outer training loop over the (shuffled) string indices, generic in
the matcher's query function and the inner step (onpair.rs:91-135,
onpair16.rs:98-148): skip empty strings, seed `(previous, pos)` from the
first match, run the inner loop, stop everything on `break 'outer`. -/
def gTrainOuter {σ : Type} (data : List Nat) (eps : List Nat)
    (find : σ → List Nat → Option (Nat × Nat))
    (stepFam : Nat → σ → Nat → Nat → Nat → Option (σ × Nat × Nat × Nat × Bool)) :
    List Nat → σ → Option σ
  | [], s => some s
  | idx :: rest, s =>
    let start := eps.getD idx 0
    let endPos := eps.getD (idx + 1) 0
    if start = endPos then gTrainOuter data eps find stepFam rest s
    else
      match find s (slice data start endPos) with
      | none => none
      | some (mId, mLen) =>
        match gTrainLoop endPos (stepFam endPos) (endPos - start) s mId mLen
            (start + mLen) with
        | none => none
        | some (s1, brk) =>
          if brk then some s1 else gTrainOuter data eps find stepFam rest s1

/-- The training state after `token_boundaries.push(0)` and the insertion of
the 256 single-byte tokens (onpair16.rs:79-91). -/
def initTrainSt16 : TrainSt16 :=
  (List.range 256).foldl
    (fun s i =>
      { s with lpm := (s.lpm.insert [i] i).2,
               dict := s.dict ++ [i],
               tb := s.tb ++ [(s.dict.length + 1) % 4294967296] })
    ⟨LPM16.empty, [], [], [0], 256⟩

/-- Model of `OnPair16::train_dictionary` (onpair16.rs:78), parametrised by
the shuffled index order (the only effect of `thread_rng()`). -/
def trainDictionary16 (data : List Nat) (eps : List Nat) (threshold : Nat)
    (order : List Nat) : Option TrainSt16 :=
  gTrainOuter data eps (fun s => s.lpm.findLongestMatch)
    (fun endPos => trainStep16 data endPos threshold) order initTrainSt16

/-- The greedy parsing loop shared by `OnPair::parse_data` (onpair.rs:157)
and `OnPair16::parse_data` (onpair16.rs:170), generic in the matcher; with
fuel (`none` models the `unwrap` panic or divergence). -/
def parseLoop (find : List Nat → Option (Nat × Nat)) (data : List Nat) (endPos : Nat) :
    Nat → Nat → Option (List Nat)
  | 0, pos => if pos < endPos then none else some []
  | fuel + 1, pos =>
    if pos < endPos then
      match find (slice data pos endPos) with
      | none => none
      | some (id, len) =>
        match parseLoop find data endPos fuel (pos + len) with
        | none => none
        | some rest => some (id :: rest)
    else some []

/-- The window loop of `parse_data`, accumulating `compressed_data` and
`string_boundaries` (which starts with a pushed 0). -/
def parseWindows (find : List Nat → Option (Nat × Nat)) (data : List Nat) :
    List Nat → List Nat → List Nat → Option (List Nat × List Nat)
  | [], cd, sb => some (cd, sb)
  | [_], cd, sb => some (cd, sb)
  | a :: b :: rest, cd, sb =>
    if a = b then parseWindows find data (b :: rest) cd (sb ++ [cd.length])
    else
      match parseLoop find data b (b - a) a with
      | none => none
      | some toks =>
        parseWindows find data (b :: rest) (cd ++ toks) (sb ++ [(cd ++ toks).length])

/-- Model of `parse_data`, generic in the matcher. -/
def parseDataG (find : List Nat → Option (Nat × Nat)) (data : List Nat)
    (eps : List Nat) : Option (List Nat × List Nat) :=
  parseWindows find data eps [] [0]

/-- The read-only container state of `OnPair16` after compression
(onpair16.rs:9-20). -/
structure OnPair16St where
  threshold : Nat
  compressedData : List Nat
  stringBoundaries : List Nat
  dictionary : List Nat
  tokenBoundaries : List Nat
deriving DecidableEq

/-- Model of `OnPair16::compress_bytes` (onpair16.rs:62): train, finalize,
parse. -/
def compressBytes16 (threshold : Nat) (data : List Nat) (eps : List Nat)
    (order : List Nat) : Option OnPair16St :=
  match trainDictionary16 data eps threshold order with
  | none => none
  | some ts =>
    match ts.lpm.finalize with
    | none => none
    | some stat =>
      match parseDataG stat.findLongestMatch data eps with
      | none => none
      | some (cd, sb) => some ⟨threshold, cd, sb, ts.dict, ts.tb⟩

/-- Write a chunk of bytes into an (idealised, unbounded) output buffer. -/
def writeBytes (buffer : Nat → Nat) (dst : Nat) (src : List Nat) : Nat → Nat :=
  fun j => if dst ≤ j ∧ j < dst + src.length then src.getD (j - dst) 0 else buffer j

/-- The decode loop shared by `OnPair16::decompress_string` and
`decompress_all` (onpair16.rs:198-211, 230-242): for each token ID, copy a
fixed `MAX_LENGTH = 16` bytes from the arena (bytes read past the arena's
end are modelled as 0) and advance the cursor by the actual token length. -/
def decompressLoop16 (dict : List Nat) (tb : List Nat) :
    List Nat → (Nat → Nat) → Nat → (Nat → Nat) × Nat
  | [], buffer, size => (buffer, size)
  | id :: rest, buffer, size =>
    let dictStart := tb.getD id 0
    let dictEnd := tb.getD (id + 1) 0
    let length := dictEnd - dictStart
    let chunk := (List.range MAX_LENGTH).map (fun k => dict.getD (dictStart + k) 0)
    decompressLoop16 dict tb rest (writeBytes buffer size chunk) (size + length)

/-- Model of `OnPair16::decompress_string` (onpair16.rs:191). -/
def decompressString16 (st : OnPair16St) (index : Nat) (buffer : Nat → Nat) :
    (Nat → Nat) × Nat :=
  let a := st.stringBoundaries.getD index 0
  let b := st.stringBoundaries.getD (index + 1) 0
  decompressLoop16 st.dictionary st.tokenBoundaries (slice st.compressedData a b)
    buffer 0

/-- Model of `OnPair16::decompress_all` (onpair16.rs:225). -/
def decompressAll16 (st : OnPair16St) (buffer : Nat → Nat) : (Nat → Nat) × Nat :=
  decompressLoop16 st.dictionary st.tokenBoundaries st.compressedData buffer 0

/-- Model of `OnPair16::space_used` (onpair16.rs:248): compressed IDs are 2
bytes each, token boundaries are `u32` (4 bytes). -/
def spaceUsed16 (st : OnPair16St) : Nat :=
  st.compressedData.length * 2 + st.dictionary.length + st.tokenBoundaries.length * 4

/-- Model of `flatten_strings` (onpair.rs:241, onpair16.rs:267): concatenate
the strings, recording end positions starting with 0.  The byte buffer is
created with `Vec::with_capacity(total_len)` and filled to exactly
`total_len` bytes: no tail padding is added. -/
def flattenStrings (strings : List (List Nat)) : List Nat × List Nat :=
  strings.foldl (fun acc s => (acc.1 ++ s, acc.2 ++ [(acc.1 ++ s).length])) ([], [0])

/-- The number of bytes `flatten_strings` allocates for the data buffer:
`Vec::with_capacity(total_len)` requests exactly the total string length. -/
def flattenAllocation (strings : List (List Nat)) : Nat :=
  (flattenStrings strings).1.length

/-- Model of `OnPair16::compress_strings` (onpair16.rs:52). -/
def compressStrings16 (threshold : Nat) (strings : List (List Nat))
    (order : List Nat) : Option OnPair16St :=
  compressBytes16 threshold (flattenStrings strings).1 (flattenStrings strings).2 order

/- ### Variant A longest prefix matcher (lpm.rs, `LongestPrefixMatcher`) -/

/-- `TRIE_PREFIX_LEN` (lpm.rs:23). -/
def TRIE_PREFIX_LEN : Nat := 8

/-- Model of `TrieNode` (lpm.rs:27); the `V` type parameter is `u16`. -/
structure TrieNode where
  id : Option Nat
  children : List (Nat × Nat)

/-- A fresh trie node (`TrieNode { id: None, children: Vec::new() }`). -/
def TrieNode.empty : TrieNode := ⟨none, []⟩

/-- The child scan `for &(c, idx) in &node.children` (lpm.rs:94, 144):
first entry whose byte matches wins. -/
def findChildAux : List (Nat × Nat) → Nat → Option Nat
  | [], _ => none
  | (c, idx) :: rest, byte => if c = byte then some idx else findChildAux rest byte

/-- Model of `LongestPrefixMatcher<u16>` (lpm.rs:40). -/
structure LPMA where
  shortMatchLookup : List ((Nat × Nat) × Nat)
  longMatchRoots : List (Nat × Nat)
  nodePool : List TrieNode

/-- `LongestPrefixMatcher::new` (lpm.rs:56). -/
def LPMA.empty : LPMA := ⟨[], [], []⟩

/-- Set the `id` of a pool node (`self.node_pool[node_idx].id = Some(id)`,
lpm.rs:116). -/
def setNodeId (pool : List TrieNode) (idx : Nat) (id : Nat) : List TrieNode :=
  pool.set idx ⟨some id, (pool.getD idx TrieNode.empty).children⟩

/-- The suffix walk of `LongestPrefixMatcher::insert` (lpm.rs:87-113):
descend through existing children, creating fresh nodes (appended to the
pool, linked from their parent) where a byte has no child.  Returns the
updated pool and the final node index. -/
def trieInsertPath (pool : List TrieNode) (nodeIdx : Nat) :
    List Nat → List TrieNode × Nat
  | [] => (pool, nodeIdx)
  | byte :: rest =>
    match findChildAux (pool.getD nodeIdx TrieNode.empty).children byte with
    | some idx => trieInsertPath pool idx rest
    | none =>
      let newIdx := pool.length
      let pool1 := pool ++ [TrieNode.empty]
      let node := pool1.getD nodeIdx TrieNode.empty
      let pool2 := pool1.set nodeIdx ⟨node.id, node.children ++ [(byte, newIdx)]⟩
      trieInsertPath pool2 newIdx rest

/-- Model of `LongestPrefixMatcher::insert` (lpm.rs:70). -/
def LPMA.insert (st : LPMA) (entry : List Nat) (id : Nat) : LPMA :=
  if entry.length ≤ TRIE_PREFIX_LEN then
    { st with shortMatchLookup :=
        ainsert st.shortMatchLookup (bytesToU64LE entry entry.length, entry.length) id }
  else
    let pfx := bytesToU64LE entry TRIE_PREFIX_LEN
    match alookup st.longMatchRoots pfx with
    | some rootIdx =>
      let pr := trieInsertPath st.nodePool rootIdx (entry.drop TRIE_PREFIX_LEN)
      { st with nodePool := setNodeId pr.1 pr.2 id }
    | none =>
      let rootIdx := st.nodePool.length
      let pool1 := st.nodePool ++ [TrieNode.empty]
      let roots1 := ainsert st.longMatchRoots pfx rootIdx
      let pr := trieInsertPath pool1 rootIdx (entry.drop TRIE_PREFIX_LEN)
      { st with longMatchRoots := roots1, nodePool := setNodeId pr.1 pr.2 id }

/-- The trie traversal of `find_longest_match` (lpm.rs:139-164): follow the
data bytes, remembering the deepest node that carries an id. -/
def trieWalk (pool : List TrieNode) :
    Nat → List Nat → Nat → Option (Nat × Nat) → Option (Nat × Nat)
  | _, [], _, best => best
  | idx, byte :: rest, curLen, best =>
    match findChildAux (pool.getD idx TrieNode.empty).children byte with
    | some childIdx =>
      let best1 :=
        match (pool.getD childIdx TrieNode.empty).id with
        | some v => some (v, curLen + 1)
        | none => best
      trieWalk pool childIdx rest (curLen + 1) best1
    | none => best

/-- Phase-2 short scan of variant A (lpm.rs:173-179): lengths from `l` down
to 1, loading the masked word afresh at each length. -/
def shortScanA (dict : List ((Nat × Nat) × Nat)) (data : List Nat) :
    Nat → Option (Nat × Nat)
  | 0 => none
  | l + 1 =>
    match alookup dict (bytesToU64LE data (l + 1), l + 1) with
    | some id => some (id, l + 1)
    | none => shortScanA dict data l

/-- Model of `LongestPrefixMatcher::find_longest_match` (lpm.rs:128). -/
def LPMA.findLongestMatch (st : LPMA) (data : List Nat) : Option (Nat × Nat) :=
  let phase1 :=
    if data.length > TRIE_PREFIX_LEN then
      match alookup st.longMatchRoots (bytesToU64LE data TRIE_PREFIX_LEN) with
      | some rootIdx =>
        trieWalk st.nodePool rootIdx (data.drop TRIE_PREFIX_LEN) TRIE_PREFIX_LEN none
      | none => none
    else none
  match phase1 with
  | some r => some r
  | none => shortScanA st.shortMatchLookup data (min TRIE_PREFIX_LEN data.length)

/- ### OnPair compressor, variant A (onpair.rs) -/

/-- `FAST_COPY_SIZE` (onpair.rs:6). -/
def FAST_COPY_SIZE : Nat := 16

/-- The mutable training state of `OnPair::train_dictionary`
(token boundaries are `usize` offsets, no narrowing cast). -/
structure TrainStA where
  lpm : LPMA
  freq : List ((Nat × Nat) × Nat)
  dict : List Nat
  tb : List Nat
  nextId : Nat

/-- One iteration of the inner `while pos < end` loop of
`OnPair::train_dictionary` (onpair.rs:105-134).  Differences from variant B:
no 16-byte eligibility check, and the insert always succeeds.  The frequency
increment is the wrapping `u16` `+= 1` of the release build. -/
def trainStepA (data : List Nat) (endPos threshold : Nat) (s : TrainStA)
    (prevId prevLen pos : Nat) : Option (TrainStA × Nat × Nat × Nat × Bool) :=
  match s.lpm.findLongestMatch (slice data pos endPos) with
  | none => none
  | some (mId, mLen) =>
    let cnt := ((alookup s.freq (prevId, mId)).getD 0 + 1) % 65536
    let freq1 := ainsert s.freq (prevId, mId) cnt
    if cnt ≥ threshold then
      let merged := slice data (pos - prevLen) (pos + mLen)
      let lpm1 := s.lpm.insert merged s.nextId
      let dict1 := s.dict ++ merged
      let tb1 := s.tb ++ [dict1.length]
      let s1 : TrainStA := ⟨lpm1, aremove freq1 (prevId, mId), dict1, tb1, s.nextId⟩
      if s.nextId = 65535 then
        some (s1, s.nextId, merged.length, pos + mLen, true)
      else
        some ({ s1 with nextId := s.nextId + 1 }, s.nextId, merged.length,
          pos + mLen, false)
    else
      some ({ s with freq := freq1 }, mId, mLen, pos + mLen, false)

/-- The training state after `token_boundaries.push(0)` and the insertion of
the 256 single-byte tokens (onpair.rs:68-80). -/
def initTrainStA : TrainStA :=
  (List.range 256).foldl
    (fun s i =>
      { s with lpm := s.lpm.insert [i] i,
               dict := s.dict ++ [i],
               tb := s.tb ++ [s.dict.length + 1] })
    ⟨LPMA.empty, [], [], [0], 256⟩

/-- Model of `OnPair::train_dictionary` (onpair.rs:67), parametrised by the
shuffled index order (the only effect of `thread_rng()`) and by the merge
threshold (computed in the source from `data.len()` by floating-point
arithmetic, `max(2.0)`-clamped, so always ≥ 2; the claims quantify over
it). -/
def trainDictionaryA (data : List Nat) (eps : List Nat) (threshold : Nat)
    (order : List Nat) : Option TrainStA :=
  gTrainOuter data eps (fun s => s.lpm.findLongestMatch)
    (fun endPos => trainStepA data endPos threshold) order initTrainStA

/-- The read-only container state of `OnPair` after compression
(onpair.rs:8-16). -/
structure OnPairSt where
  compressedData : List Nat
  stringBoundaries : List Nat
  dictionary : List Nat
  tokenBoundaries : List Nat
deriving DecidableEq

/-- Model of `OnPair::compress_bytes` (onpair.rs:52): train, then parse with
the dynamic matcher. -/
def compressBytesA (data : List Nat) (eps : List Nat) (threshold : Nat)
    (order : List Nat) : Option OnPairSt :=
  match trainDictionaryA data eps threshold order with
  | none => none
  | some ts =>
    match parseDataG ts.lpm.findLongestMatch data eps with
    | none => none
    | some (cd, sb) => some ⟨cd, sb, ts.dict, ts.tb⟩

/-- Model of `OnPair::decompress_token` (onpair.rs:199): copy a fixed 16
bytes from the arena (out-of-arena reads modelled as 0), plus a tail copy
when the token is longer than 16; return the token length. -/
def decompressTokenA (dict : List Nat) (tb : List Nat) (id : Nat)
    (buffer : Nat → Nat) (dst : Nat) : (Nat → Nat) × Nat :=
  let start := tb.getD id 0
  let stop := tb.getD (id + 1) 0
  let tokenLen := stop - start
  let copyLen := max FAST_COPY_SIZE tokenLen
  let chunk := (List.range copyLen).map (fun k => dict.getD (start + k) 0)
  (writeBytes buffer dst chunk, tokenLen)

/-- The decode loop of `OnPair::decompress_string` / `decompress_all`
(onpair.rs:175-177, 186-188). -/
def decompressLoopA (dict : List Nat) (tb : List Nat) :
    List Nat → (Nat → Nat) → Nat → (Nat → Nat) × Nat
  | [], buffer, size => (buffer, size)
  | id :: rest, buffer, size =>
    let pr := decompressTokenA dict tb id buffer size
    decompressLoopA dict tb rest pr.1 (size + pr.2)

/-- Model of `OnPair::decompress_string` (onpair.rs:170). -/
def decompressStringA (st : OnPairSt) (index : Nat) (buffer : Nat → Nat) :
    (Nat → Nat) × Nat :=
  let a := st.stringBoundaries.getD index 0
  let b := st.stringBoundaries.getD (index + 1) 0
  decompressLoopA st.dictionary st.tokenBoundaries (slice st.compressedData a b)
    buffer 0

/-- Model of `OnPair::decompress_all` (onpair.rs:183). -/
def decompressAllA (st : OnPairSt) (buffer : Nat → Nat) : (Nat → Nat) × Nat :=
  decompressLoopA st.dictionary st.tokenBoundaries st.compressedData buffer 0

/-- Model of `OnPair::space_used` (onpair.rs:222): compressed IDs are 2
bytes each, token boundaries are `usize` (8 bytes on the 64-bit targets the
crate is written for). -/
def spaceUsedA (st : OnPairSt) : Nat :=
  st.compressedData.length * 2 + st.dictionary.length + st.tokenBoundaries.length * 8

/-- Model of `OnPair::compress_strings` (onpair.rs:42). -/
def compressStringsA (strings : List (List Nat)) (threshold : Nat)
    (order : List Nat) : Option OnPairSt :=
  compressBytesA (flattenStrings strings).1 (flattenStrings strings).2 threshold order

/- ### Helper lemmas for the claim theorems -/

/-- The precondition `compress_bytes` documents (spec §6): the data buffer
must have at least 8 readable bytes beyond `data.len()`, because
`bytes_to_u64_le` dereferences a full `u64` unconditionally. -/
def paddedPrecondition (dataLen alloc : Nat) : Prop := dataLen + 8 ≤ alloc

/-- Fold of `LongestPrefixMatcher16::insert` over a sequence of
`(key, id)` pairs, starting from the empty matcher. -/
def insertAll16 (seq : List (List Nat × Nat)) : LPM16 :=
  seq.foldl (fun st kv => (st.insert kv.1 kv.2).2) LPM16.empty

theorem parseWindows_sb_le (find : List Nat → Option (Nat × Nat)) (data : List Nat) :
    ∀ (eps cd sb cd' sb' : List Nat),
      parseWindows find data eps cd sb = some (cd', sb') → sb.length ≤ sb'.length := by
  intro eps
  induction eps with
  | nil =>
    intro cd sb cd' sb' h
    simp [parseWindows] at h
    rw [← h.2]
  | cons a rest ih =>
    intro cd sb cd' sb' h
    cases rest with
    | nil =>
      simp [parseWindows] at h
      rw [← h.2]
    | cons b rest2 =>
      by_cases hab : a = b
      · simp only [parseWindows, if_pos hab] at h
        have := ih cd (sb ++ [cd.length]) cd' sb' h
        simpa using le_trans (by simp) this
      · simp only [parseWindows, if_neg hab] at h
        cases hp : parseLoop find data b (b - a) a with
        | none => rw [hp] at h; simp at h
        | some toks =>
          rw [hp] at h
          simp only at h
          have := ih (cd ++ toks) (sb ++ [(cd ++ toks).length]) cd' sb' h
          simpa using le_trans (by simp) this

/-- Every bucket of a matcher built by inserts has at most
`MAX_BUCKET_SIZE + 1 = 129` entries (the overflow check fires strictly
above 128, after which the bucket is no longer grown). -/
theorem insert16_bucket_cap (st : LPM16) (key : List Nat) (id : Nat)
    (hcap : ∀ pfx bucket, (pfx, bucket) ∈ st.buckets →
      bucket.length ≤ MAX_BUCKET_SIZE + 1) :
    ∀ pfx bucket, (pfx, bucket) ∈ ((st.insert key id).2).buckets →
      bucket.length ≤ MAX_BUCKET_SIZE + 1 := by
  intro pfx bucket hmem
  unfold LPM16.insert at hmem
  by_cases hlen : key.length ≤ 8
  · simp only [if_pos hlen] at hmem
    exact hcap pfx bucket hmem
  · simp only [if_neg hlen] at hmem
    set kp := bytesToU64LE key 8 with hkp
    set old := (alookup st.buckets kp).getD [] with hold
    by_cases hover : old.length > MAX_BUCKET_SIZE
    · simp only [if_pos hover] at hmem
      rcases mem_ainsert _ _ _ _ hmem with h | h
      · exact hcap pfx bucket h
      · have : old.length ≤ MAX_BUCKET_SIZE + 1 := by
          cases hl : alookup st.buckets kp with
          | none => simp [hold, hl]
          | some b0 =>
            have : old = b0 := by simp [hold, hl]
            rw [this]
            exact hcap kp b0 (alookup_mem _ _ _ hl)
        have hb : bucket = old := by
          have := congrArg Prod.snd h
          simpa using this
        rw [hb]; exact this
    · simp only [if_neg hover] at hmem
      rcases mem_ainsert _ _ _ _ hmem with h | h
      · exact hcap pfx bucket h
      · have hb : bucket = sortByLenDesc
            (old ++ [(bytesToU64LE (key.drop 8) (key.length - 8), key.length - 8, id)]) := by
          have := congrArg Prod.snd h
          simpa using this
        rw [hb]
        unfold sortByLenDesc
        rw [List.length_insertionSort]
        simp only [List.length_append, List.length_singleton]
        omega

theorem insertAll16_bucket_cap (seq : List (List Nat × Nat)) :
    ∀ pfx bucket, (pfx, bucket) ∈ (insertAll16 seq).buckets →
      bucket.length ≤ MAX_BUCKET_SIZE + 1 := by
  have main : ∀ (l : List (List Nat × Nat)) (st : LPM16),
      (∀ pfx bucket, (pfx, bucket) ∈ st.buckets → bucket.length ≤ MAX_BUCKET_SIZE + 1) →
      ∀ pfx bucket,
        (pfx, bucket) ∈ (l.foldl (fun st kv => (st.insert kv.1 kv.2).2) st).buckets →
        bucket.length ≤ MAX_BUCKET_SIZE + 1 := by
    intro l
    induction l with
    | nil => intro st hcap; simpa using hcap
    | cons kv rest ih =>
      intro st hcap
      exact ih _ (insert16_bucket_cap st kv.1 kv.2 hcap)
  intro pfx bucket h
  exact main seq LPM16.empty (by intro p b hb; simp [LPM16.empty] at hb) pfx bucket h

/- ### Slice and arena lemmas -/

theorem slice_length (data : List Nat) (a b : Nat) :
    (slice data a b).length = min b data.length - a := by
  simp [slice]

theorem slice_bytes (data : List Nat) (a b : Nat) (h : ∀ x ∈ data, x < 256) :
    ∀ x ∈ slice data a b, x < 256 := by
  intro x hx
  unfold slice at hx
  exact h x (List.mem_of_mem_take (List.mem_of_mem_drop hx))

theorem slice_append_adjacent (data : List Nat) (a m b : Nat)
    (h1 : a ≤ m) (h2 : m ≤ b) :
    slice data a m ++ slice data m b = slice data a b := by
  unfold slice
  have hm : data.take m = (data.take b).take m := by
    rw [List.take_take, Nat.min_eq_left h2]
  rw [hm]
  set L := data.take b with hL
  rcases le_or_lt a L.length with ha | ha
  · have h3 : (L.take m ++ L.drop m).drop a = (L.take m).drop a ++ L.drop m :=
      List.drop_append_of_le_length (by simp; omega)
    rw [← h3, List.take_append_drop]
  · have e1 : (L.take m).drop a = [] := List.drop_eq_nil_of_le (by simp; omega)
    have e2 : L.drop m = [] := List.drop_eq_nil_of_le (by omega)
    have e3 : L.drop a = [] := List.drop_eq_nil_of_le (by omega)
    rw [e1, e2, e3]
    rfl

/- ### Claim theorems -/

/-- C5 (counterexample): after compressing `["ab"]` with variant A,
`space_used` does not equal the sum of the sizes of all four owned buffers —
the string boundary table is missing from the sum. -/
theorem C5_space_used_counterexample :
    (compressBytesA [97, 98] [0, 2] 2 [0]).map spaceUsedA ≠
      (compressBytesA [97, 98] [0, 2] 2 [0]).map (fun st =>
        st.compressedData.length * 2 + st.stringBoundaries.length * 8 +
          st.dictionary.length + st.tokenBoundaries.length * 8) := by
  decide

/-- C5 (amended): `space_used` returns the sum of the sizes in bytes of the
compressed token-ID stream (2 bytes per ID), the dictionary arena, and the
token boundary table (8-byte machine words in variant A, 4-byte `u32` in
variant B); the string boundary table — always nonempty after compression —
is not included. -/
theorem C5_space_used_amended (data eps : List Nat) (threshold : Nat)
    (order : List Nat) (stA : OnPairSt) (st16 : OnPair16St)
    (hA : compressBytesA data eps threshold order = some stA)
    (h16 : compressBytes16 threshold data eps order = some st16) :
    spaceUsedA stA = stA.compressedData.length * 2 + stA.dictionary.length +
        stA.tokenBoundaries.length * 8 ∧
    spaceUsed16 st16 = st16.compressedData.length * 2 + st16.dictionary.length +
        st16.tokenBoundaries.length * 4 ∧
    0 < stA.stringBoundaries.length ∧ 0 < st16.stringBoundaries.length := by
  refine ⟨rfl, rfl, ?_, ?_⟩
  · unfold compressBytesA at hA
    cases ht : trainDictionaryA data eps threshold order with
    | none => rw [ht] at hA; simp at hA
    | some ts =>
      rw [ht] at hA
      simp only at hA
      cases hp : parseDataG ts.lpm.findLongestMatch data eps with
      | none => rw [hp] at hA; simp at hA
      | some pr =>
        rw [hp] at hA
        simp only [Option.some.injEq] at hA
        obtain ⟨cd, sb⟩ := pr
        have hlen := parseWindows_sb_le ts.lpm.findLongestMatch data eps [] [0] cd sb hp
        have : stA.stringBoundaries = sb := by rw [← hA]
        rw [this]
        simpa using hlen
  · unfold compressBytes16 at h16
    cases ht : trainDictionary16 data eps threshold order with
    | none => rw [ht] at h16; simp at h16
    | some ts =>
      rw [ht] at h16
      simp only at h16
      cases hf : ts.lpm.finalize with
      | none => rw [hf] at h16; simp at h16
      | some stat =>
        rw [hf] at h16
        simp only at h16
        cases hp : parseDataG stat.findLongestMatch data eps with
        | none => rw [hp] at h16; simp at h16
        | some pr =>
          rw [hp] at h16
          simp only [Option.some.injEq] at h16
          obtain ⟨cd, sb⟩ := pr
          have hlen := parseWindows_sb_le stat.findLongestMatch data eps [] [0] cd sb hp
          have : st16.stringBoundaries = sb := by rw [← h16]
          rw [this]
          simpa using hlen

/-- C5 (witness): the amended statement applied to a concrete run. -/
theorem C5_space_used_amended_witness :
    ∃ stA st16, compressBytesA [97, 98] [0, 2] 2 [0] = some stA ∧
      compressBytes16 2 [97, 98] [0, 2] [0] = some st16 ∧
      (spaceUsedA stA = stA.compressedData.length * 2 + stA.dictionary.length +
          stA.tokenBoundaries.length * 8 ∧
        spaceUsed16 st16 = st16.compressedData.length * 2 + st16.dictionary.length +
          st16.tokenBoundaries.length * 4 ∧
        0 < stA.stringBoundaries.length ∧ 0 < st16.stringBoundaries.length) := by
  cases hA : compressBytesA [97, 98] [0, 2] 2 [0] with
  | none => exact absurd hA (by decide)
  | some stA =>
    cases h16 : compressBytes16 2 [97, 98] [0, 2] [0] with
    | none => exact absurd h16 (by decide)
    | some st16 =>
      exact ⟨stA, st16, rfl, rfl, C5_space_used_amended _ _ _ _ _ _ hA h16⟩

/-- C6 (counterexample): inserting the same 9-byte key into the dynamic
matcher, the 129th insert — made while its bucket already holds exactly
`MAX_BUCKET_SIZE = 128` entries — still returns `true` (the claim says it
returns `false`), and buckets grow to 129 entries. -/
theorem C6_bucket_overflow_counterexample :
    ((((List.range 128).foldl (fun st _ => (st.insert [1, 2, 3, 4, 5, 6, 7, 8, 9] 300).2)
        LPM16.empty)).insert [1, 2, 3, 4, 5, 6, 7, 8, 9] 300).1 = true ∧
    ((alookup ((List.range 130).foldl
        (fun st _ => (st.insert [1, 2, 3, 4, 5, 6, 7, 8, 9] 300).2)
        LPM16.empty).buckets (bytesToU64LE [1, 2, 3, 4, 5, 6, 7, 8, 9] 8)).getD []).length
      = 129 := by
  decide

/-- C6 (amended): a long-key insert returns `false` exactly when the key's
bucket already holds strictly more than `MAX_BUCKET_SIZE = 128` entries (that
is, 129), so buckets reachable by inserts hold at most 129 entries — not
128; short-key inserts always return `true`. -/
theorem C6_bucket_overflow_amended (seq : List (List Nat × Nat))
    (key : List Nat) (id : Nat) :
    (8 < key.length →
      (((insertAll16 seq).insert key id).1 = false ↔
        MAX_BUCKET_SIZE <
          ((alookup (insertAll16 seq).buckets (bytesToU64LE key 8)).getD []).length)) ∧
    (key.length ≤ 8 → ((insertAll16 seq).insert key id).1 = true) ∧
    (∀ pfx bucket, (pfx, bucket) ∈ (insertAll16 seq).buckets →
      bucket.length ≤ MAX_BUCKET_SIZE + 1) := by
  refine ⟨?_, ?_, insertAll16_bucket_cap seq⟩
  · intro hlen
    unfold LPM16.insert
    have hn : ¬ key.length ≤ 8 := by omega
    simp only [if_neg hn]
    by_cases hover :
        ((alookup (insertAll16 seq).buckets (bytesToU64LE key 8)).getD []).length >
          MAX_BUCKET_SIZE
    · simp [hover]
    · simp only [if_neg hover]
      simpa using hover
  · intro hlen
    unfold LPM16.insert
    simp [if_pos hlen]

/-- C6 (witness): the amended statement at a concrete input — after 129
inserts of one 9-byte key, the next insert of that key is refused. -/
theorem C6_bucket_overflow_amended_witness :
    ((insertAll16 (List.replicate 129 ([1, 2, 3, 4, 5, 6, 7, 8, 9], 300))).insert
      [1, 2, 3, 4, 5, 6, 7, 8, 9] 300).1 = false := by
  have h := (C6_bucket_overflow_amended
    (List.replicate 129 ([1, 2, 3, 4, 5, 6, 7, 8, 9], 300))
    [1, 2, 3, 4, 5, 6, 7, 8, 9] 300).1 (by decide)
  rw [h]
  decide

/-- C7: the pair-frequency counter does not saturate.  In a state whose
bucket for the merged key is full (129 entries), the merge is refused and the
counter entry is retained past the threshold (first conjunct: a counter at
65534 is incremented to 65535, nothing is added to the dictionary); one more
increment then wraps the `u16` to 0 instead of staying at 65535 (second
conjunct), contradicting the claimed saturation. -/
theorem C7_frequency_counter_wraps :
    ((trainStep16 [1, 2, 3, 4, 5, 6, 7, 8, 1] 9 2
        ⟨(((List.range 129).foldl
            (fun st _ => (st.insert [1, 2, 3, 4, 5, 6, 7, 8, 9] 300).2)
            LPM16.empty).insert [1] 1).2,
          [((400, 1), 65534)], [], [0], 500⟩ 400 8 8).map
        (fun r => ((alookup r.1.freq (400, 1)).getD 0, r.1.nextId, r.1.dict.length))
      = some (65535, 500, 0)) ∧
    ((trainStep16 [1, 2, 3, 4, 5, 6, 7, 8, 1] 9 2
        ⟨(((List.range 129).foldl
            (fun st _ => (st.insert [1, 2, 3, 4, 5, 6, 7, 8, 9] 300).2)
            LPM16.empty).insert [1] 1).2,
          [((400, 1), 65535)], [], [0], 500⟩ 400 8 8).map
        (fun r => (alookup r.1.freq (400, 1)).getD 0)
      = some 0) := by
  decide

/-- C8: the shuffled order is a genuine input of training — the same
`(data, end_positions)` compressed under two different shuffle orders yields
different dictionaries and compressed streams, and the source offers no way
to fix or seed `thread_rng()`. -/
theorem C8_shuffle_order_sensitivity :
    compressBytesA [97, 98, 97, 98, 99, 100, 99, 100] [0, 2, 4, 6, 8] 2 [0, 1, 2, 3] ≠
      compressBytesA [97, 98, 97, 98, 99, 100, 99, 100] [0, 2, 4, 6, 8] 2 [2, 3, 0, 1] := by
  decide

/-- C9: `flatten_strings` allocates exactly the total string length and adds
no tail padding, so for every collection the flattened buffer violates
`compress_bytes`' own documented precondition of 8 readable bytes past
`data.len()` (and the unconditional 8-byte loads of `bytes_to_u64_le` during
`compress_strings` touch bytes outside the allocation whenever the input is
nonempty). -/
theorem C9_flatten_strings_unpadded (strings : List (List Nat)) :
    flattenAllocation strings = (flattenStrings strings).1.length ∧
      ¬ paddedPrecondition (flattenStrings strings).1.length
          (flattenAllocation strings) := by
  refine ⟨rfl, ?_⟩
  unfold paddedPrecondition flattenAllocation
  omega

/-- C10: with input `[0xFF]`, both variants emit token 255, whose fixed
16-byte decode copy starts at arena offset 255 while the arena holds only
256 bytes: `token_boundaries[id] + 16 ≤ dictionary.len()` fails for emitted
tokens at the end of the arena. -/
theorem C10_decode_reads_past_arena :
    ((compressBytesA [255] [0, 1] 2 [0]).map (fun st =>
        (st.compressedData,
          decide (st.tokenBoundaries.getD 255 0 + FAST_COPY_SIZE ≤ st.dictionary.length)))
      = some ([255], false)) ∧
    ((compressBytes16 2 [255] [0, 1] [0]).map (fun st =>
        (st.compressedData,
          decide (st.tokenBoundaries.getD 255 0 + MAX_LENGTH ≤ st.dictionary.length)))
      = some ([255], false)) := by
  decide

end OnPairModel

namespace OnPairModel

/- ### Arena invariant and token-byte lemmas -/

/-- The bytes of token `id` in the arena: `dictionary[tb[id] .. tb[id+1]]`. -/
def tokenBytes (dict tb : List Nat) (id : Nat) : List Nat :=
  slice dict (tb.getD id 0) (tb.getD (id + 1) 0)

theorem getD_append_left' (l₁ l₂ : List Nat) (i : Nat) (h : i < l₁.length) :
    (l₁ ++ l₂).getD i 0 = l₁.getD i 0 := by
  simp only [List.getD_eq_getElem?_getD]
  rw [List.getElem?_append_left h]

theorem getD_append_last (l : List Nat) (x : Nat) :
    (l ++ [x]).getD l.length 0 = x := by
  simp only [List.getD_eq_getElem?_getD]
  rw [List.getElem?_append_right (le_refl _)]
  simp

/-- Structural invariant of the (arena, token-boundary, next-id) triple kept
by both learners. -/
structure ArenaInv (dict tb : List Nat) (nextId : Nat) : Prop where
  tbLen : tb.length = nextId + 1
  nextLo : 256 ≤ nextId
  tbZero : tb.getD 0 0 = 0
  tokPos : ∀ i, i + 1 < tb.length → tb.getD i 0 < tb.getD (i + 1) 0
  tbLast : tb.getD (tb.length - 1) 0 = dict.length
  dictBytes : ∀ b ∈ dict, b < 256

theorem ArenaInv.mono {dict tb : List Nat} {nextId : Nat} (ai : ArenaInv dict tb nextId) :
    ∀ i j, i ≤ j → j < tb.length → tb.getD i 0 ≤ tb.getD j 0 := by
  intro i j hij hj
  induction j with
  | zero => have : i = 0 := by omega
            simp [this]
  | succ k ih =>
    rcases Nat.lt_or_ge i (k + 1) with h | h
    · have h1 : tb.getD i 0 ≤ tb.getD k 0 := ih (by omega) (by omega)
      have h2 : tb.getD k 0 ≤ tb.getD (k + 1) 0 := le_of_lt (ai.tokPos k hj)
      omega
    · have : i = k + 1 := by omega
      simp [this]

theorem ArenaInv.le_dictLen {dict tb : List Nat} {nextId : Nat}
    (ai : ArenaInv dict tb nextId) : ∀ i, i < tb.length → tb.getD i 0 ≤ dict.length := by
  intro i hi
  have h1 := ai.mono i (tb.length - 1) (by omega) (by omega)
  rw [ai.tbLast] at h1
  exact h1

theorem tokenBytes_length {dict tb : List Nat} {nextId : Nat}
    (ai : ArenaInv dict tb nextId) (id : Nat) (h : id + 1 < tb.length) :
    (tokenBytes dict tb id).length = tb.getD (id + 1) 0 - tb.getD id 0 := by
  unfold tokenBytes
  rw [slice_length]
  have := ai.le_dictLen (id + 1) h
  omega

theorem tokenBytes_bytes {dict tb : List Nat} {nextId : Nat}
    (ai : ArenaInv dict tb nextId) (id : Nat) :
    ∀ b ∈ tokenBytes dict tb id, b < 256 :=
  slice_bytes _ _ _ ai.dictBytes

theorem tokenBytes_stable {dict tb : List Nat} {nextId : Nat}
    (ai : ArenaInv dict tb nextId) (m : List Nat) (x : Nat) (id : Nat)
    (h : id + 1 < tb.length) :
    tokenBytes (dict ++ m) (tb ++ [x]) id = tokenBytes dict tb id := by
  unfold tokenBytes
  rw [getD_append_left' _ _ _ (by omega), getD_append_left' _ _ _ h]
  unfold slice
  rw [List.take_append_of_le_length (ai.le_dictLen (id + 1) h)]

theorem tokenBytes_new {dict tb : List Nat} {nextId : Nat}
    (ai : ArenaInv dict tb nextId) (m : List Nat) :
    tokenBytes (dict ++ m) (tb ++ [(dict ++ m).length]) nextId = m := by
  unfold tokenBytes
  have htb := ai.tbLen
  have h1 : (tb ++ [(dict ++ m).length]).getD nextId 0 = dict.length := by
    rw [getD_append_left' _ _ _ (by omega)]
    have := ai.tbLast
    rw [ai.tbLen] at this
    simpa using this
  have h2 : (tb ++ [(dict ++ m).length]).getD (nextId + 1) 0 = (dict ++ m).length := by
    have : nextId + 1 = tb.length := by omega
    rw [this]
    exact getD_append_last _ _
  rw [h1, h2]
  unfold slice
  rw [List.take_of_length_le (by simp), List.drop_append_of_le_length (le_refl _)]
  simp

theorem ArenaInv.extend {dict tb : List Nat} {nextId : Nat}
    (ai : ArenaInv dict tb nextId) (m : List Nat) (hm : 1 ≤ m.length)
    (hb : ∀ b ∈ m, b < 256) :
    ArenaInv (dict ++ m) (tb ++ [(dict ++ m).length]) (nextId + 1) := by
  have htb := ai.tbLen
  have hlo := ai.nextLo
  refine ⟨by simp [ai.tbLen], by omega, ?_, ?_, ?_, ?_⟩
  · rw [getD_append_left' _ _ _ (by omega)]
    exact ai.tbZero
  · intro i hi
    simp only [List.length_append, List.length_singleton] at hi
    rcases Nat.lt_or_ge (i + 1) tb.length with h | h
    · rw [getD_append_left' _ _ _ (by omega), getD_append_left' _ _ _ h]
      exact ai.tokPos i h
    · have hieq : i + 1 = tb.length := by omega
      have h1 : (tb ++ [(dict ++ m).length]).getD i 0 = dict.length := by
        rw [getD_append_left' _ _ _ (by omega)]
        have := ai.tbLast
        have hi2 : i = tb.length - 1 := by omega
        rw [hi2]
        exact this
      have h2 : (tb ++ [(dict ++ m).length]).getD (i + 1) 0 = (dict ++ m).length := by
        rw [hieq]
        exact getD_append_last _ _
      rw [h1, h2]
      simp only [List.length_append]
      omega
  · have hl : (tb ++ [(dict ++ m).length]).length - 1 = tb.length := by simp
    rw [hl]
    exact getD_append_last _ _
  · intro b hbm
    rcases List.mem_append.mp hbm with h | h
    · exact ai.dictBytes b h
    · exact hb b h

end OnPairModel

namespace OnPairModel

/- ### Short-scan characterization -/

/-- Specification view of the phase-2 scan: at each length the looked-up
word is the original word reduced mod `2^(8 len)`. -/
def shortScanSpec (dict : List ((Nat × Nat) × Nat)) (w : Nat) : Nat → Option (Nat × Nat)
  | 0 => none
  | l + 1 =>
    match alookup dict (w % 2 ^ (8 * (l + 1)), l + 1) with
    | some id => some (id, l + 1)
    | none => shortScanSpec dict w l

theorem shortScanSpec_mod (dict : List ((Nat × Nat) × Nat)) (w L : Nat) :
    ∀ l, l ≤ L → shortScanSpec dict (w % 2 ^ (8 * L)) l = shortScanSpec dict w l := by
  intro l
  induction l with
  | zero => intro _; rfl
  | succ k ih =>
    intro hl
    have hmm : w % 2 ^ (8 * L) % 2 ^ (8 * (k + 1)) = w % 2 ^ (8 * (k + 1)) :=
      Nat.mod_mod_of_dvd w (pow_dvd_pow 2 (by omega))
    simp only [shortScanSpec, hmm]
    rw [ih (by omega)]

theorem shortScan_eq_spec (dict : List ((Nat × Nat) × Nat)) :
    ∀ (l : Nat) (w : Nat), shortScan dict w l = shortScanSpec dict w l := by
  intro l
  induction l with
  | zero => intro w; rfl
  | succ k ih =>
    intro w
    simp only [shortScan, shortScanSpec, land_MASKS]
    cases alookup dict (w % 2 ^ (8 * (k + 1)), k + 1) with
    | some id => rfl
    | none =>
      simp only
      rw [ih (w % 2 ^ (8 * (k + 1))), shortScanSpec_mod dict w (k + 1) k (by omega)]

theorem shortScanSpec_some (dict : List ((Nat × Nat) × Nat)) (w : Nat) :
    ∀ l id len, shortScanSpec dict w l = some (id, len) →
      1 ≤ len ∧ len ≤ l ∧ alookup dict (w % 2 ^ (8 * len), len) = some id := by
  intro l
  induction l with
  | zero => intro id len h; simp [shortScanSpec] at h
  | succ k ih =>
    intro id len h
    simp only [shortScanSpec] at h
    cases hl : alookup dict (w % 2 ^ (8 * (k + 1)), k + 1) with
    | some id' =>
      rw [hl] at h
      simp only [Option.some.injEq, Prod.mk.injEq] at h
      refine ⟨by omega, by omega, ?_⟩
      rw [← h.2, ← h.1]
      exact hl
    | none =>
      rw [hl] at h
      simp only at h
      obtain ⟨h1, h2, h3⟩ := ih id len h
      exact ⟨h1, by omega, h3⟩

theorem shortScanSpec_total (dict : List ((Nat × Nat) × Nat)) (w : Nat) :
    ∀ l, 1 ≤ l → (alookup dict (w % 2 ^ (8 * 1), 1)).isSome →
      (shortScanSpec dict w l).isSome := by
  intro l
  induction l with
  | zero => intro h; omega
  | succ k ih =>
    intro _ hhit
    simp only [shortScanSpec]
    cases hl : alookup dict (w % 2 ^ (8 * (k + 1)), k + 1) with
    | some id' => simp
    | none =>
      simp only
      rcases Nat.eq_zero_or_pos k with hk | hk
      · subst hk
        rw [hl] at hhit
        simp at hhit
      · exact ih hk hhit

/- ### Bucket-scan characterization -/

theorem scanBucket_some : ∀ (bucket : List BEntry) (sw sl id len : Nat),
    scanBucket bucket sw sl = some (id, len) →
    ∃ e ∈ bucket, isPrefixWord sw e.1 sl e.2.1 = true ∧ id = e.2.2 ∧ len = 8 + e.2.1 := by
  intro bucket
  induction bucket with
  | nil => intro sw sl id len h; simp [scanBucket] at h
  | cons e rest ih =>
    intro sw sl id len h
    obtain ⟨es, el, eid⟩ := e
    simp only [scanBucket] at h
    by_cases hp : isPrefixWord sw es sl el
    · rw [if_pos hp] at h
      simp only [Option.some.injEq, Prod.mk.injEq] at h
      exact ⟨(es, el, eid), List.mem_cons_self _ _, hp, h.1.symm, h.2.symm⟩
    · rw [if_neg hp] at h
      obtain ⟨e', he', h1, h2, h3⟩ := ih sw sl id len h
      exact ⟨e', List.mem_cons_of_mem _ he', h1, h2, h3⟩

theorem scanBucket_append (l₁ l₂ : List BEntry) (sw sl : Nat) :
    scanBucket (l₁ ++ l₂) sw sl =
      match scanBucket l₁ sw sl with
      | some r => some r
      | none => scanBucket l₂ sw sl := by
  induction l₁ with
  | nil => simp [scanBucket]
  | cons e rest ih =>
    obtain ⟨es, el, eid⟩ := e
    by_cases hp : isPrefixWord sw es sl el
    · simp [scanBucket, hp]
    · simp [scanBucket, hp, ih]

end OnPairModel

namespace OnPairModel

/- ### Matcher invariants (variant B) -/

/-- Soundness invariant of the short-key map relative to the arena: every
entry `(word, len) ↦ id` stores the masked word of token `id`'s bytes, and
the 256 single-byte tokens are always present under their own ids. -/
structure DictInv (dm : List ((Nat × Nat) × Nat)) (dict tb : List Nat) (nextId : Nat) : Prop where
  nodupKeys : (dm.map (fun p => p.1)).Nodup
  sound : ∀ w l id, alookup dm (w, l) = some id →
    1 ≤ l ∧ l ≤ 8 ∧ id < nextId ∧
    (tokenBytes dict tb id).length = l ∧
    encodeLE (tokenBytes dict tb id) = w
  singles : ∀ b, b < 256 → alookup dm (b, 1) = some b

/-- Soundness invariant of the long-key buckets relative to the arena. -/
structure BucketInv (bkts : List (Nat × List BEntry)) (dict tb : List Nat) (nextId : Nat) : Prop where
  nodupKeys : (bkts.map (fun p => p.1)).Nodup
  sound : ∀ pfx bucket, (pfx, bucket) ∈ bkts → ∀ e ∈ bucket,
    1 ≤ e.2.1 ∧ e.2.1 ≤ 8 ∧ e.2.2 < nextId ∧
    (tokenBytes dict tb e.2.2).length = 8 + e.2.1 ∧
    encodeLE ((tokenBytes dict tb e.2.2).take 8) = pfx ∧
    encodeLE ((tokenBytes dict tb e.2.2).drop 8) = e.1
  cap : ∀ pfx bucket, (pfx, bucket) ∈ bkts → bucket.length ≤ MAX_BUCKET_SIZE + 1

theorem DictInv.next_mono_dict {dm : List ((Nat × Nat) × Nat)} {dict tb : List Nat}
    {n n' : Nat} (h : DictInv dm dict tb n) (hn : n ≤ n') : DictInv dm dict tb n' := by
  refine ⟨h.nodupKeys, ?_, h.singles⟩
  intro w l id hl
  obtain ⟨h1, h2, h3, h4, h5⟩ := h.sound w l id hl
  exact ⟨h1, h2, by omega, h4, h5⟩

theorem BucketInv.next_mono_bucket {bkts : List (Nat × List BEntry)} {dict tb : List Nat}
    {n n' : Nat} (h : BucketInv bkts dict tb n) (hn : n ≤ n') : BucketInv bkts dict tb n' := by
  refine ⟨h.nodupKeys, ?_, h.cap⟩
  intro pfx bucket hm e he
  obtain ⟨h1, h2, h3, h4, h5, h6⟩ := h.sound pfx bucket hm e he
  exact ⟨h1, h2, by omega, h4, h5, h6⟩

theorem DictInv.arena_stable_dict {dm : List ((Nat × Nat) × Nat)} {dict tb dict' tb' : List Nat}
    {n : Nat} (h : DictInv dm dict tb n)
    (hst : ∀ id, id < n → tokenBytes dict' tb' id = tokenBytes dict tb id) :
    DictInv dm dict' tb' n := by
  refine ⟨h.nodupKeys, ?_, h.singles⟩
  intro w l id hl
  obtain ⟨h1, h2, h3, h4, h5⟩ := h.sound w l id hl
  rw [hst id h3]
  exact ⟨h1, h2, h3, h4, h5⟩

theorem BucketInv.arena_stable_bucket {bkts : List (Nat × List BEntry)} {dict tb dict' tb' : List Nat}
    {n : Nat} (h : BucketInv bkts dict tb n)
    (hst : ∀ id, id < n → tokenBytes dict' tb' id = tokenBytes dict tb id) :
    BucketInv bkts dict' tb' n := by
  refine ⟨h.nodupKeys, ?_, h.cap⟩
  intro pfx bucket hm e he
  obtain ⟨h1, h2, h3, h4, h5, h6⟩ := h.sound pfx bucket hm e he
  rw [hst e.2.2 h3]
  exact ⟨h1, h2, h3, h4, h5, h6⟩

/- ### Soundness and totality of the dynamic variant-B matcher -/

theorem find16_sound_short {dict tb : List Nat} {nextId : Nat} (st : LPM16)
    (ai : ArenaInv dict tb nextId)
    (hd : DictInv st.dictionary dict tb nextId)
    (q : List Nat) (hq : ∀ b ∈ q, b < 256) {id len : Nat}
    (h : shortScan st.dictionary (bytesToU64LE q 8) (min 8 q.length) = some (id, len)) :
    1 ≤ len ∧ len ≤ q.length ∧ len ≤ 16 ∧ id < nextId ∧ tokenBytes dict tb id = q.take len := by
  rw [shortScan_eq_spec] at h
  obtain ⟨h1, h2, h3⟩ := shortScanSpec_some _ _ _ _ _ h
  have hlen8 : len ≤ 8 := by omega
  have hlenq : len ≤ q.length := by omega
  have hw : bytesToU64LE q 8 % 2 ^ (8 * len) = encodeLE (q.take len) := by
    rw [bytesToU64LE_eq q 8 hq (le_refl 8), ← pow_256_eq,
      encodeLE_mod _ _ (fun b hb' => hq b (List.mem_of_mem_take hb')),
      List.take_take, Nat.min_eq_left hlen8]
  rw [hw] at h3
  obtain ⟨g1, g2, g3, g4, g5⟩ := hd.sound _ len id h3
  refine ⟨h1, hlenq, by omega, g3, ?_⟩
  apply encodeLE_inj
  · exact tokenBytes_bytes ai id
  · intro b hb'; exact hq b (List.mem_of_mem_take hb')
  · rw [g4, List.length_take]
    omega
  · rw [g5]

theorem find16_sound {dict tb : List Nat} {nextId : Nat} (st : LPM16)
    (ai : ArenaInv dict tb nextId)
    (hd : DictInv st.dictionary dict tb nextId)
    (hb : BucketInv st.buckets dict tb nextId)
    (q : List Nat) (hq : ∀ b ∈ q, b < 256) {id len : Nat}
    (h : st.findLongestMatch q = some (id, len)) :
    1 ≤ len ∧ len ≤ q.length ∧ len ≤ 16 ∧ id < nextId ∧ tokenBytes dict tb id = q.take len := by
  unfold LPM16.findLongestMatch at h
  by_cases hql : q.length > 8
  · simp only [if_pos hql] at h
    cases hbl : alookup st.buckets (bytesToU64LE q 8) with
    | none =>
      rw [hbl] at h
      simp only at h
      exact find16_sound_short st ai hd q hq h
    | some bucket =>
      rw [hbl] at h
      simp only at h
      cases hscan : scanBucket bucket (bytesToU64LE (q.drop 8) (min q.length 16 - 8))
          (min q.length 16 - 8) with
      | none =>
        rw [hscan] at h
        simp only at h
        exact find16_sound_short st ai hd q hq h
      | some r =>
        rw [hscan] at h
        simp only [Option.some.injEq] at h
        rw [h] at hscan
        obtain ⟨e, he, hiso, hid, hlen⟩ := scanBucket_some bucket _ _ id len hscan
        obtain ⟨hsl1, hsl8, hidlt, htlen, hpfx, hsuf⟩ :=
          hb.sound _ bucket (alookup_mem _ _ _ hbl) e he
        -- decode the bitwise prefix test
        set sl := e.2.1 with hsldef
        set suffixLen := min q.length 16 - 8 with hsuflen
        have hsuflen8 : suffixLen ≤ 8 := by omega
        have hsufq : suffixLen ≤ q.length - 8 := by omega
        have hqd : ∀ b ∈ q.drop 8, b < 256 := fun b hb' => hq b (List.mem_of_mem_drop hb')
        have htokb : ∀ b ∈ tokenBytes dict tb e.2.2, b < 256 := tokenBytes_bytes ai _
        have hW : bytesToU64LE (q.drop 8) suffixLen < 2 ^ 64 :=
          bytesToU64LE_lt64 _ _ hsuflen8
        have hE : e.1 < 2 ^ 64 := by
          rw [← hsuf]
          have h1 : encodeLE ((tokenBytes dict tb e.2.2).drop 8) <
              256 ^ ((tokenBytes dict tb e.2.2).drop 8).length :=
            encodeLE_lt _ (fun b hb' => htokb b (List.mem_of_mem_drop hb'))
          have h2 : ((tokenBytes dict tb e.2.2).drop 8).length = sl := by
            rw [List.length_drop, htlen]; omega
          rw [h2] at h1
          calc encodeLE ((tokenBytes dict tb e.2.2).drop 8) < 256 ^ sl := h1
          _ ≤ 256 ^ 8 := Nat.pow_le_pow_right (by norm_num) hsl8
          _ ≤ 2 ^ 64 := by norm_num
        obtain ⟨hsle, hmodeq⟩ := (isPrefixWord_true_iff _ _ suffixLen sl hW hE hsl8).mp hiso
        -- the matched entry's suffix bytes equal the query's suffix bytes
        have hWval : bytesToU64LE (q.drop 8) suffixLen = encodeLE ((q.drop 8).take suffixLen) :=
          bytesToU64LE_eq _ _ hqd hsuflen8
        have hstep1 : encodeLE ((q.drop 8).take suffixLen) % 2 ^ (8 * sl)
            = encodeLE ((q.drop 8).take sl) := by
          rw [← pow_256_eq,
            encodeLE_mod _ _ (fun b hb' => hqd b (List.mem_of_mem_take hb')),
            List.take_take, Nat.min_eq_left hsle]
        have hEval : e.1 % 2 ^ (8 * sl) = e.1 := by
          apply Nat.mod_eq_of_lt
          rw [← hsuf]
          have h1 : encodeLE ((tokenBytes dict tb e.2.2).drop 8) <
              256 ^ ((tokenBytes dict tb e.2.2).drop 8).length :=
            encodeLE_lt _ (fun b hb' => htokb b (List.mem_of_mem_drop hb'))
          have h2 : ((tokenBytes dict tb e.2.2).drop 8).length = sl := by
            rw [List.length_drop, htlen]; omega
          rw [h2] at h1
          rwa [pow_256_eq] at h1
        have hsufeq : (q.drop 8).take sl = (tokenBytes dict tb e.2.2).drop 8 := by
          apply encodeLE_inj
          · intro b hb'; exact hqd b (List.mem_of_mem_take hb')
          · intro b hb'; exact htokb b (List.mem_of_mem_drop hb')
          · simp only [List.length_take, List.length_drop, htlen]
            omega
          · calc encodeLE ((q.drop 8).take sl)
                = encodeLE ((q.drop 8).take suffixLen) % 2 ^ (8 * sl) := hstep1.symm
            _ = bytesToU64LE (q.drop 8) suffixLen % 2 ^ (8 * sl) := by rw [hWval]
            _ = e.1 % 2 ^ (8 * sl) := hmodeq
            _ = e.1 := hEval
            _ = encodeLE ((tokenBytes dict tb e.2.2).drop 8) := hsuf.symm
        -- the bucket's key equals the query's 8-byte prefix
        have hpfxq : bytesToU64LE q 8 = encodeLE (q.take 8) := bytesToU64LE_eq _ _ hq (by norm_num)
        have hpfxeq : (tokenBytes dict tb e.2.2).take 8 = q.take 8 := by
          apply encodeLE_inj
          · intro b hb'; exact htokb b (List.mem_of_mem_take hb')
          · intro b hb'; exact hq b (List.mem_of_mem_take hb')
          · rw [List.length_take, List.length_take, htlen]
            omega
          · rw [hpfx, hpfxq]
        have htok : tokenBytes dict tb e.2.2 = q.take (8 + sl) := by
          calc tokenBytes dict tb e.2.2
              = (tokenBytes dict tb e.2.2).take 8 ++ (tokenBytes dict tb e.2.2).drop 8 :=
                (List.take_append_drop _ _).symm
          _ = q.take 8 ++ (q.drop 8).take sl := by rw [hpfxeq, hsufeq]
          _ = q.take (8 + sl) := (List.take_add q 8 sl).symm
        subst hid
        subst hlen
        exact ⟨by omega, by omega, by omega, hidlt, htok⟩
  · simp only [if_neg hql] at h
    exact find16_sound_short st ai hd q hq h

end OnPairModel

namespace OnPairModel

theorem shortScan_total (dict : List ((Nat × Nat) × Nat)) (w l : Nat) (hl : 1 ≤ l)
    (hhit : (alookup dict (w % 2 ^ (8 * 1), 1)).isSome) :
    ∃ id len, shortScan dict w l = some (id, len) ∧ 1 ≤ len := by
  have htot := shortScanSpec_total dict w l hl hhit
  cases hres : shortScanSpec dict w l with
  | none => rw [hres] at htot; simp at htot
  | some r =>
    obtain ⟨id, len⟩ := r
    obtain ⟨h1, _, _⟩ := shortScanSpec_some _ _ _ _ _ hres
    exact ⟨id, len, by rw [shortScan_eq_spec, hres], h1⟩

theorem find16_total (st : LPM16)
    (hs : ∀ b, b < 256 → (alookup st.dictionary (b, 1)).isSome)
    (q : List Nat) (hq : ∀ b ∈ q, b < 256) (hne : q ≠ []) :
    ∃ id len, st.findLongestMatch q = some (id, len) ∧ 1 ≤ len := by
  have hqlen : 1 ≤ q.length := List.length_pos.mpr hne
  have hhit : (alookup st.dictionary (bytesToU64LE q 8 % 2 ^ (8 * 1), 1)).isSome := by
    cases q with
    | nil => exact absurd rfl hne
    | cons b rest =>
      have hb : b < 256 := hq b (List.mem_cons_self _ _)
      have hw : bytesToU64LE (b :: rest) 8 % 2 ^ (8 * 1) = b := by
        rw [bytesToU64LE_eq _ 8 hq (le_refl 8), ← pow_256_eq,
          encodeLE_mod _ _ (fun x hx => hq x (List.mem_of_mem_take hx)),
          List.take_take]
        norm_num
        simp [encodeLE]
      rw [hw]
      exact hs b hb
  have hshort := shortScan_total st.dictionary (bytesToU64LE q 8) (min 8 q.length)
    (by omega) hhit
  obtain ⟨sid, slen, hres, hs1⟩ := hshort
  unfold LPM16.findLongestMatch
  by_cases hql : q.length > 8
  · simp only [if_pos hql]
    cases hbl : alookup st.buckets (bytesToU64LE q 8) with
    | none =>
      simp only
      exact ⟨sid, slen, by rw [hres], hs1⟩
    | some bucket =>
      simp only
      cases hscan : scanBucket bucket (bytesToU64LE (q.drop 8) (min q.length 16 - 8))
          (min q.length 16 - 8) with
      | none =>
        simp only
        exact ⟨sid, slen, by rw [hres], hs1⟩
      | some r =>
        obtain ⟨id, len⟩ := r
        obtain ⟨e, he, hiso, hid, hlen⟩ := scanBucket_some bucket _ _ id len hscan
        exact ⟨id, len, rfl, by omega⟩
  · simp only [if_neg hql]
    exact ⟨sid, slen, by rw [hres], hs1⟩

/- ### Insert preservation lemmas (variant B) -/

theorem ainsert_self {α β : Type} [DecidableEq α] (l : List (α × β)) (k : α) (v : β)
    (h : alookup l k = some v) : ainsert l k v = l := by
  induction l with
  | nil => simp [alookup] at h
  | cons p rest ih =>
    obtain ⟨k₀, w⟩ := p
    by_cases h0 : k = k₀
    · subst h0
      simp [alookup] at h
      simp [ainsert, h]
    · simp only [alookup, if_neg h0] at h
      simp [ainsert, h0, ih h]

theorem ainsert_cons_self {α β : Type} [DecidableEq α] (k : α) (w v : β)
    (rest : List (α × β)) : ainsert ((k, w) :: rest) k v = (k, v) :: rest := by
  simp [ainsert]

theorem ainsert_nodupKeys {α β : Type} [DecidableEq α] (l : List (α × β)) (k : α) (v : β)
    (h : (l.map (fun p => p.1)).Nodup) :
    ((ainsert l k v).map (fun p => p.1)).Nodup := by
  induction l with
  | nil => simp [ainsert]
  | cons p rest ih =>
    obtain ⟨k₀, w⟩ := p
    simp only [List.map_cons, List.nodup_cons] at h
    by_cases h0 : k = k₀
    · subst h0
      rw [ainsert_cons_self]
      simp only [List.map_cons, List.nodup_cons]
      exact h
    · simp only [ainsert, if_neg h0, List.map_cons, List.nodup_cons]
      constructor
      · intro hmem
        rw [List.mem_map] at hmem
        obtain ⟨p', hp', hpk⟩ := hmem
        rcases mem_ainsert rest k v p' hp' with hm | hm
        · exact h.1 (hpk ▸ List.mem_map_of_mem _ hm)
        · have hk : p'.1 = k := by rw [hm]
          rw [hk] at hpk
          exact h0 hpk
      · exact ih h.2

/-- A refused long insert leaves the matcher unchanged. -/
theorem insert16_refused_eq (st : LPM16) (key : List Nat) (id : Nat)
    (h : (st.insert key id).1 = false) : (st.insert key id).2 = st := by
  simp only [LPM16.insert] at h ⊢
  by_cases hlen : key.length ≤ 8
  · rw [if_pos hlen] at h
    simp at h
  · simp only [if_neg hlen] at h ⊢
    by_cases hover :
        ((alookup st.buckets (bytesToU64LE key 8)).getD []).length > MAX_BUCKET_SIZE
    · simp only [if_pos hover]
      cases hbl : alookup st.buckets (bytesToU64LE key 8) with
      | none =>
        rw [hbl] at hover
        simp [MAX_BUCKET_SIZE] at hover
      | some bucket =>
        have heq : ainsert st.buckets (bytesToU64LE key 8) ((some bucket).getD [])
            = st.buckets := by
          simpa using ainsert_self _ _ _ hbl
        rw [heq]
    · simp [if_neg hover] at h

end OnPairModel

namespace OnPairModel

/-- Total overflow entries a state would spill in `finalize`:
`Σ (bucket length − 4)⁺` over all buckets. -/
def sumOverflow (bkts : List (Nat × List BEntry)) : Nat :=
  (bkts.map (fun p => p.2.length - N_INLINE_SUFFIXES)).sum

theorem sumOverflow_ainsert_le (bkts : List (Nat × List BEntry)) (pfx : Nat)
    (v : List BEntry) (hv : v.length ≤ ((alookup bkts pfx).getD []).length + 1) :
    sumOverflow (ainsert bkts pfx v) ≤ sumOverflow bkts + 1 := by
  induction bkts with
  | nil =>
    simp [alookup] at hv
    simp [ainsert, sumOverflow, N_INLINE_SUFFIXES]
    omega
  | cons p rest ih =>
    obtain ⟨k, b⟩ := p
    by_cases h0 : pfx = k
    · subst h0
      rw [ainsert_cons_self]
      simp [alookup] at hv
      simp only [sumOverflow, List.map_cons, List.sum_cons]
      have : v.length - N_INLINE_SUFFIXES ≤ (b.length - N_INLINE_SUFFIXES) + 1 := by
        unfold N_INLINE_SUFFIXES
        omega
      omega
    · simp only [ainsert, if_neg h0]
      simp only [alookup, if_neg h0] at hv
      simp only [sumOverflow, List.map_cons, List.sum_cons]
      have := ih hv
      simp only [sumOverflow] at this
      omega

theorem insert16_inv_accepted {dict tb dict' tb' : List Nat} {nextId : Nat} (st : LPM16)
    (hd : DictInv st.dictionary dict tb nextId) (hb : BucketInv st.buckets dict tb nextId)
    (key : List Nat) (hk2 : 2 ≤ key.length) (hk16 : key.length ≤ 16)
    (hkb : ∀ b ∈ key, b < 256)
    (hstb : ∀ id, id < nextId → tokenBytes dict' tb' id = tokenBytes dict tb id)
    (hnew : tokenBytes dict' tb' nextId = key) :
    DictInv ((st.insert key nextId).2).dictionary dict' tb' (nextId + 1) ∧
    BucketInv ((st.insert key nextId).2).buckets dict' tb' (nextId + 1) ∧
    sumOverflow ((st.insert key nextId).2).buckets ≤ sumOverflow st.buckets + 1 := by
  have hd2 : DictInv st.dictionary dict' tb' (nextId + 1) :=
    (hd.arena_stable_dict hstb).next_mono_dict (Nat.le_succ _)
  have hb2 : BucketInv st.buckets dict' tb' (nextId + 1) :=
    (hb.arena_stable_bucket hstb).next_mono_bucket (Nat.le_succ _)
  by_cases hlen : key.length ≤ 8
  · have hins : st.insert key nextId = (true, { st with dictionary := (ainsert
        st.dictionary (bytesToU64LE key key.length, key.length) nextId) }) := by
      simp only [LPM16.insert, if_pos hlen]
    rw [hins]
    refine ⟨?_, hb2, Nat.le_succ _⟩
    refine ⟨ainsert_nodupKeys _ _ _ hd2.nodupKeys, ?_, ?_⟩
    · intro w l id hl
      by_cases hkey : ((w : Nat), (l : Nat)) = (bytesToU64LE key key.length, key.length)
      · rw [hkey, alookup_ainsert] at hl
        have hid : id = nextId := by simpa using hl.symm
        have hw : w = bytesToU64LE key key.length := congrArg Prod.fst hkey
        have hlval : l = key.length := congrArg Prod.snd hkey
        subst hid
        rw [hnew]
        refine ⟨by omega, by omega, by omega, by omega, ?_⟩
        rw [hw, bytesToU64LE_eq key key.length hkb hlen, List.take_of_length_le (le_refl _)]
      · rw [alookup_ainsert_ne _ _ _ _ (fun hc => hkey hc)] at hl
        exact hd2.sound w l id hl
    · intro b hbb
      have hne : ((b : Nat), (1 : Nat)) ≠ (bytesToU64LE key key.length, key.length) := by
        intro hc
        have := congrArg Prod.snd hc
        simp at this
        omega
      rw [alookup_ainsert_ne _ _ _ _ hne]
      exact hd2.singles b hbb
  · by_cases hov : ((alookup st.buckets (bytesToU64LE key 8)).getD []).length
        > MAX_BUCKET_SIZE
    · have hins : st.insert key nextId = (false, { st with buckets := (ainsert
          st.buckets (bytesToU64LE key 8)
          ((alookup st.buckets (bytesToU64LE key 8)).getD [])) }) := by
        simp only [LPM16.insert, if_neg hlen, if_pos hov]
      rw [hins]
      obtain ⟨bucket, hbl⟩ : ∃ bucket,
          alookup st.buckets (bytesToU64LE key 8) = some bucket := by
        cases hbl2 : alookup st.buckets (bytesToU64LE key 8) with
        | none => rw [hbl2] at hov; simp [MAX_BUCKET_SIZE] at hov
        | some b => exact ⟨b, rfl⟩
      have heq : ainsert st.buckets (bytesToU64LE key 8)
          ((alookup st.buckets (bytesToU64LE key 8)).getD []) = st.buckets := by
        rw [hbl]
        simpa using ainsert_self _ _ _ hbl
      refine ⟨hd2, ?_, ?_⟩
      · show BucketInv (ainsert st.buckets (bytesToU64LE key 8)
          ((alookup st.buckets (bytesToU64LE key 8)).getD [])) dict' tb' (nextId + 1)
        rw [heq]
        exact hb2
      · show sumOverflow (ainsert st.buckets (bytesToU64LE key 8)
          ((alookup st.buckets (bytesToU64LE key 8)).getD [])) ≤ sumOverflow st.buckets + 1
        rw [heq]
        exact Nat.le_succ _
    · have hins : st.insert key nextId = (true, { st with buckets := (ainsert
          st.buckets (bytesToU64LE key 8) (sortByLenDesc
            (((alookup st.buckets (bytesToU64LE key 8)).getD []) ++
              [(bytesToU64LE (key.drop 8) (key.length - 8), key.length - 8, nextId)]))) }) := by
        simp only [LPM16.insert, if_neg hlen, if_neg hov]
      have hcap := insert16_bucket_cap st key nextId hb.cap
      rw [hins] at hcap ⊢
      set old := (alookup st.buckets (bytesToU64LE key 8)).getD [] with holddef
      set newE : BEntry :=
        (bytesToU64LE (key.drop 8) (key.length - 8), key.length - 8, nextId) with hnewE
      refine ⟨hd2, ?_, ?_⟩
      · refine ⟨ainsert_nodupKeys _ _ _ hb2.nodupKeys, ?_, hcap⟩
        · intro pfx bucket hmem e he
          rcases mem_ainsert _ _ _ _ hmem with hm | hm
          · exact hb2.sound pfx bucket hm e he
          · have hp : pfx = bytesToU64LE key 8 := congrArg Prod.fst hm
            have hbv : bucket = sortByLenDesc (old ++ [newE]) := congrArg Prod.snd hm
            rw [hbv] at he
            unfold sortByLenDesc at he
            rw [List.mem_insertionSort] at he
            rcases List.mem_append.mp he with hold | hnew'
            · cases hbl : alookup st.buckets (bytesToU64LE key 8) with
              | none =>
                rw [holddef, hbl] at hold
                simp at hold
              | some b0 =>
                have hob : old = b0 := by rw [holddef, hbl]; rfl
                rw [hob] at hold
                have := hb2.sound _ b0 (alookup_mem _ _ _ hbl) e hold
                rw [hp]
                exact this
            · have he' : e = newE := by simpa using hnew'
              rw [he', hnewE, hp]
              have hlen9 : 9 ≤ key.length := by omega
              have hdb : ∀ b ∈ key.drop 8, b < 256 :=
                fun b hbm => hkb b (List.mem_of_mem_drop hbm)
              have hdl : (key.drop 8).length = key.length - 8 := by simp
              refine ⟨by simp; omega, by simp; omega, by simp, ?_, ?_, ?_⟩
              · rw [hnew]
                simp
                omega
              · rw [hnew, bytesToU64LE_eq key 8 hkb (by norm_num)]
              · rw [hnew, bytesToU64LE_eq _ _ hdb (by omega), ← hdl,
                  List.take_of_length_le (le_refl _)]
      · apply sumOverflow_ainsert_le
        unfold sortByLenDesc
        rw [List.length_insertionSort]
        simp

end OnPairModel

namespace OnPairModel

/- ### The variant-B training invariant -/

theorem singles_alookup (L : List Nat) : ∀ w l id : Nat,
    alookup (L.map (fun b => ((b, 1), b))) (w, l) = some id →
    l = 1 ∧ id = w ∧ w ∈ L := by
  induction L with
  | nil => intro w l id h; simp [alookup] at h
  | cons a rest ih =>
    intro w l id h
    simp only [List.map_cons, alookup] at h
    by_cases hk : ((w : Nat), (l : Nat)) = (a, 1)
    · rw [if_pos hk] at h
      have hw : w = a := congrArg Prod.fst hk
      have hl : l = 1 := congrArg Prod.snd hk
      have hid : a = id := by simpa using h
      exact ⟨hl, by omega, by rw [hw]; exact List.mem_cons_self _ _⟩
    · rw [if_neg hk] at h
      obtain ⟨h1, h2, h3⟩ := ih w l id h
      exact ⟨h1, h2, List.mem_cons_of_mem _ h3⟩

theorem singles_alookup_self (L : List Nat) (b : Nat) (hb : b ∈ L) :
    alookup (L.map (fun x => ((x, 1), x))) (b, 1) = some b := by
  induction L with
  | nil => simp at hb
  | cons a rest ih =>
    simp only [List.map_cons, alookup]
    by_cases hk : ((b : Nat), (1 : Nat)) = (a, 1)
    · rw [if_pos hk]
      have : b = a := congrArg Prod.fst hk
      rw [this]
    · rw [if_neg hk]
      have hba : b ≠ a := fun hc => hk (by rw [hc])
      rcases List.mem_cons.mp hb with h | h
      · exact absurd h hba
      · exact ih h

theorem tokenBytes_range (id : Nat) (h : id < 256) :
    tokenBytes (List.range 256) (List.range 257) id = [id] := by
  unfold tokenBytes
  have h1 : (List.range 257).getD id 0 = id := by
    simp only [List.getD_eq_getElem?_getD]
    rw [List.getElem?_range (by omega)]
    rfl
  have h2 : (List.range 257).getD (id + 1) 0 = id + 1 := by
    simp only [List.getD_eq_getElem?_getD]
    rw [List.getElem?_range (by omega)]
    rfl
  rw [h1, h2]
  unfold slice
  rw [List.take_range]
  have h3 : min (id + 1) 256 = id + 1 := by omega
  rw [h3, List.range_succ, List.drop_append_of_le_length (by simp)]
  simp

theorem init16_dict : initTrainSt16.dict = List.range 256 := by decide
theorem init16_tb : initTrainSt16.tb = List.range 257 := by decide
theorem init16_nextId : initTrainSt16.nextId = 256 := by decide
theorem init16_buckets : initTrainSt16.lpm.buckets = [] := by decide
theorem init16_dictionary :
    initTrainSt16.lpm.dictionary = (List.range 256).map (fun b => ((b, 1), b)) := by decide
theorem init16_freq : initTrainSt16.freq = [] := by decide

/-- The invariant carried by the variant-B learner between iterations. -/
structure TrainInv16 (s : TrainSt16) : Prop where
  arena : ArenaInv s.dict s.tb s.nextId
  dictI : DictInv s.lpm.dictionary s.dict s.tb s.nextId
  bktI : BucketInv s.lpm.buckets s.dict s.tb s.nextId
  nextHi : s.nextId ≤ 65535
  tokLe16 : ∀ i, i + 1 < s.tb.length → s.tb.getD (i + 1) 0 - s.tb.getD i 0 ≤ 16
  dictSmall : s.dict.length ≤ 256 + 16 * (s.nextId - 256)
  overflow : sumOverflow s.lpm.buckets ≤ s.nextId - 256

/-- The invariant of the final training state (the `break 'outer` path leaves
one more token than `next_token_id` records, hence the existential count). -/
def PostInv16 (s : TrainSt16) : Prop := ∃ n,
  ArenaInv s.dict s.tb n ∧ DictInv s.lpm.dictionary s.dict s.tb n ∧
  BucketInv s.lpm.buckets s.dict s.tb n ∧
  (∀ i, i + 1 < s.tb.length → s.tb.getD (i + 1) 0 - s.tb.getD i 0 ≤ 16) ∧
  sumOverflow s.lpm.buckets ≤ 65535

theorem TrainInv16.post16 {s : TrainSt16} (h : TrainInv16 s) : PostInv16 s := by
  refine ⟨s.nextId, h.arena, h.dictI, h.bktI, h.tokLe16, ?_⟩
  have h1 := h.overflow
  have h2 := h.nextHi
  omega

theorem trainInv16_init : TrainInv16 initTrainSt16 := by
  refine ⟨?_, ?_, ?_, ?_, ?_, ?_, ?_⟩
  · rw [init16_dict, init16_tb, init16_nextId]
    refine ⟨by decide, by decide, by decide, ?_, by decide, by decide⟩
    intro i hi
    simp only [List.length_range] at hi
    have h1 : (List.range 257).getD i 0 = i := by
      simp only [List.getD_eq_getElem?_getD]
      rw [List.getElem?_range (by omega)]
      rfl
    have h2 : (List.range 257).getD (i + 1) 0 = i + 1 := by
      simp only [List.getD_eq_getElem?_getD]
      rw [List.getElem?_range (by omega)]
      rfl
    rw [h1, h2]
    omega
  · rw [init16_dictionary, init16_dict, init16_tb, init16_nextId]
    refine ⟨by decide, ?_, ?_⟩
    · intro w l id hl
      obtain ⟨hl1, hid, hw⟩ := singles_alookup _ w l id hl
      have hw256 : w < 256 := List.mem_range.mp hw
      subst hl1
      rw [hid, tokenBytes_range w hw256]
      refine ⟨by omega, by omega, by omega, by simp, ?_⟩
      simp [encodeLE]
    · intro b hb
      exact singles_alookup_self _ b (List.mem_range.mpr hb)
  · rw [init16_buckets]
    exact ⟨by simp, by intro pfx bucket h e he; simp at h, by intro pfx bucket h; simp at h⟩
  · rw [init16_nextId]; omega
  · rw [init16_tb]
    intro i hi
    simp only [List.length_range] at hi
    have h1 : (List.range 257).getD i 0 = i := by
      simp only [List.getD_eq_getElem?_getD]
      rw [List.getElem?_range (by omega)]
      rfl
    have h2 : (List.range 257).getD (i + 1) 0 = i + 1 := by
      simp only [List.getD_eq_getElem?_getD]
      rw [List.getElem?_range (by omega)]
      rfl
    rw [h1, h2]
    omega
  · rw [init16_dict, init16_nextId]
    simp
  · rw [init16_buckets, init16_nextId]
    simp [sumOverflow]

end OnPairModel

namespace OnPairModel

theorem tokLe16_extend {dict tb : List Nat} {nextId : Nat} (ai : ArenaInv dict tb nextId)
    (h16 : ∀ i, i + 1 < tb.length → tb.getD (i + 1) 0 - tb.getD i 0 ≤ 16)
    (m : List Nat) (hm : m.length ≤ 16) :
    ∀ i, i + 1 < (tb ++ [(dict ++ m).length]).length →
      (tb ++ [(dict ++ m).length]).getD (i + 1) 0 -
        (tb ++ [(dict ++ m).length]).getD i 0 ≤ 16 := by
  intro i hi
  simp only [List.length_append, List.length_singleton] at hi
  rcases Nat.lt_or_ge (i + 1) tb.length with h | h
  · rw [getD_append_left' tb [(dict ++ m).length] (i + 1) h,
      getD_append_left' tb [(dict ++ m).length] i (by omega)]
    exact h16 i h
  · have hieq : i + 1 = tb.length := by omega
    have h1 : (tb ++ [(dict ++ m).length]).getD i 0 = dict.length := by
      rw [getD_append_left' _ _ _ (by omega)]
      have := ai.tbLast
      have hi2 : i = tb.length - 1 := by omega
      rw [hi2]
      exact this
    have h2 : (tb ++ [(dict ++ m).length]).getD (i + 1) 0 = (dict ++ m).length := by
      rw [hieq]
      exact getD_append_last _ _
    rw [h1, h2]
    simp only [List.length_append]
    omega

theorem trainStep16_spec (data : List Nat) (hdata : ∀ b ∈ data, b < 256)
    (endPos threshold : Nat) (hend : endPos ≤ data.length)
    (s : TrainSt16) (hInv : TrainInv16 s)
    (prevId prevLen pos : Nat) (hp1 : 1 ≤ prevLen) (hple : prevLen ≤ pos)
    (hp16 : prevLen ≤ 16) (hpos : pos < endPos) :
    ∃ s1 pid plen pos1 brk,
      trainStep16 data endPos threshold s prevId prevLen pos
        = some (s1, pid, plen, pos1, brk) ∧
      1 ≤ plen ∧ plen ≤ pos1 ∧ plen ≤ 16 ∧ pos < pos1 ∧ pos1 ≤ endPos ∧
      (brk = false → TrainInv16 s1) ∧ (brk = true → PostInv16 s1) := by
  have hsingles : ∀ b, b < 256 → (alookup s.lpm.dictionary (b, 1)).isSome := by
    intro b hb
    rw [hInv.dictI.singles b hb]
    rfl
  have hslb : ∀ b ∈ slice data pos endPos, b < 256 := slice_bytes _ _ _ hdata
  have hslen : (slice data pos endPos).length = endPos - pos := by
    rw [slice_length]; omega
  have hsne : slice data pos endPos ≠ [] := by
    intro hc
    rw [hc] at hslen
    simp at hslen
    omega
  obtain ⟨mId, mLen, hfind, hm1⟩ := find16_total s.lpm hsingles _ hslb hsne
  obtain ⟨_, hmle, hm16, hmid, htokm⟩ :=
    find16_sound s.lpm hInv.arena hInv.dictI hInv.bktI _ hslb hfind
  have hmle' : mLen ≤ endPos - pos := by rw [hslen] at hmle; exact hmle
  simp only [trainStep16, hfind]
  by_cases helig : mLen + prevLen ≤ MAX_LENGTH
  · rw [if_pos helig]
    have h16' : mLen + prevLen ≤ 16 := helig
    by_cases hthr : ((alookup s.freq (prevId, mId)).getD 0 + 1) % 65536 ≥ threshold
    · rw [if_pos hthr]
      set merged := slice data (pos - prevLen) (pos + mLen) with hmerged
      have hmlen : merged.length = prevLen + mLen := by
        rw [hmerged, slice_length]
        omega
      have hmb : ∀ b ∈ merged, b < 256 := slice_bytes _ _ _ hdata
      have hdictLen : (s.dict ++ merged).length % 4294967296 = (s.dict ++ merged).length := by
        apply Nat.mod_eq_of_lt
        have h1 := hInv.dictSmall
        have h2 := hInv.nextHi
        simp only [List.length_append]
        omega
      by_cases hacc : (s.lpm.insert merged s.nextId).1
      · rw [if_pos hacc]
        -- the new arena
        have haiExt : ArenaInv (s.dict ++ merged)
            (s.tb ++ [(s.dict ++ merged).length]) (s.nextId + 1) :=
          hInv.arena.extend merged (by omega) hmb
        have hstb : ∀ id, id < s.nextId →
            tokenBytes (s.dict ++ merged) (s.tb ++ [(s.dict ++ merged).length]) id
              = tokenBytes s.dict s.tb id := by
          intro id hid
          exact tokenBytes_stable hInv.arena merged _ id (by rw [hInv.arena.tbLen]; omega)
        have hnew : tokenBytes (s.dict ++ merged)
            (s.tb ++ [(s.dict ++ merged).length]) s.nextId = merged :=
          tokenBytes_new hInv.arena merged
        obtain ⟨hD, hB, hSO⟩ := insert16_inv_accepted s.lpm hInv.dictI hInv.bktI merged
          (by omega) (by omega) hmb hstb hnew
        have htb1 : s.tb ++ [(s.dict ++ merged).length % 4294967296]
            = s.tb ++ [(s.dict ++ merged).length] := by rw [hdictLen]
        have h16ext := tokLe16_extend hInv.arena hInv.tokLe16 merged (by omega)
        by_cases hbrk : s.nextId = 65535
        · rw [if_pos hbrk]
          refine ⟨_, _, _, _, _, rfl, by omega, ?_, by omega, by omega, by omega, ?_, ?_⟩
          · omega
          · intro hc; simp at hc
          · intro _
            refine ⟨s.nextId + 1, ?_, ?_, ?_, ?_, ?_⟩
            · simp only [htb1]
              exact haiExt
            · simp only [htb1]
              exact hD
            · simp only [htb1]
              exact hB
            · simp only [htb1]
              exact h16ext
            · show sumOverflow (s.lpm.insert merged s.nextId).2.buckets ≤ 65535
              have h1 := hInv.overflow
              have h2 := hInv.nextHi
              omega
        · rw [if_neg hbrk]
          refine ⟨_, _, _, _, _, rfl, by omega, ?_, by omega, by omega, by omega, ?_, ?_⟩
          · omega
          · intro _
            refine ⟨?_, ?_, ?_, ?_, ?_, ?_, ?_⟩
            · simp only [htb1]
              exact haiExt
            · simp only [htb1]
              exact hD
            · simp only [htb1]
              exact hB
            · show s.nextId + 1 ≤ 65535
              have := hInv.nextHi
              omega
            · simp only [htb1]
              exact h16ext
            · show (s.dict ++ merged).length ≤ 256 + 16 * (s.nextId + 1 - 256)
              have := hInv.dictSmall
              have := hInv.arena.nextLo
              simp only [List.length_append]
              omega
            · show sumOverflow (s.lpm.insert merged s.nextId).2.buckets
                ≤ s.nextId + 1 - 256
              have := hInv.overflow
              have := hInv.arena.nextLo
              omega
          · intro hc; simp at hc
      · rw [if_neg hacc]
        have heq : (s.lpm.insert merged s.nextId).2 = s.lpm :=
          insert16_refused_eq s.lpm merged s.nextId (by
            cases h : (s.lpm.insert merged s.nextId).1
            · rfl
            · exact absurd h hacc)
        refine ⟨_, _, _, _, _, rfl, by omega, by omega, by omega, by omega, by omega, ?_, ?_⟩
        · intro _
          refine ⟨?_, ?_, ?_, hInv.nextHi, hInv.tokLe16, hInv.dictSmall, ?_⟩
          · exact hInv.arena
          · simp only [heq]
            exact hInv.dictI
          · simp only [heq]
            exact hInv.bktI
          · simp only [heq]
            exact hInv.overflow
        · intro hc; simp at hc
    · rw [if_neg hthr]
      refine ⟨_, _, _, _, _, rfl, by omega, by omega, by omega, by omega, by omega, ?_, ?_⟩
      · intro _
        exact ⟨hInv.arena, hInv.dictI, hInv.bktI, hInv.nextHi, hInv.tokLe16,
          hInv.dictSmall, hInv.overflow⟩
      · intro hc; simp at hc
  · rw [if_neg helig]
    refine ⟨_, _, _, _, _, rfl, by omega, by omega, by omega, by omega, by omega, ?_, ?_⟩
    · intro _
      exact hInv
    · intro hc; simp at hc

end OnPairModel

namespace OnPairModel

/- ### Generic training-loop invariant threading -/

theorem gTrainLoop_spec {σ : Type} (endPos : Nat)
    (step : σ → Nat → Nat → Nat → Option (σ × Nat × Nat × Nat × Bool))
    (P Q : σ → Prop) (Plen : Nat → Prop)
    (hstep : ∀ s prevId prevLen pos, P s → 1 ≤ prevLen → prevLen ≤ pos →
      Plen prevLen → pos < endPos →
      ∃ s1 pid plen pos1 brk,
        step s prevId prevLen pos = some (s1, pid, plen, pos1, brk) ∧
        1 ≤ plen ∧ plen ≤ pos1 ∧ Plen plen ∧ pos < pos1 ∧ pos1 ≤ endPos ∧
        (brk = false → P s1) ∧ (brk = true → Q s1)) :
    ∀ fuel s prevId prevLen pos, P s → 1 ≤ prevLen → prevLen ≤ pos →
      Plen prevLen → endPos ≤ pos + fuel →
      ∃ s1 brk, gTrainLoop endPos step fuel s prevId prevLen pos = some (s1, brk) ∧
        (brk = false → P s1) ∧ (brk = true → Q s1) := by
  intro fuel
  induction fuel with
  | zero =>
    intro s prevId prevLen pos hP _ _ _ hfuel
    refine ⟨s, false, ?_, fun _ => hP, fun hc => by simp at hc⟩
    simp only [gTrainLoop]
    rw [if_neg (by omega)]
  | succ f ih =>
    intro s prevId prevLen pos hP h1 h2 h3 hfuel
    by_cases hlt : pos < endPos
    · obtain ⟨s1, pid, plen, pos1, brk, hstepEq, hq1, hq2, hq3, hadv, hle, hPk, hQk⟩ :=
        hstep s prevId prevLen pos hP h1 h2 h3 hlt
      simp only [gTrainLoop]
      rw [if_pos hlt, hstepEq]
      cases brk with
      | true =>
        exact ⟨s1, true, rfl, fun hc => by simp at hc, fun _ => hQk rfl⟩
      | false =>
        exact ih s1 pid plen pos1 (hPk rfl) hq1 hq2 hq3 (by omega)
    · refine ⟨s, false, ?_, fun _ => hP, fun hc => by simp at hc⟩
      simp only [gTrainLoop]
      rw [if_neg hlt]

theorem gTrainOuter_spec {σ : Type} (data eps : List Nat)
    (find : σ → List Nat → Option (Nat × Nat))
    (stepFam : Nat → σ → Nat → Nat → Nat → Option (σ × Nat × Nat × Nat × Bool))
    (P Q : σ → Prop) (Plen : Nat → Prop)
    (hfind : ∀ s a b, P s → a < b → b ≤ data.length →
      ∃ mId mLen, find s (slice data a b) = some (mId, mLen) ∧
        1 ≤ mLen ∧ mLen ≤ b - a ∧ Plen mLen)
    (hstep : ∀ endPos, endPos ≤ data.length →
      ∀ s prevId prevLen pos, P s → 1 ≤ prevLen → prevLen ≤ pos →
        Plen prevLen → pos < endPos →
        ∃ s1 pid plen pos1 brk,
          stepFam endPos s prevId prevLen pos = some (s1, pid, plen, pos1, brk) ∧
          1 ≤ plen ∧ plen ≤ pos1 ∧ Plen plen ∧ pos < pos1 ∧ pos1 ≤ endPos ∧
          (brk = false → P s1) ∧ (brk = true → Q s1)) :
    ∀ order s, P s →
      (∀ idx ∈ order, eps.getD (idx + 1) 0 ≤ data.length ∧
        eps.getD idx 0 ≤ eps.getD (idx + 1) 0) →
      ∃ s1, gTrainOuter data eps find stepFam order s = some s1 ∧ (P s1 ∨ Q s1) := by
  intro order
  induction order with
  | nil =>
    intro s hP _
    exact ⟨s, rfl, Or.inl hP⟩
  | cons idx rest ih =>
    intro s hP horder
    obtain ⟨hble, hab⟩ := horder idx (List.mem_cons_self _ _)
    by_cases heq : eps.getD idx 0 = eps.getD (idx + 1) 0
    · simp only [gTrainOuter]
      rw [if_pos heq]
      exact ih s hP (fun i hi => horder i (List.mem_cons_of_mem _ hi))
    · have hlt : eps.getD idx 0 < eps.getD (idx + 1) 0 := lt_of_le_of_ne hab heq
      obtain ⟨mId, mLen, hfindEq, hm1, hmle, hm16⟩ := hfind s _ _ hP hlt hble
      obtain ⟨s1, brk, hloopEq, hPk, hQk⟩ :=
        gTrainLoop_spec (eps.getD (idx + 1) 0) (stepFam (eps.getD (idx + 1) 0)) P Q Plen
          (hstep _ hble) (eps.getD (idx + 1) 0 - eps.getD idx 0) s mId mLen
          (eps.getD idx 0 + mLen) hP hm1 (by omega) hm16 (by omega)
      simp only [gTrainOuter]
      rw [if_neg heq]
      simp only [hfindEq]
      simp only [hloopEq]
      cases brk with
      | true => exact ⟨s1, rfl, Or.inr (hQk rfl)⟩
      | false => exact ih s1 (hPk rfl) (fun i hi => horder i (List.mem_cons_of_mem _ hi))

/-- The variant-B precondition on the end-position table relative to a
shuffled index order: each named window is within the data and well-ordered. -/
@[reducible] def ValidEps (data eps : List Nat) (order : List Nat) : Prop :=
  ∀ idx ∈ order, eps.getD (idx + 1) 0 ≤ data.length ∧
    eps.getD idx 0 ≤ eps.getD (idx + 1) 0

theorem trainDictionary16_spec (data eps : List Nat) (hdata : ∀ b ∈ data, b < 256)
    (threshold : Nat) (order : List Nat) (horder : ValidEps data eps order) :
    ∃ ts, trainDictionary16 data eps threshold order = some ts ∧ PostInv16 ts := by
  have hfind : ∀ s a b, TrainInv16 s → a < b → b ≤ data.length →
      ∃ mId mLen, s.lpm.findLongestMatch (slice data a b) = some (mId, mLen) ∧
        1 ≤ mLen ∧ mLen ≤ b - a ∧ mLen ≤ 16 := by
    intro s a b hP hab hble
    have hslb : ∀ x ∈ slice data a b, x < 256 := slice_bytes _ _ _ hdata
    have hslen : (slice data a b).length = b - a := by
      rw [slice_length]; omega
    have hsne : slice data a b ≠ [] := by
      intro hc
      rw [hc] at hslen
      simp at hslen
      omega
    have hsingles : ∀ x, x < 256 → (alookup s.lpm.dictionary (x, 1)).isSome := by
      intro x hx
      rw [hP.dictI.singles x hx]
      rfl
    obtain ⟨mId, mLen, hfind, hm1⟩ := find16_total s.lpm hsingles _ hslb hsne
    obtain ⟨_, hmle, hm16, _, _⟩ := find16_sound s.lpm hP.arena hP.dictI hP.bktI _ hslb hfind
    exact ⟨mId, mLen, hfind, hm1, by rw [hslen] at hmle; exact hmle, hm16⟩
  obtain ⟨ts, hts, hPQ⟩ :=
    gTrainOuter_spec data eps (fun s => s.lpm.findLongestMatch)
      (fun endPos => trainStep16 data endPos threshold) TrainInv16 PostInv16
      (fun l => l ≤ 16) hfind
      (fun endPos hend s prevId prevLen pos hP ha hb hc hd =>
        trainStep16_spec data hdata endPos threshold hend s hP prevId prevLen pos ha hb hc hd)
      order initTrainSt16 trainInv16_init horder
  exact ⟨ts, hts, hPQ.elim TrainInv16.post16 id⟩

/-- **C4.**  Variant B token length invariant: whatever the corpus bytes, the
end-position table and the shuffle order (provided each referenced window is
in bounds and well-ordered), `OnPair16::train_dictionary` completes without
panicking and every token recorded in the arena has length between 1 and 16
bytes: `token_boundaries[i+1] - token_boundaries[i] ∈ [1, 16]` for every
token `i`. -/
theorem C4_token_length_invariant (data eps : List Nat) (hdata : ∀ b ∈ data, b < 256)
    (threshold : Nat) (order : List Nat) (horder : ValidEps data eps order) :
    ∃ ts, trainDictionary16 data eps threshold order = some ts ∧
      ∀ i, i + 1 < ts.tb.length →
        1 ≤ ts.tb.getD (i + 1) 0 - ts.tb.getD i 0 ∧
        ts.tb.getD (i + 1) 0 - ts.tb.getD i 0 ≤ 16 := by
  obtain ⟨ts, hts, n, ai, _, _, h16, _⟩ := trainDictionary16_spec data eps hdata
    threshold order horder
  refine ⟨ts, hts, fun i hi => ⟨?_, h16 i hi⟩⟩
  have := ai.tokPos i hi
  omega

theorem C4_token_length_invariant_witness :
    (∀ b ∈ [104, 105], b < 256) ∧ ValidEps [104, 105] [0, 2] [0] ∧
    ∃ ts, trainDictionary16 [104, 105] [0, 2] 2 [0] = some ts ∧
      ∀ i, i + 1 < ts.tb.length →
        1 ≤ ts.tb.getD (i + 1) 0 - ts.tb.getD i 0 ∧
        ts.tb.getD (i + 1) 0 - ts.tb.getD i 0 ≤ 16 :=
  ⟨by decide, by decide, C4_token_length_invariant [104, 105] [0, 2] (by decide) 2 [0]
    (by decide)⟩

end OnPairModel

namespace OnPairModel

/- ### Further slice and getD lemmas (parser layer) -/

theorem getD_append_right' (l₁ l₂ : List Nat) (k : Nat) :
    (l₁ ++ l₂).getD (l₁.length + k) 0 = l₂.getD k 0 := by
  simp only [List.getD_eq_getElem?_getD]
  rw [List.getElem?_append_right (by omega)]
  simp

theorem getD_map_range (n : Nat) (f : Nat → Nat) (j : Nat) (h : j < n) :
    (((List.range n).map f)).getD j 0 = f j := by
  simp only [List.getD_eq_getElem?_getD]
  rw [List.getElem?_map, List.getElem?_range h]
  rfl

theorem slice_getD (data : List Nat) (a b j : Nat) (hj : a + j < b)
    (hb : b ≤ data.length) :
    (slice data a b).getD j 0 = data.getD (a + j) 0 := by
  unfold slice
  simp only [List.getD_eq_getElem?_getD]
  rw [List.getElem?_drop, List.getElem?_take]
  rw [if_pos (by omega)]

theorem slice_take (data : List Nat) (a b l : Nat) (h : a + l ≤ b) :
    (slice data a b).take l = slice data a (a + l) := by
  unfold slice
  have h1 : data.take (a + l) = (data.take b).take (a + l) := by
    rw [List.take_take, Nat.min_eq_left h]
  rw [h1]
  rw [List.drop_take (a + l) a (data.take b)]
  have h2 : a + l - a = l := by omega
  rw [h2]

theorem slice_eq_nil (data : List Nat) (a b : Nat) (h : b ≤ a) :
    slice data a b = [] := by
  apply List.eq_nil_of_length_eq_zero
  rw [slice_length]
  omega

theorem slice_snoc (data : List Nat) (a m : Nat) (h1 : a ≤ m) (hm : m < data.length) :
    slice data a (m + 1) = slice data a m ++ [data.getD m 0] := by
  rw [← slice_append_adjacent data a m (m + 1) h1 (by omega)]
  congr 1
  unfold slice
  have hx : data[m]? = some (data.getD m 0) := by
    rw [List.getElem?_eq_getElem hm]
    simp [List.getD_eq_getElem?_getD, List.getElem?_eq_getElem hm]
  rw [List.take_succ, hx]
  simp only [Option.toList_some]
  have h2 : (data.take m).length = m := by
    simp [Nat.min_eq_left hm.le]
  rw [List.drop_append_of_le_length (le_of_eq h2.symm),
    List.drop_eq_nil_of_le (le_of_eq h2)]
  rfl

/- ### The greedy parse loop: totality, counting and content -/

theorem parseLoop_spec (find : List Nat → Option (Nat × Nat)) (data : List Nat)
    (endPos : Nat) (tok : Nat → List Nat) (Pid : Nat → Prop)
    (hfind : ∀ pos, pos < endPos →
      ∃ id len, find (slice data pos endPos) = some (id, len) ∧ 1 ≤ len ∧
        len ≤ endPos - pos ∧ tok id = slice data pos (pos + len) ∧ Pid id) :
    ∀ fuel pos, pos ≤ endPos → endPos ≤ pos + fuel →
      ∃ toks, parseLoop find data endPos fuel pos = some toks ∧
        (toks.map tok).flatten = slice data pos endPos ∧
        toks.length ≤ endPos - pos ∧ (pos < endPos → 1 ≤ toks.length) ∧
        ∀ id ∈ toks, Pid id := by
  intro fuel
  induction fuel with
  | zero =>
    intro pos hle hfu
    have hnlt : ¬ pos < endPos := by omega
    refine ⟨[], by simp [parseLoop, hnlt], ?_, by simp,
      by intro h; exact absurd h hnlt, by simp⟩
    rw [slice_eq_nil data pos endPos (by omega)]
    rfl
  | succ f ih =>
    intro pos hle hfu
    by_cases hlt : pos < endPos
    · obtain ⟨id, len, hf, h1, h2, htok, hPid⟩ := hfind pos hlt
      obtain ⟨toks, hrec, hjoin, hcount, _, hP⟩ := ih (pos + len) (by omega) (by omega)
      refine ⟨id :: toks, ?_, ?_, by simp; omega, by simp, ?_⟩
      · simp only [parseLoop]
        rw [if_pos hlt]
        simp only [hf]
        simp only [hrec]
      · simp only [List.map_cons, List.flatten_cons]
        rw [htok, hjoin]
        exact slice_append_adjacent data pos (pos + len) endPos (by omega) (by omega)
      · intro x hx
        rcases List.mem_cons.mp hx with h | h
        · rw [h]; exact hPid
        · exact hP x h
    · refine ⟨[], ?_, ?_, by simp,
        by intro h; exact absurd h hlt, by simp⟩
      · simp only [parseLoop]
        rw [if_neg hlt]
      · rw [slice_eq_nil data pos endPos (by omega)]
        rfl

/-- The per-window token lists produced by `parse_data`, as a standalone
function (the window at `a = b` parses to `[]`, matching the skip branch). -/
def windowsOf (find : List Nat → Option (Nat × Nat)) (data : List Nat) :
    List Nat → Option (List (List Nat))
  | [] => some []
  | [_] => some []
  | a :: b :: rest =>
    match parseLoop find data b (b - a) a with
    | none => none
    | some toks =>
      match windowsOf find data (b :: rest) with
      | none => none
      | some ws => some (toks :: ws)

/-- The string-boundary marks pushed by `parse_data`: cumulative token
counts, starting from the running count `n`. -/
def marks : List (List Nat) → Nat → List Nat
  | [], _ => []
  | w :: ws, n => (n + w.length) :: marks ws (n + w.length)

theorem parseWindows_eq_windowsOf (find : List Nat → Option (Nat × Nat))
    (data : List Nat) :
    ∀ eps cd sb,
      parseWindows find data eps cd sb
        = match windowsOf find data eps with
          | none => none
          | some ws => some (cd ++ ws.flatten, sb ++ marks ws cd.length) := by
  intro eps
  induction eps with
  | nil => intro cd sb; simp [parseWindows, windowsOf, marks]
  | cons a rest ih =>
    intro cd sb
    cases rest with
    | nil => simp [parseWindows, windowsOf, marks]
    | cons b rest' =>
      by_cases hab : a = b
      · have hloop : parseLoop find data b (b - a) a = some [] := by
          subst hab
          simp [parseLoop]
        simp only [parseWindows, windowsOf, if_pos hab, hloop]
        rw [ih cd (sb ++ [cd.length])]
        cases hws : windowsOf find data (b :: rest') with
        | none => rfl
        | some ws =>
          simp only [marks, List.flatten_cons, List.length_nil, List.append_assoc,
            List.singleton_append, List.nil_append, Nat.add_zero]
      · simp only [parseWindows, windowsOf, if_neg hab]
        cases hloop : parseLoop find data b (b - a) a with
        | none => rfl
        | some toks =>
          simp only
          rw [ih (cd ++ toks) (sb ++ [(cd ++ toks).length])]
          cases hws : windowsOf find data (b :: rest') with
          | none => rfl
          | some ws =>
            simp only [marks, List.flatten_cons, List.length_append,
              List.append_assoc, List.singleton_append]

theorem windowsOf_spec (find : List Nat → Option (Nat × Nat)) (data : List Nat)
    (tok : Nat → List Nat) (Pid : Nat → Prop)
    (hfind : ∀ pos endP, pos < endP → endP ≤ data.length →
      ∃ id len, find (slice data pos endP) = some (id, len) ∧ 1 ≤ len ∧
        len ≤ endP - pos ∧ tok id = slice data pos (pos + len) ∧ Pid id) :
    ∀ eps, List.Chain' (· ≤ ·) eps → (∀ e ∈ eps, e ≤ data.length) →
      ∃ ws, windowsOf find data eps = some ws ∧ ws.length + 1 = max eps.length 1 ∧
        ∀ i, i < ws.length →
          ((ws.getD i []).map tok).flatten
              = slice data (eps.getD i 0) (eps.getD (i + 1) 0) ∧
          (ws.getD i []).length ≤ eps.getD (i + 1) 0 - eps.getD i 0 ∧
          (eps.getD i 0 < eps.getD (i + 1) 0 → 1 ≤ (ws.getD i []).length) ∧
          ∀ id ∈ ws.getD i [], Pid id := by
  intro eps
  induction eps with
  | nil =>
    intro _ _
    exact ⟨[], rfl, by simp, by intro i hi; simp at hi⟩
  | cons a rest ih =>
    intro hchain hbound
    cases rest with
    | nil =>
      exact ⟨[], rfl, by simp, by intro i hi; simp at hi⟩
    | cons b rest' =>
      obtain ⟨hab, hchain'⟩ := List.chain'_cons.mp hchain
      have hb : b ≤ data.length := hbound b (by simp)
      have hble : b ≤ a + (b - a) := by omega
      obtain ⟨toks, hloop, hjoin, hcount, hpos, hP⟩ :=
        parseLoop_spec find data b tok Pid
          (fun pos hpos => hfind pos b hpos hb) (b - a) a hab hble
      obtain ⟨ws, hws, hwlen, hwspec⟩ := ih hchain'
        (fun e he => hbound e (List.mem_cons_of_mem _ he))
      have hwlen' : ws.length = rest'.length := by
        simp only [List.length_cons] at hwlen
        omega
      refine ⟨toks :: ws, ?_, by simp; omega, ?_⟩
      · simp only [windowsOf]
        rw [hloop, hws]
      · intro i hi
        cases i with
        | zero =>
          refine ⟨?_, ?_, ?_, hP⟩
          · simpa using hjoin
          · simpa using hcount
          · simpa using hpos
        | succ j =>
          have hj : j < ws.length := by
            simp only [List.length_cons] at hi
            omega
          simpa using hwspec j hj

theorem parseDataG_eq (find : List Nat → Option (Nat × Nat)) (data : List Nat)
    (eps : List Nat) (ws : List (List Nat))
    (hws : windowsOf find data eps = some ws) :
    parseDataG find data eps = some (ws.flatten, 0 :: marks ws 0) := by
  unfold parseDataG
  rw [parseWindows_eq_windowsOf, hws]
  simp

/- ### Cumulative sums of window sizes and the flattened stream -/

/-- Total number of tokens in the first `i` windows. -/
def sumTo (ws : List (List Nat)) (i : Nat) : Nat :=
  (((ws.take i).map List.length)).sum

theorem sumTo_zero (ws : List (List Nat)) : sumTo ws 0 = 0 := rfl

theorem sumTo_cons_succ (w : List Nat) (ws : List (List Nat)) (i : Nat) :
    sumTo (w :: ws) (i + 1) = w.length + sumTo ws i := by
  simp [sumTo]

theorem marks_getD (ws : List (List Nat)) :
    ∀ n i, i < ws.length → (marks ws n).getD i 0 = n + sumTo ws (i + 1) := by
  induction ws with
  | nil => intro n i hi; simp at hi
  | cons w ws ih =>
    intro n i hi
    cases i with
    | zero => simp [marks, sumTo_cons_succ, sumTo_zero]
    | succ j =>
      have hj : j < ws.length := by simp at hi; omega
      simp only [marks, List.getD_cons_succ]
      rw [ih (n + w.length) j hj, sumTo_cons_succ]
      omega

theorem marks_length (ws : List (List Nat)) : ∀ n, (marks ws n).length = ws.length := by
  induction ws with
  | nil => intro n; rfl
  | cons w ws ih => intro n; simp [marks, ih]

theorem flatten_slice (ws : List (List Nat)) :
    ∀ i, i < ws.length →
      slice ws.flatten (sumTo ws i) (sumTo ws (i + 1)) = ws.getD i [] := by
  induction ws with
  | nil => intro i hi; simp at hi
  | cons w ws ih =>
    intro i hi
    cases i with
    | zero =>
      have h1 : sumTo (w :: ws) 1 = w.length := by
        rw [sumTo_cons_succ, sumTo_zero]
        omega
      rw [sumTo_zero, h1]
      simp only [List.flatten_cons, List.getD_cons_zero]
      unfold slice
      rw [List.drop_zero, List.take_append_of_le_length (le_refl _), List.take_length]
    | succ j =>
      have hj : j < ws.length := by simp at hi; omega
      simp only [sumTo_cons_succ, List.getD_cons_succ, List.flatten_cons]
      unfold slice
      rw [List.take_append, List.drop_append]
      exact ih j hj

/- ### The decode loops write back exactly the token bytes -/

theorem writeBytes_lt (buffer : Nat → Nat) (dst : Nat) (src : List Nat) (j : Nat)
    (h : j < dst) : writeBytes buffer dst src j = buffer j := by
  unfold writeBytes
  rw [if_neg (by omega)]

theorem writeBytes_in (buffer : Nat → Nat) (dst : Nat) (src : List Nat) (j : Nat)
    (h : j < src.length) : writeBytes buffer dst src (dst + j) = src.getD j 0 := by
  unfold writeBytes
  rw [if_pos (by omega)]
  congr 1
  omega

theorem decompressLoop16_spec (dict tb : List Nat) :
    ∀ (toks : List Nat) (buffer : Nat → Nat) (size : Nat),
      (∀ id ∈ toks, id + 1 < tb.length ∧ tb.getD id 0 ≤ tb.getD (id + 1) 0 ∧
        tb.getD (id + 1) 0 ≤ dict.length ∧ tb.getD (id + 1) 0 - tb.getD id 0 ≤ 16) →
      (decompressLoop16 dict tb toks buffer size).2
          = size + ((toks.map (tokenBytes dict tb)).flatten).length ∧
      (∀ j, j < size → (decompressLoop16 dict tb toks buffer size).1 j = buffer j) ∧
      (∀ j, j < ((toks.map (tokenBytes dict tb)).flatten).length →
        (decompressLoop16 dict tb toks buffer size).1 (size + j)
          = ((toks.map (tokenBytes dict tb)).flatten).getD j 0) := by
  intro toks
  induction toks with
  | nil =>
    intro buffer size _
    refine ⟨by simp [decompressLoop16], ?_, ?_⟩
    · intro j _; rfl
    · intro j hj; simp at hj
  | cons id rest ih =>
    intro buffer size hids
    obtain ⟨hid1, hid2, hid3, hid4⟩ := hids id (List.mem_cons_self _ _)
    have hrest := fun i hi => hids i (List.mem_cons_of_mem _ hi)
    set s := tb.getD id 0 with hs
    set e := tb.getD (id + 1) 0 with he
    have htlen : (tokenBytes dict tb id).length = e - s := by
      unfold tokenBytes
      rw [slice_length]
      omega
    set chunk := (List.range MAX_LENGTH).map (fun k => dict.getD (s + k) 0) with hchunk
    have hchunklen : chunk.length = 16 := by simp [hchunk, MAX_LENGTH]
    have hstep : decompressLoop16 dict tb (id :: rest) buffer size
        = decompressLoop16 dict tb rest (writeBytes buffer size chunk) (size + (e - s)) := by
      rfl
    obtain ⟨ihA, ihB, ihC⟩ := ih (writeBytes buffer size chunk) (size + (e - s)) hrest
    rw [hstep]
    refine ⟨?_, ?_, ?_⟩
    · rw [ihA]
      simp only [List.map_cons, List.flatten_cons, List.length_append, htlen]
      omega
    · intro j hj
      rw [ihB j (by omega), writeBytes_lt _ _ _ _ hj]
    · intro j hj
      simp only [List.map_cons, List.flatten_cons, List.length_append, htlen] at hj
      rcases Nat.lt_or_ge j (e - s) with hcase | hcase
      · have h1 : (decompressLoop16 dict tb rest (writeBytes buffer size chunk)
            (size + (e - s))).1 (size + j) = writeBytes buffer size chunk (size + j) :=
          ihB (size + j) (by omega)
        rw [h1, writeBytes_in _ _ _ j (by omega)]
        have h2 : chunk.getD j 0 = dict.getD (s + j) 0 :=
          getD_map_range _ _ j (by simp [MAX_LENGTH]; omega)
        rw [h2]
        simp only [List.map_cons, List.flatten_cons]
        rw [← htlen] at hcase
        rw [getD_append_left' _ _ _ hcase]
        unfold tokenBytes
        rw [← hs, ← he, slice_getD dict s e j (by omega) hid3]
      · have h1 : size + j = (size + (e - s)) + (j - (e - s)) := by omega
        rw [h1, ihC (j - (e - s)) (by omega)]
        simp only [List.map_cons, List.flatten_cons]
        generalize hg : j - (e - s) = k
        have h4 : j = (tokenBytes dict tb id).length + k := by
          rw [htlen]; omega
        rw [h4, getD_append_right']

theorem decompressLoopA_spec (dict tb : List Nat) :
    ∀ (toks : List Nat) (buffer : Nat → Nat) (size : Nat),
      (∀ id ∈ toks, id + 1 < tb.length ∧ tb.getD id 0 ≤ tb.getD (id + 1) 0 ∧
        tb.getD (id + 1) 0 ≤ dict.length) →
      (decompressLoopA dict tb toks buffer size).2
          = size + ((toks.map (tokenBytes dict tb)).flatten).length ∧
      (∀ j, j < size → (decompressLoopA dict tb toks buffer size).1 j = buffer j) ∧
      (∀ j, j < ((toks.map (tokenBytes dict tb)).flatten).length →
        (decompressLoopA dict tb toks buffer size).1 (size + j)
          = ((toks.map (tokenBytes dict tb)).flatten).getD j 0) := by
  intro toks
  induction toks with
  | nil =>
    intro buffer size _
    refine ⟨by simp [decompressLoopA], ?_, ?_⟩
    · intro j _; rfl
    · intro j hj; simp at hj
  | cons id rest ih =>
    intro buffer size hids
    obtain ⟨hid1, hid2, hid3⟩ := hids id (List.mem_cons_self _ _)
    have hrest := fun i hi => hids i (List.mem_cons_of_mem _ hi)
    set s := tb.getD id 0 with hs
    set e := tb.getD (id + 1) 0 with he
    have htlen : (tokenBytes dict tb id).length = e - s := by
      unfold tokenBytes
      rw [slice_length]
      omega
    set chunk := (List.range (max FAST_COPY_SIZE (e - s))).map
      (fun k => dict.getD (s + k) 0) with hchunk
    have hchunklen : chunk.length = max FAST_COPY_SIZE (e - s) := by
      simp [hchunk]
    have hstep : decompressLoopA dict tb (id :: rest) buffer size
        = decompressLoopA dict tb rest (writeBytes buffer size chunk) (size + (e - s)) := by
      rfl
    obtain ⟨ihA, ihB, ihC⟩ := ih (writeBytes buffer size chunk) (size + (e - s)) hrest
    rw [hstep]
    refine ⟨?_, ?_, ?_⟩
    · rw [ihA]
      simp only [List.map_cons, List.flatten_cons, List.length_append, htlen]
      omega
    · intro j hj
      rw [ihB j (by omega), writeBytes_lt _ _ _ _ hj]
    · intro j hj
      simp only [List.map_cons, List.flatten_cons, List.length_append, htlen] at hj
      rcases Nat.lt_or_ge j (e - s) with hcase | hcase
      · have h1 : (decompressLoopA dict tb rest (writeBytes buffer size chunk)
            (size + (e - s))).1 (size + j) = writeBytes buffer size chunk (size + j) :=
          ihB (size + j) (by omega)
        rw [h1, writeBytes_in _ _ _ j (by rw [hchunklen]; omega)]
        have h2 : chunk.getD j 0 = dict.getD (s + j) 0 :=
          getD_map_range _ _ j (by omega)
        rw [h2]
        simp only [List.map_cons, List.flatten_cons]
        rw [← htlen] at hcase
        rw [getD_append_left' _ _ _ hcase]
        unfold tokenBytes
        rw [← hs, ← he, slice_getD dict s e j (by omega) hid3]
      · have h1 : size + j = (size + (e - s)) + (j - (e - s)) := by omega
        rw [h1, ihC (j - (e - s)) (by omega)]
        simp only [List.map_cons, List.flatten_cons]
        generalize hg : j - (e - s) = k
        have h4 : j = (tokenBytes dict tb id).length + k := by
          rw [htlen]; omega
        rw [h4, getD_append_right']

end OnPairModel

namespace OnPairModel

/- ### Association list helpers for the finalize proofs -/

theorem alookup_cons_self {α β : Type} [DecidableEq α] (k : α) (v : β) (l : List (α × β)) :
    alookup ((k, v) :: l) k = some v := by
  simp [alookup]

theorem alookup_cons_ne {α β : Type} [DecidableEq α] (k₀ : α) (v : β) (l : List (α × β))
    (k : α) (h : k ≠ k₀) : alookup ((k₀, v) :: l) k = alookup l k := by
  simp [alookup, h]

theorem mem_keys_alookup {α β : Type} [DecidableEq α] (l : List (α × β)) (k : α)
    (h : k ∈ l.map (fun p => p.1)) : (alookup l k).isSome := by
  induction l with
  | nil => simp at h
  | cons p rest ih =>
    obtain ⟨k₀, v⟩ := p
    by_cases hk : k = k₀
    · subst hk
      rw [alookup_cons_self]
      rfl
    · rw [alookup_cons_ne _ _ _ _ hk]
      apply ih
      simp only [List.map_cons, List.mem_cons] at h
      rcases h with h | h
      · exact absurd h hk
      · exact h

theorem alookup_none_of_not_mem {α β : Type} [DecidableEq α] (l : List (α × β)) (k : α)
    (h : k ∉ l.map (fun p => p.1)) : alookup l k = none := by
  induction l with
  | nil => rfl
  | cons p rest ih =>
    obtain ⟨k₀, v⟩ := p
    simp only [List.map_cons, List.mem_cons] at h
    push_neg at h
    rw [alookup_cons_ne _ _ _ _ h.1]
    exact ih h.2

theorem not_mem_of_alookup_none {α β : Type} [DecidableEq α] (l : List (α × β)) (k : α)
    (h : alookup l k = none) : k ∉ l.map (fun p => p.1) := by
  intro hmem
  have := mem_keys_alookup l k hmem
  rw [h] at this
  simp at this

theorem alookup_of_mem_nodup {α β : Type} [DecidableEq α] (l : List (α × β)) (k : α) (v : β)
    (hnd : (l.map (fun p => p.1)).Nodup) (h : (k, v) ∈ l) : alookup l k = some v := by
  induction l with
  | nil => simp at h
  | cons p rest ih =>
    obtain ⟨k₀, w⟩ := p
    simp only [List.map_cons, List.nodup_cons] at hnd
    rcases List.mem_cons.mp h with h' | h'
    · rw [Prod.mk.injEq] at h'
      obtain ⟨h1, h2⟩ := h'
      subst h1
      subst h2
      exact alookup_cons_self _ _ _
    · have hk : k ≠ k₀ := by
        intro hc
        subst hc
        exact hnd.1 (List.mem_map.mpr ⟨(k, v), h', rfl⟩)
      rw [alookup_cons_ne _ _ _ _ hk]
      exact ih hnd.2 h' 

theorem ainsert_keys_fresh {α β : Type} [DecidableEq α] (l : List (α × β)) (k : α) (v : β)
    (h : k ∉ l.map (fun p => p.1)) :
    (ainsert l k v).map (fun p => p.1) = l.map (fun p => p.1) ++ [k] := by
  induction l with
  | nil => simp [ainsert]
  | cons p rest ih =>
    obtain ⟨k₀, w⟩ := p
    simp only [List.map_cons, List.mem_cons] at h
    push_neg at h
    simp only [ainsert, if_neg h.1, List.map_cons, ih h.2, List.cons_append]

/- ### Bounds for the folded max and the set-based layout of long_info -/

theorem foldl_max_init_le (l : List Nat) : ∀ a : Nat, a ≤ l.foldl max a := by
  induction l with
  | nil => intro a; exact le_refl a
  | cons b rest ih =>
    intro a
    exact le_trans (le_max_left a b) (ih (max a b))

theorem le_foldl_max (l : List Nat) : ∀ a x : Nat, x ∈ l → x ≤ l.foldl max a := by
  induction l with
  | nil => intro a x hx; simp at hx
  | cons b rest ih =>
    intro a x hx
    rcases List.mem_cons.mp hx with h | h
    · subst h
      exact le_trans (le_max_right a x) (foldl_max_init_le rest (max a x))
    · exact ih (max a b) x h

theorem foldl_max_le (l : List Nat) : ∀ a c : Nat, a ≤ c → (∀ x ∈ l, x ≤ c) →
    l.foldl max a ≤ c := by
  induction l with
  | nil => intro a c ha _; exact ha
  | cons b rest ih =>
    intro a c ha h
    exact ih (max a b) c (max_le ha (h b (List.mem_cons_self _ _)))
      (fun x hx => h x (List.mem_cons_of_mem _ hx))

theorem getD_set_self (l : List LongMatchInfo) (i : Nat) (v : LongMatchInfo)
    (h : i < l.length) : (l.set i v).getD i LongMatchInfo.default = v := by
  simp [List.getD_eq_getElem?_getD, List.getElem?_set, h]

theorem getD_set_ne (l : List LongMatchInfo) (i j : Nat) (v : LongMatchInfo)
    (h : i ≠ j) : (l.set i v).getD j LongMatchInfo.default
      = l.getD j LongMatchInfo.default := by
  simp [List.getD_eq_getElem?_getD, List.getElem?_set, h]

theorem foldl_set_length (f : Nat → Nat) :
    ∀ (l : List (Nat × LongMatchInfo)) (acc : List LongMatchInfo),
      (l.foldl (fun a p => a.set (f p.1) p.2) acc).length = acc.length := by
  intro l
  induction l with
  | nil => intro acc; rfl
  | cons p rest ih =>
    intro acc
    simp only [List.foldl_cons]
    rw [ih, List.length_set]

theorem foldl_set_untouched (f : Nat → Nat) :
    ∀ (l : List (Nat × LongMatchInfo)) (i : Nat), (∀ p ∈ l, f p.1 ≠ i) →
      ∀ acc : List LongMatchInfo,
        (l.foldl (fun a p => a.set (f p.1) p.2) acc).getD i LongMatchInfo.default
          = acc.getD i LongMatchInfo.default := by
  intro l
  induction l with
  | nil => intro i _ acc; rfl
  | cons p rest ih =>
    intro i h acc
    simp only [List.foldl_cons]
    rw [ih i (fun q hq => h q (List.mem_cons_of_mem _ hq)),
      getD_set_ne _ _ _ _ (h p (List.mem_cons_self _ _))]

theorem foldl_set_lookup (f : Nat → Nat) :
    ∀ (l : List (Nat × LongMatchInfo)) (acc : List LongMatchInfo)
      (k : Nat) (rec : LongMatchInfo),
      (l.map (fun p => p.1)).Nodup →
      alookup l k = some rec →
      (∀ p ∈ l, f p.1 = f k → p.1 = k) →
      f k < acc.length →
      (l.foldl (fun a p => a.set (f p.1) p.2) acc).getD (f k) LongMatchInfo.default
        = rec := by
  intro l
  induction l with
  | nil => intro acc k rec _ h _ _; simp [alookup] at h
  | cons p rest ih =>
    intro acc k rec hnd h hinj hlt
    obtain ⟨k₀, v⟩ := p
    simp only [List.map_cons, List.nodup_cons] at hnd
    simp only [List.foldl_cons]
    by_cases hk : k = k₀
    · subst hk
      rw [alookup_cons_self] at h
      have hv : v = rec := by injection h
      subst hv
      rw [foldl_set_untouched f rest (f k) (fun q hq hfq => by
        have hqk : q.1 = k := hinj q (List.mem_cons_of_mem _ hq) hfq
        exact hnd.1 (hqk ▸ List.mem_map.mpr ⟨q, hq, rfl⟩))]
      exact getD_set_self acc (f k) v hlt
    · rw [alookup_cons_ne _ _ _ _ hk] at h
      exact ih (acc.set (f k₀) v) k rec hnd.2 h
        (fun q hq => hinj q (List.mem_cons_of_mem _ hq))
        (by rw [List.length_set]; exact hlt)

theorem phfIndex_mem (keys : List Nat) (k : Nat) (h : k ∈ keys) :
    phfIndexNoRemap keys k = keys.indexOf k := by
  simp [phfIndexNoRemap, h]

theorem phfIndex_lt (keys : List Nat) (k : Nat) (h : k ∈ keys) :
    phfIndexNoRemap keys k < keys.length := by
  rw [phfIndex_mem keys k h]
  exact List.indexOf_lt_length.mpr h

theorem phfIndex_not_mem (keys : List Nat) (k : Nat) (h : k ∉ keys) :
    phfIndexNoRemap keys k = keys.length + 1 := by
  simp [phfIndexNoRemap, h]

/- ### Scan helpers -/

theorem isPrefixWord_false_of_lt (text cand textSize candSize : Nat)
    (h : textSize < candSize) : isPrefixWord text cand textSize candSize = false := by
  unfold isPrefixWord
  rw [decide_eq_false (by omega)]
  rfl

theorem scanBucket_none_of (sw sl : Nat) :
    ∀ bucket : List BEntry, (∀ e ∈ bucket, isPrefixWord sw e.1 sl e.2.1 = false) →
      scanBucket bucket sw sl = none := by
  intro bucket
  induction bucket with
  | nil => intro _; rfl
  | cons e rest ih =>
    intro h
    obtain ⟨es, el, ei⟩ := e
    have he := h (es, el, ei) (List.mem_cons_self _ _)
    simp only [scanBucket]
    rw [he]
    simp only [Bool.false_eq_true, if_false]
    exact ih (fun x hx => h x (List.mem_cons_of_mem _ hx))

theorem shortScan_congr (d1 d2 : List ((Nat × Nat) × Nat)) :
    ∀ (l : Nat) (w : Nat),
      (∀ x len, 1 ≤ len → len ≤ l → alookup d1 (x, len) = alookup d2 (x, len)) →
      shortScan d1 w l = shortScan d2 w l := by
  intro l
  induction l with
  | zero => intro w _; rfl
  | succ k ih =>
    intro w h
    simp only [shortScan]
    rw [h (Nat.land w (MASKS (k + 1))) (k + 1) (by omega) (le_refl _)]
    cases alookup d2 (Nat.land w (MASKS (k + 1)), k + 1) with
    | some id => rfl
    | none => exact ih _ (fun x len h1 h2 => h x len h1 (by omega))

theorem shortScan_eight (d : List ((Nat × Nat) × Nat)) (w : Nat) (hw : w < 2 ^ 64) :
    shortScan d w 8 = match alookup d (w, 8) with
      | some id => some (id, 8)
      | none => shortScan d w 7 := by
  have hmask : Nat.land w (MASKS 8) = w := by
    rw [land_MASKS]
    exact Nat.mod_eq_of_lt (by rw [show 8 * 8 = 64 from rfl]; exact hw)
  show (match alookup d (Nat.land w (MASKS 8), 8) with
      | some id => some (id, 8)
      | none => shortScan d (Nat.land w (MASKS 8)) 7) = _
  rw [hmask]

theorem find16_on_prefix_bytes (st : LPM16) (pfx : Nat) (h : pfx < 2 ^ 64) :
    st.findLongestMatch (toLEBytes pfx 8) = shortScan st.dictionary pfx 8 := by
  have hlen : (toLEBytes pfx 8).length = 8 := toLEBytes_length _ _
  have hval : bytesToU64LE (toLEBytes pfx 8) 8 = pfx := by
    rw [bytesToU64LE_eq _ _ (toLEBytes_lt _ _) (le_refl _),
      List.take_of_length_le (by rw [hlen])]
    exact encodeLE_toLEBytes pfx 8 (by rw [pow_256_eq]; rw [show 8 * 8 = 64 from rfl]; exact h)
  unfold LPM16.findLongestMatch
  rw [hlen, hval]
  norm_num

/- ### The first finalize loop: bucket records and the overflow layout -/

theorem take_drop_middle {α : Type} (l₁ l₂ l₃ : List α) :
    (((l₁ ++ l₂) ++ l₃).take (l₁.length + l₂.length)).drop l₁.length = l₂ := by
  rw [show l₁.length + l₂.length = (l₁ ++ l₂).length by simp]
  rw [List.take_left, List.drop_left]

theorem finalizeBuckets_spec (st : LPM16)
    (htotal : ∀ pfx, ∃ r, st.findLongestMatch (toLEBytes pfx 8) = some r) :
    ∀ (bkts : List (Nat × List BEntry)) (d0 : List (Nat × LongMatchInfo))
      (b0 : List BEntry),
      (bkts.map (fun p => p.1)).Nodup →
      (∀ p ∈ bkts, p.2.length ≤ MAX_BUCKET_SIZE + 1) →
      (∀ p ∈ bkts, p.1 ∉ d0.map (fun q => q.1)) →
      b0.length + sumOverflow bkts ≤ 65535 →
      ∃ d1 b1, finalizeBuckets st bkts d0 b0 = some (d1, b1) ∧
        (∀ k, k ∉ bkts.map (fun p => p.1) → alookup d1 k = alookup d0 k) ∧
        d1.map (fun p => p.1) = d0.map (fun p => p.1) ++ bkts.map (fun p => p.1) ∧
        (∃ ext, b1 = b0 ++ ext) ∧
        (∀ pfx bucket, (pfx, bucket) ∈ bkts →
          ∃ off aId aLen,
            alookup d1 pfx = some ⟨pfx, bucket.take N_INLINE_SUFFIXES,
              bucket.length, off, aId, aLen⟩ ∧
            st.findLongestMatch (toLEBytes pfx 8) = some (aId, aLen) ∧
            (b1.take (off + (bucket.length - N_INLINE_SUFFIXES))).drop off
              = bucket.drop N_INLINE_SUFFIXES) := by
  intro bkts
  induction bkts with
  | nil =>
    intro d0 b0 _ _ _ _
    exact ⟨d0, b0, rfl, fun k _ => rfl, by simp, ⟨[], by simp⟩,
      by intro pfx bucket h; simp at h⟩
  | cons pb rest ih =>
    intro d0 b0 hnd hcap hfresh hsum
    obtain ⟨pfx0, bucket0⟩ := pb
    obtain ⟨⟨aId, aLen⟩, hr⟩ := htotal pfx0
    simp only [List.map_cons, List.nodup_cons] at hnd
    have hb129 : bucket0.length ≤ MAX_BUCKET_SIZE + 1 :=
      hcap (pfx0, bucket0) (List.mem_cons_self _ _)
    have hMBS : MAX_BUCKET_SIZE = 128 := rfl
    have hsum0 : sumOverflow ((pfx0, bucket0) :: rest)
        = (bucket0.length - N_INLINE_SUFFIXES) + sumOverflow rest := by
      simp [sumOverflow]
    have hmod1 : bucket0.length % 65536 = bucket0.length :=
      Nat.mod_eq_of_lt (by omega)
    have hmod2 : b0.length % 65536 = b0.length :=
      Nat.mod_eq_of_lt (by omega)
    have hp0 : pfx0 ∉ d0.map (fun q => q.1) :=
      hfresh (pfx0, bucket0) (List.mem_cons_self _ _)
    have hstep : finalizeBuckets st ((pfx0, bucket0) :: rest) d0 b0
        = finalizeBuckets st rest
            (ainsert d0 pfx0 ⟨pfx0, bucket0.take N_INLINE_SUFFIXES,
              bucket0.length, b0.length, aId, aLen⟩)
            (b0 ++ bucket0.drop N_INLINE_SUFFIXES) := by
      simp only [finalizeBuckets]
      rw [hr, hmod1, hmod2]
    obtain ⟨d1, b1, hres, hunt, hkeys, ⟨ext, hbeq⟩, hper⟩ :=
      ih (ainsert d0 pfx0 ⟨pfx0, bucket0.take N_INLINE_SUFFIXES,
            bucket0.length, b0.length, aId, aLen⟩)
        (b0 ++ bucket0.drop N_INLINE_SUFFIXES) hnd.2
        (fun p hp => hcap p (List.mem_cons_of_mem _ hp))
        (by
          intro p hp
          rw [ainsert_keys_fresh _ _ _ hp0]
          simp only [List.mem_append, List.mem_singleton]
          push_neg
          refine ⟨hfresh p (List.mem_cons_of_mem _ hp), ?_⟩
          intro hc
          exact hnd.1 (hc ▸ List.mem_map.mpr ⟨p, hp, rfl⟩))
        (by
          rw [hsum0] at hsum
          simp only [List.length_append, List.length_drop]
          omega)
    refine ⟨d1, b1, by rw [hstep]; exact hres, ?_, ?_, ?_, ?_⟩
    · intro k hk
      simp only [List.map_cons, List.mem_cons] at hk
      push_neg at hk
      rw [hunt k hk.2, alookup_ainsert_ne _ _ _ _ hk.1]
    · rw [hkeys, ainsert_keys_fresh _ _ _ hp0]
      simp
    · exact ⟨bucket0.drop N_INLINE_SUFFIXES ++ ext, by rw [hbeq, List.append_assoc]⟩
    · intro pfx bucket hmem
      rcases List.mem_cons.mp hmem with h' | h'
      · rw [Prod.mk.injEq] at h'
        obtain ⟨h1, h2⟩ := h'
        subst h1
        subst h2
        refine ⟨b0.length, aId, aLen, ?_, hr, ?_⟩
        · rw [hunt pfx (by
            intro hc
            exact hnd.1 hc)]
          exact alookup_ainsert _ _ _
        · rw [hbeq]
          rw [show bucket.length - N_INLINE_SUFFIXES
              = (bucket.drop N_INLINE_SUFFIXES).length by rw [List.length_drop]]
          exact take_drop_middle b0 (bucket.drop N_INLINE_SUFFIXES) ext
      · exact hper pfx bucket h'

/- ### The second finalize loop: promotion of 8-byte keys -/

theorem finalizeShortDict_spec :
    ∀ (entries : List ((Nat × Nat) × Nat)) (d0 : List (Nat × LongMatchInfo))
      (s0 : List ((Nat × Nat) × Nat)),
      (entries.map (fun p => p.1)).Nodup →
      (∀ x l, l ≠ 8 →
        alookup (finalizeShortDict entries d0 s0).2 (x, l)
          = match alookup entries (x, l) with
            | some id => some id
            | none => alookup s0 (x, l)) ∧
      (∀ x, alookup (finalizeShortDict entries d0 s0).2 (x, 8) = alookup s0 (x, 8)) ∧
      (∀ pfx, alookup (finalizeShortDict entries d0 s0).1 pfx
          = match alookup d0 pfx with
            | some info => some info
            | none =>
              match alookup entries (pfx, 8) with
              | some id => some ⟨pfx, [], 0, 0, id, 8⟩
              | none => none) ∧
      ((d0.map (fun p => p.1)).Nodup →
        ((finalizeShortDict entries d0 s0).1.map (fun p => p.1)).Nodup) := by
  intro entries
  induction entries with
  | nil =>
    intro d0 s0 _
    refine ⟨?_, ?_, ?_, fun h => h⟩
    · intro x l _
      rfl
    · intro x
      rfl
    · intro pfx
      show alookup d0 pfx = _
      cases alookup d0 pfx with
      | some info => rfl
      | none => rfl
  | cons e rest ih =>
    intro d0 s0 hnd
    obtain ⟨⟨p, len⟩, id⟩ := e
    simp only [List.map_cons, List.nodup_cons] at hnd
    by_cases hl : len = 8
    · subst hl
      by_cases hd0 : (alookup d0 p).isSome = true
      · have hstep : finalizeShortDict (((p, 8), id) :: rest) d0 s0
            = finalizeShortDict rest d0 s0 := by
          show (if (alookup d0 p).isSome then finalizeShortDict rest d0 s0
              else finalizeShortDict rest (ainsert d0 p ⟨p, [], 0, 0, id, 8⟩) s0)
            = finalizeShortDict rest d0 s0
          rw [if_pos hd0]
        obtain ⟨ihlow, ih8, ihd, ihnd⟩ := ih d0 s0 hnd.2
        rw [hstep]
        refine ⟨?_, ?_, ?_, ihnd⟩
        · intro x l hl8
          rw [ihlow x l hl8, alookup_cons_ne _ _ _ _ (by
            intro hc
            rw [Prod.mk.injEq] at hc
            exact hl8 hc.2)]
        · intro x
          exact ih8 x
        · intro pfx
          rw [ihd pfx]
          by_cases hpp : pfx = p
          · subst hpp
            obtain ⟨info, hinfo⟩ := Option.isSome_iff_exists.mp hd0
            rw [hinfo]
          · rw [alookup_cons_ne _ _ _ _ (by
              intro hc
              rw [Prod.mk.injEq] at hc
              exact hpp hc.1)]
      · have hnone : alookup d0 p = none := by
          cases hv : alookup d0 p with
          | none => rfl
          | some v => rw [hv] at hd0; simp at hd0
        have hstep : finalizeShortDict (((p, 8), id) :: rest) d0 s0
            = finalizeShortDict rest (ainsert d0 p ⟨p, [], 0, 0, id, 8⟩) s0 := by
          show (if (alookup d0 p).isSome then finalizeShortDict rest d0 s0
              else finalizeShortDict rest (ainsert d0 p ⟨p, [], 0, 0, id, 8⟩) s0)
            = finalizeShortDict rest (ainsert d0 p ⟨p, [], 0, 0, id, 8⟩) s0
          rw [if_neg hd0]
        obtain ⟨ihlow, ih8, ihd, ihnd⟩ := ih (ainsert d0 p ⟨p, [], 0, 0, id, 8⟩) s0 hnd.2
        rw [hstep]
        refine ⟨?_, ?_, ?_, ?_⟩
        · intro x l hl8
          rw [ihlow x l hl8, alookup_cons_ne _ _ _ _ (by
            intro hc
            rw [Prod.mk.injEq] at hc
            exact hl8 hc.2)]
        · intro x
          exact ih8 x
        · intro pfx
          rw [ihd pfx]
          by_cases hpp : pfx = p
          · subst hpp
            rw [hnone, alookup_ainsert, alookup_cons_self]
          · rw [alookup_ainsert_ne _ _ _ _ hpp,
              alookup_cons_ne _ _ _ _ (by
                intro hc
                rw [Prod.mk.injEq] at hc
                exact hpp hc.1)]
        · intro hd0nd
          apply ihnd
          exact ainsert_nodupKeys _ _ _ hd0nd
    · have hstep : finalizeShortDict (((p, len), id) :: rest) d0 s0
          = finalizeShortDict rest d0 (ainsert s0 (p, len) id) := by
        simp only [finalizeShortDict]
        rw [if_neg hl]
      obtain ⟨ihlow, ih8, ihd, ihnd⟩ := ih d0 (ainsert s0 (p, len) id) hnd.2
      rw [hstep]
      refine ⟨?_, ?_, ?_, ihnd⟩
      · intro x l hl8
        by_cases hxl : (x, l) = (p, len)
        · rw [Prod.mk.injEq] at hxl
          obtain ⟨hx, hll⟩ := hxl
          subst hx
          subst hll
          rw [ihlow x l hl8]
          have hrest : alookup rest (x, l) = none :=
            alookup_none_of_not_mem _ _ hnd.1
          rw [hrest, alookup_cons_self, alookup_ainsert]
        · rw [ihlow x l hl8, alookup_cons_ne _ _ _ _ hxl,
            alookup_ainsert_ne _ _ _ _ hxl]
      · intro x
        rw [ih8 x, alookup_ainsert_ne _ _ _ _ (by
          intro hc
          rw [Prod.mk.injEq] at hc
          exact hl hc.2.symm)]
      · intro pfx
        rw [ihd pfx]
        by_cases hd0p : alookup d0 pfx = none
        · rw [hd0p]
          rw [alookup_cons_ne _ _ _ _ (by
            intro hc
            rw [Prod.mk.injEq] at hc
            exact hl hc.2.symm)]
        · obtain ⟨v, hv⟩ := Option.ne_none_iff_exists'.mp hd0p
          rw [hv]

/- ### Unfolding lemmas for the two matchers -/

theorem find16_eq_big (st : LPM16) (q : List Nat) (h : q.length > 8) :
    st.findLongestMatch q
      = match (match alookup st.buckets (bytesToU64LE q 8) with
               | some bucket => scanBucket bucket
                   (bytesToU64LE (q.drop 8) (min q.length 16 - 8)) (min q.length 16 - 8)
               | none => none) with
        | some r => some r
        | none => shortScan st.dictionary (bytesToU64LE q 8) 8 := by
  unfold LPM16.findLongestMatch
  rw [if_pos h, Nat.min_eq_left (show (8 : Nat) ≤ q.length by omega)]

theorem find16_eq_small (st : LPM16) (q : List Nat) (h : ¬ q.length > 8) :
    st.findLongestMatch q
      = shortScan st.dictionary (bytesToU64LE q 8) (min 8 q.length) := by
  unfold LPM16.findLongestMatch
  rw [if_neg h]

theorem static16_eq_big (stat : Static16) (q : List Nat) (h : q.length ≥ 8) :
    stat.findLongestMatch q
      = match stat.computeLongAnswer (bytesToU64LE q 8)
          (bytesToU64LE (q.drop 8) (min q.length 16 - 8)) (min q.length 16 - 8) with
        | some r => some r
        | none => shortScan stat.shortDictionary (bytesToU64LE q 8) (min 7 q.length) := by
  unfold Static16.findLongestMatch
  rw [if_pos h]

theorem static16_eq_small (stat : Static16) (q : List Nat) (h : ¬ q.length ≥ 8) :
    stat.findLongestMatch q
      = shortScan stat.shortDictionary (bytesToU64LE q 8) (min 7 q.length) := by
  unfold Static16.findLongestMatch
  rw [if_neg h]

/- ### compute_long_answer on present and absent prefixes -/

theorem computeLongAnswer_absent (SD' : List ((Nat × Nat) × Nat)) (KS' : List Nat)
    (LI' : List LongMatchInfo) (LB' : List BEntry) (pfx sw sl : Nat)
    (h : LI'.length ≤ phfIndexNoRemap KS' pfx) :
    Static16.computeLongAnswer ⟨SD', KS', LI', LB'⟩ pfx sw sl = none := by
  simp only [Static16.computeLongAnswer]
  rw [if_pos (by omega)]

theorem computeLongAnswer_present (SD' : List ((Nat × Nat) × Nat)) (KS' : List Nat)
    (LI' : List LongMatchInfo) (LB' : List BEntry)
    (pfx sw sl : Nat) (inl : List BEntry) (ns off aId aLen : Nat)
    (hidx : phfIndexNoRemap KS' pfx < LI'.length)
    (hrec : LI'.getD (phfIndexNoRemap KS' pfx) LongMatchInfo.default
      = ⟨pfx, inl, ns, off, aId, aLen⟩) :
    Static16.computeLongAnswer ⟨SD', KS', LI', LB'⟩ pfx sw sl
      = match scanBucket (inl.take (min N_INLINE_SUFFIXES ns)) sw sl with
        | some r => some r
        | none =>
          if ns > N_INLINE_SUFFIXES then
            match scanBucket ((LB'.take (off + ns - N_INLINE_SUFFIXES)).drop off) sw sl with
            | some r => some r
            | none => some (aId, aLen)
          else some (aId, aLen) := by
  simp only [Static16.computeLongAnswer]
  rw [if_neg (by omega), hrec]
  rw [if_neg (by simp)]

/- ### The static long-path chain collapses to a scan of the whole bucket -/

theorem static_chain_eq (b1 bucket : List BEntry) (off aId aLen sw sl : Nat)
    (hregion : (b1.take (off + (bucket.length - N_INLINE_SUFFIXES))).drop off
      = bucket.drop N_INLINE_SUFFIXES) :
    (match scanBucket ((bucket.take N_INLINE_SUFFIXES).take
        (min N_INLINE_SUFFIXES bucket.length)) sw sl with
      | some r => some r
      | none =>
        if bucket.length > N_INLINE_SUFFIXES then
          match scanBucket ((b1.take (off + bucket.length - N_INLINE_SUFFIXES)).drop off)
              sw sl with
          | some r => some r
          | none => some (aId, aLen)
        else some (aId, aLen))
      = match scanBucket bucket sw sl with
        | some r => some r
        | none => some (aId, aLen) := by
  have htt : (bucket.take N_INLINE_SUFFIXES).take (min N_INLINE_SUFFIXES bucket.length)
      = bucket.take (min N_INLINE_SUFFIXES bucket.length) := by
    rw [List.take_take]
    congr 1
    omega
  rw [htt]
  by_cases hn : bucket.length > N_INLINE_SUFFIXES
  · have hoff : off + bucket.length - N_INLINE_SUFFIXES
        = off + (bucket.length - N_INLINE_SUFFIXES) := by
      have : N_INLINE_SUFFIXES = 4 := rfl
      omega
    rw [hoff, hregion]
    have hmin : min N_INLINE_SUFFIXES bucket.length = N_INLINE_SUFFIXES := by omega
    rw [hmin]
    have hsplit : scanBucket bucket sw sl
        = match scanBucket (bucket.take N_INLINE_SUFFIXES) sw sl with
          | some r => some r
          | none => scanBucket (bucket.drop N_INLINE_SUFFIXES) sw sl := by
      conv_lhs => rw [← List.take_append_drop N_INLINE_SUFFIXES bucket]
      exact scanBucket_append _ _ _ _
    rw [hsplit]
    cases scanBucket (bucket.take N_INLINE_SUFFIXES) sw sl with
    | some r => rfl
    | none =>
      rw [if_pos hn]
  · have hmin : min N_INLINE_SUFFIXES bucket.length = bucket.length := by omega
    rw [hmin, List.take_length]
    cases scanBucket bucket sw sl with
    | some r => rfl
    | none => rw [if_neg hn]

theorem static_chain_zero (b1 bucket : List BEntry) (off aId aLen sw : Nat)
    (hregion : (b1.take (off + (bucket.length - N_INLINE_SUFFIXES))).drop off
      = bucket.drop N_INLINE_SUFFIXES)
    (hlens : ∀ e ∈ bucket, 1 ≤ e.2.1) :
    (match scanBucket ((bucket.take N_INLINE_SUFFIXES).take
        (min N_INLINE_SUFFIXES bucket.length)) sw 0 with
      | some r => some r
      | none =>
        if bucket.length > N_INLINE_SUFFIXES then
          match scanBucket ((b1.take (off + bucket.length - N_INLINE_SUFFIXES)).drop off)
              sw 0 with
          | some r => some r
          | none => some (aId, aLen)
        else some (aId, aLen))
      = some (aId, aLen) := by
  rw [static_chain_eq b1 bucket off aId aLen sw 0 hregion]
  rw [scanBucket_none_of _ _ _ (fun e he =>
    isPrefixWord_false_of_lt _ _ _ _ (by
      have := hlens e he
      omega))]

/- ### Finalize produces an equivalent static matcher -/

theorem finalize_equiv (st : LPM16) {dict tb : List Nat} {nextId : Nat}
    (hd : DictInv st.dictionary dict tb nextId)
    (hb : BucketInv st.buckets dict tb nextId)
    (hso : sumOverflow st.buckets ≤ 65535) :
    ∃ stat, st.finalize = some stat ∧
      ∀ q, (∀ x ∈ q, x < 256) → stat.findLongestMatch q = st.findLongestMatch q := by
  have hsingles : ∀ x, x < 256 → (alookup st.dictionary (x, 1)).isSome := by
    intro x hx
    rw [hd.singles x hx]
    rfl
  have htotal : ∀ pfx, ∃ r, st.findLongestMatch (toLEBytes pfx 8) = some r := by
    intro pfx
    obtain ⟨id, len, hfind, _⟩ := find16_total st hsingles (toLEBytes pfx 8)
      (toLEBytes_lt _ _)
      (by
        intro hc
        have h8 := toLEBytes_length pfx 8
        rw [hc] at h8
        simp at h8)
    exact ⟨(id, len), hfind⟩
  obtain ⟨d1, b1, hfb, hunt, hkeys1, ⟨ext0, hext0⟩, hper⟩ :=
    finalizeBuckets_spec st htotal st.buckets [] [] hb.nodupKeys
      (fun p hp => hb.cap p.1 p.2 hp)
      (fun p _ => by simp)
      (by simpa using hso)
  simp only [List.map_nil, List.nil_append] at hkeys1
  have hd1nd : (d1.map (fun p => p.1)).Nodup := by
    rw [hkeys1]
    exact hb.nodupKeys
  obtain ⟨hslow, hs8, hldl, hldnd⟩ := finalizeShortDict_spec st.dictionary d1 [] hd.nodupKeys
  set LD := (finalizeShortDict st.dictionary d1 []).1 with hLDdef
  set SD := (finalizeShortDict st.dictionary d1 []).2 with hSDdef
  set KS := LD.map (fun p => p.1) with hKSdef
  set MX := (KS.map (phfIndexNoRemap KS)).foldl max 0 with hMXdef
  set LI := LD.foldl (fun acc p => acc.set (phfIndexNoRemap KS p.1) p.2)
    (List.replicate (MX + 1) LongMatchInfo.default) with hLIdef
  have hldnd' : (LD.map (fun p => p.1)).Nodup := hldnd hd1nd
  have hfin : st.finalize = some ⟨SD, KS, LI, b1⟩ := by
    unfold LPM16.finalize
    rw [hfb]
  have hmax_le : MX ≤ KS.length := by
    rw [hMXdef]
    apply foldl_max_le _ 0 _ (by omega)
    intro x hx
    obtain ⟨k, hk, hxeq⟩ := List.mem_map.mp hx
    rw [← hxeq]
    exact le_of_lt (phfIndex_lt KS k hk)
  have hLIlen : LI.length = MX + 1 := by
    rw [hLIdef, foldl_set_length, List.length_replicate]
  have hpresent : ∀ pfx rec, alookup LD pfx = some rec →
      phfIndexNoRemap KS pfx < LI.length ∧
      LI.getD (phfIndexNoRemap KS pfx) LongMatchInfo.default = rec := by
    intro pfx rec hlook
    have hmem : pfx ∈ KS := by
      rw [hKSdef]
      exact List.mem_map.mpr ⟨(pfx, rec), alookup_mem _ _ _ hlook, rfl⟩
    have hidx_le : phfIndexNoRemap KS pfx ≤ MX := by
      rw [hMXdef]
      exact le_foldl_max _ 0 _ (List.mem_map.mpr ⟨pfx, hmem, rfl⟩)
    refine ⟨by omega, ?_⟩
    rw [hLIdef]
    apply foldl_set_lookup (phfIndexNoRemap KS) LD _ pfx rec hldnd' hlook
    · intro p hp hfeq
      have hpmem : p.1 ∈ KS := by
        rw [hKSdef]
        exact List.mem_map.mpr ⟨p, hp, rfl⟩
      rw [phfIndex_mem _ _ hpmem, phfIndex_mem _ _ hmem] at hfeq
      exact (List.indexOf_inj hpmem hmem).mp hfeq
    · rw [List.length_replicate]
      omega
  have habsent : ∀ pfx, alookup LD pfx = none → ∀ sw sl,
      Static16.computeLongAnswer ⟨SD, KS, LI, b1⟩ pfx sw sl = none := by
    intro pfx hlook sw sl
    apply computeLongAnswer_absent
    have hnm : pfx ∉ KS := by
      rw [hKSdef]
      exact not_mem_of_alookup_none _ _ hlook
    rw [phfIndex_not_mem _ _ hnm]
    omega
  have hSDlow : ∀ x l, l ≠ 8 → alookup SD (x, l) = alookup st.dictionary (x, l) := by
    intro x l hl
    rw [hslow x l hl]
    cases alookup st.dictionary (x, l) with
    | some id => rfl
    | none => rfl
  have hcongr : ∀ l w, l ≤ 7 → shortScan SD w l = shortScan st.dictionary w l := by
    intro l w hl
    exact shortScan_congr SD st.dictionary l w
      (fun x len h1 h2 => hSDlow x len (by omega))
  refine ⟨⟨SD, KS, LI, b1⟩, hfin, ?_⟩
  intro q hq
  have hw64 : bytesToU64LE q 8 < 2 ^ 64 := bytesToU64LE_lt64 q 8 (le_refl 8)
  by_cases hsmall : q.length < 8
  · rw [find16_eq_small st q (by omega), static16_eq_small _ q (by omega)]
    show shortScan SD (bytesToU64LE q 8) (min 7 q.length) = _
    rw [Nat.min_eq_right (show q.length ≤ 7 by omega),
      Nat.min_eq_right (show q.length ≤ 8 by omega)]
    exact hcongr q.length _ (by omega)
  · push_neg at hsmall
    rw [static16_eq_big ⟨SD, KS, LI, b1⟩ q (by omega)]
    cases hbq : alookup st.buckets (bytesToU64LE q 8) with
    | some bucket =>
      obtain ⟨off, aId, aLen, hlookd1, hans, hregion⟩ :=
        hper (bytesToU64LE q 8) bucket (alookup_mem _ _ _ hbq)
      have hshort8 : shortScan st.dictionary (bytesToU64LE q 8) 8 = some (aId, aLen) := by
        rw [← find16_on_prefix_bytes st _ hw64]
        exact hans
      have hLDw : alookup LD (bytesToU64LE q 8)
          = some ⟨bytesToU64LE q 8, bucket.take N_INLINE_SUFFIXES,
              bucket.length, off, aId, aLen⟩ := by
        rw [hldl _, hlookd1]
      obtain ⟨hidx, hgetD⟩ := hpresent _ _ hLDw
      rw [computeLongAnswer_present SD KS LI b1 _ _ _ _ _ _ _ _ hidx hgetD]
      have hlens : ∀ e ∈ bucket, 1 ≤ e.2.1 := fun e he =>
        (hb.sound _ bucket (alookup_mem _ _ _ hbq) e he).1
      by_cases hbig : q.length > 8
      · rw [static_chain_eq b1 bucket off aId aLen _ _ hregion]
        have hdynb : st.findLongestMatch q
            = match scanBucket bucket (bytesToU64LE (q.drop 8) (min q.length 16 - 8))
                (min q.length 16 - 8) with
              | some r => some r
              | none => shortScan st.dictionary (bytesToU64LE q 8) 8 := by
          rw [find16_eq_big st q hbig, hbq]
        rw [hdynb]
        cases hscan : scanBucket bucket
            (bytesToU64LE (q.drop 8) (min q.length 16 - 8)) (min q.length 16 - 8) with
        | some r => rfl
        | none =>
          show some (aId, aLen) = shortScan st.dictionary (bytesToU64LE q 8) 8
          exact hshort8.symm
      · have hq8 : q.length = 8 := by omega
        have hsl0 : min q.length 16 - 8 = 0 := by omega
        rw [hsl0]
        rw [static_chain_zero b1 bucket off aId aLen _ hregion hlens]
        rw [find16_eq_small st q hbig,
          Nat.min_eq_left (show (8 : Nat) ≤ q.length by omega), hshort8]
    | none =>
      have hd1w : alookup d1 (bytesToU64LE q 8) = none := by
        rw [hunt _ (not_mem_of_alookup_none _ _ hbq)]
        rfl
      have hLDw : alookup LD (bytesToU64LE q 8)
          = match alookup st.dictionary (bytesToU64LE q 8, 8) with
            | some id => some ⟨bytesToU64LE q 8, [], 0, 0, id, 8⟩
            | none => none := by
        rw [hldl _, hd1w]
      have hdyn : st.findLongestMatch q
          = shortScan st.dictionary (bytesToU64LE q 8) 8 := by
        by_cases hbig : q.length > 8
        · rw [find16_eq_big st q hbig, hbq]
        · rw [find16_eq_small st q hbig,
            Nat.min_eq_left (show (8 : Nat) ≤ q.length by omega)]
      cases hw8 : alookup st.dictionary (bytesToU64LE q 8, 8) with
      | some id =>
        have hLDw' : alookup LD (bytesToU64LE q 8)
            = some ⟨bytesToU64LE q 8, [], 0, 0, id, 8⟩ := by
          rw [hLDw, hw8]
        obtain ⟨hidx, hgetD⟩ := hpresent _ _ hLDw'
        rw [computeLongAnswer_present SD KS LI b1 _ _ _ _ _ _ _ _ hidx hgetD]
        have hdyn8 : shortScan st.dictionary (bytesToU64LE q 8) 8 = some (id, 8) := by
          rw [shortScan_eight st.dictionary _ hw64, hw8]
        rw [hdyn, hdyn8]
        rfl
      | none =>
        have hLDnone : alookup LD (bytesToU64LE q 8) = none := by
          rw [hLDw, hw8]
        rw [habsent _ hLDnone _ _]
        show shortScan SD (bytesToU64LE q 8) (min 7 q.length)
            = st.findLongestMatch q
        rw [Nat.min_eq_left (show (7 : Nat) ≤ q.length by omega), hdyn,
          shortScan_eight st.dictionary _ hw64, hw8]
        exact hcongr 7 _ (le_refl _)

end OnPairModel

namespace OnPairModel

/- ### Generic getD helpers (for trie-node pools) -/

theorem getDg_append_left {α : Type} (l₁ l₂ : List α) (d : α) (i : Nat)
    (h : i < l₁.length) : (l₁ ++ l₂).getD i d = l₁.getD i d := by
  simp only [List.getD_eq_getElem?_getD]
  rw [List.getElem?_append_left h]

theorem getDg_append_last {α : Type} (l : List α) (x d : α) :
    (l ++ [x]).getD l.length d = x := by
  simp only [List.getD_eq_getElem?_getD]
  rw [List.getElem?_append_right (le_refl _)]
  simp

theorem getDg_set_self {α : Type} (l : List α) (i : Nat) (v d : α)
    (h : i < l.length) : (l.set i v).getD i d = v := by
  simp [List.getD_eq_getElem?_getD, List.getElem?_set, h]

theorem getDg_set_ne {α : Type} (l : List α) (i j : Nat) (v d : α)
    (h : i ≠ j) : (l.set i v).getD j d = l.getD j d := by
  simp [List.getD_eq_getElem?_getD, List.getElem?_set, h]

theorem getDg_ge {α : Type} (l : List α) (i : Nat) (d : α)
    (h : l.length ≤ i) : l.getD i d = d := by
  simp only [List.getD_eq_getElem?_getD]
  rw [List.getElem?_eq_none h]
  rfl

/- ### Decoding an encoded byte string -/

theorem toLEBytes_encodeLE (l : List Nat) (h : ∀ b ∈ l, b < 256) :
    toLEBytes (encodeLE l) l.length = l := by
  induction l with
  | nil => rfl
  | cons b bs ih =>
    have hb : b < 256 := h b (List.mem_cons_self _ _)
    show (b + 256 * encodeLE bs) % 256 :: toLEBytes ((b + 256 * encodeLE bs) / 256) bs.length
        = b :: bs
    have h1 : (b + 256 * encodeLE bs) % 256 = b := by
      rw [Nat.add_mul_mod_self_left, Nat.mod_eq_of_lt hb]
    have h2 : (b + 256 * encodeLE bs) / 256 = encodeLE bs := by
      rw [Nat.add_mul_div_left _ _ (by norm_num), Nat.div_eq_of_lt hb]
      omega
    rw [h1, h2, ih (fun x hx => h x (List.mem_cons_of_mem _ hx))]

/- ### The trie invariant of variant A -/

theorem findChildAux_mem : ∀ (children : List (Nat × Nat)) (b idx : Nat),
    findChildAux children b = some idx → (b, idx) ∈ children := by
  intro children
  induction children with
  | nil => intro b idx h; simp [findChildAux] at h
  | cons e rest ih =>
    intro b idx h
    obtain ⟨c, i⟩ := e
    by_cases hc : c = b
    · subst hc
      simp only [findChildAux, if_pos rfl] at h
      injection h with h'
      subst h'
      exact List.mem_cons_self _ _
    · simp only [findChildAux, if_neg hc] at h
      exact List.mem_cons_of_mem _ (ih b idx h)

/-- The canonical-coordinates invariant of the suffix trie: `canon` assigns
to every pool index the (8-byte prefix word, suffix path) it stands for, and
roots, child edges and stored ids are consistent with it. -/
structure TrieInv (roots : List (Nat × Nat)) (pool : List TrieNode)
    (dict tb : List Nat) (nextId : Nat) (canon : Nat → Nat × List Nat) : Prop where
  rootsSound : ∀ pfx idx, alookup roots pfx = some idx →
    idx < pool.length ∧ canon idx = (pfx, [])
  childSound : ∀ i c j, (c, j) ∈ (pool.getD i TrieNode.empty).children →
    j < pool.length ∧ canon j = ((canon i).1, (canon i).2 ++ [c])
  idSound : ∀ i v, (pool.getD i TrieNode.empty).id = some v →
    v < nextId ∧ tokenBytes dict tb v = toLEBytes (canon i).1 8 ++ (canon i).2

/-- Prefix-plus-slice recombination used by the walk soundness proof. -/
theorem take_eight_slice (q : List Nat) (m : Nat) (h8 : 8 ≤ m) :
    q.take 8 ++ slice q 8 m = q.take m := by
  have h1 : q.take 8 = slice q 0 8 := by
    unfold slice
    rw [List.drop_zero]
  have h2 : q.take m = slice q 0 m := by
    unfold slice
    rw [List.drop_zero]
  rw [h1, h2]
  exact slice_append_adjacent q 0 8 m (by omega) h8

/-- Soundness of the trie walk: any reported match is a real token whose
bytes are the corresponding prefix of the query. -/
theorem trieWalk_sound {dict tb : List Nat} {nextId : Nat}
    (pool : List TrieNode) (canon : Nat → Nat × List Nat)
    (hchild : ∀ i c j, (c, j) ∈ (pool.getD i TrieNode.empty).children →
      j < pool.length ∧ canon j = ((canon i).1, (canon i).2 ++ [c]))
    (hid : ∀ i v, (pool.getD i TrieNode.empty).id = some v →
      v < nextId ∧ tokenBytes dict tb v = toLEBytes (canon i).1 8 ++ (canon i).2)
    (q : List Nat) (hq : ∀ b ∈ q, b < 256) (hpfx8 : toLEBytes (bytesToU64LE q 8) 8 = q.take 8) :
    ∀ (n curLen idx : Nat) (best : Option (Nat × Nat)),
      q.length = curLen + n → 8 ≤ curLen →
      canon idx = (bytesToU64LE q 8, slice q 8 curLen) →
      (∀ r, best = some r → r.1 < nextId ∧ 9 ≤ r.2 ∧ r.2 ≤ q.length ∧
        tokenBytes dict tb r.1 = q.take r.2) →
      ∀ r, trieWalk pool idx (q.drop curLen) curLen best = some r →
        r.1 < nextId ∧ 9 ≤ r.2 ∧ r.2 ≤ q.length ∧
        tokenBytes dict tb r.1 = q.take r.2 := by
  intro n
  induction n with
  | zero =>
    intro curLen idx best hlen _ _ hbest r hwalk
    have hdrop : q.drop curLen = [] := List.drop_eq_nil_of_le (by omega)
    rw [hdrop] at hwalk
    exact hbest r hwalk
  | succ m ih =>
    intro curLen idx best hlen hcur hcanon hbest r hwalk
    have hclt : curLen < q.length := by omega
    have hdrop : q.drop curLen = q.getD curLen 0 :: q.drop (curLen + 1) := by
      rw [List.drop_eq_getElem_cons hclt]
      congr 1
      simp [List.getD_eq_getElem?_getD, List.getElem?_eq_getElem hclt]
    rw [hdrop] at hwalk
    simp only [trieWalk] at hwalk
    cases hfc : findChildAux (pool.getD idx TrieNode.empty).children (q.getD curLen 0) with
    | none =>
      rw [hfc] at hwalk
      exact hbest r hwalk
    | some childIdx =>
      rw [hfc] at hwalk
      obtain ⟨hjlt, hcanonc⟩ := hchild idx (q.getD curLen 0) childIdx
        (findChildAux_mem _ _ _ hfc)
      rw [hcanon] at hcanonc
      have hcanonc' : canon childIdx = (bytesToU64LE q 8, slice q 8 (curLen + 1)) := by
        rw [hcanonc]
        rw [slice_snoc q 8 curLen (by omega) hclt]
      have hbest1 : ∀ r', (match (pool.getD childIdx TrieNode.empty).id with
          | some v => some (v, curLen + 1)
          | none => best) = some r' →
          r'.1 < nextId ∧ 9 ≤ r'.2 ∧ r'.2 ≤ q.length ∧
          tokenBytes dict tb r'.1 = q.take r'.2 := by
        intro r' hr'
        cases hv : (pool.getD childIdx TrieNode.empty).id with
        | none =>
          rw [hv] at hr'
          exact hbest r' hr'
        | some v =>
          rw [hv] at hr'
          injection hr' with hr''
          obtain ⟨hvlt, hvtok⟩ := hid childIdx v hv
          rw [← hr'']
          refine ⟨hvlt, by omega, by omega, ?_⟩
          rw [hvtok, hcanonc']
          show toLEBytes (bytesToU64LE q 8) 8 ++ slice q 8 (curLen + 1) = _
          rw [hpfx8]
          exact take_eight_slice q (curLen + 1) (by omega)
      exact ih (curLen + 1) childIdx _ (by omega) (by omega) hcanonc' hbest1 r hwalk

/- ### Phase-2 scan of variant A -/

theorem shortScanA_sound {dict tb : List Nat} {nextId : Nat}
    (dm : List ((Nat × Nat) × Nat)) (ai : ArenaInv dict tb nextId)
    (hd : DictInv dm dict tb nextId)
    (q : List Nat) (hq : ∀ b ∈ q, b < 256) :
    ∀ l, l ≤ q.length → l ≤ 8 →
      ∀ id len, shortScanA dm q l = some (id, len) →
        1 ≤ len ∧ len ≤ q.length ∧ len ≤ 16 ∧ id < nextId ∧
        tokenBytes dict tb id = q.take len := by
  intro l
  induction l with
  | zero =>
    intro _ _ id len h
    simp [shortScanA] at h
  | succ k ih =>
    intro hlq hl8 id len h
    simp only [shortScanA] at h
    cases hlook : alookup dm (bytesToU64LE q (k + 1), k + 1) with
    | some v =>
      rw [hlook] at h
      injection h with h'
      rw [Prod.mk.injEq] at h'
      obtain ⟨hid, hlen⟩ := h'
      subst hid
      subst hlen
      obtain ⟨g1, g2, g3, g4, g5⟩ := hd.sound _ _ _ hlook
      refine ⟨by omega, by omega, by omega, g3, ?_⟩
      apply encodeLE_inj
      · exact tokenBytes_bytes ai _
      · intro b hb
        exact hq b (List.mem_of_mem_take hb)
      · rw [g4, List.length_take]
        omega
      · rw [g5, bytesToU64LE_eq q (k + 1) hq (by omega)]
    | none =>
      rw [hlook] at h
      exact ih (by omega) (by omega) id len h

theorem shortScanA_total (dm : List ((Nat × Nat) × Nat))
    (hs : ∀ b, b < 256 → (alookup dm (b, 1)).isSome)
    (q : List Nat) (hq : ∀ b ∈ q, b < 256) (hne : q ≠ []) :
    ∀ l, 1 ≤ l → ∃ id len, shortScanA dm q l = some (id, len) ∧ 1 ≤ len := by
  have hone : ∃ id, alookup dm (bytesToU64LE q 1, 1) = some id := by
    cases q with
    | nil => exact absurd rfl hne
    | cons b rest =>
      have hb : b < 256 := hq b (List.mem_cons_self _ _)
      have hw : bytesToU64LE (b :: rest) 1 = b := by
        rw [bytesToU64LE_eq _ 1 hq (by omega)]
        simp [encodeLE]
      rw [hw]
      obtain ⟨id, hid⟩ := Option.isSome_iff_exists.mp (hs b hb)
      exact ⟨id, hid⟩
  intro l
  induction l with
  | zero => intro h; omega
  | succ k ih =>
    intro _
    rcases Nat.eq_zero_or_pos k with hk | hk
    · subst hk
      obtain ⟨id, hid⟩ := hone
      exact ⟨id, 1, by simp [shortScanA, hid], by omega⟩
    · simp only [shortScanA]
      cases hlook : alookup dm (bytesToU64LE q (k + 1), k + 1) with
      | some v => exact ⟨v, k + 1, rfl, by omega⟩
      | none =>
        obtain ⟨id, len, hres, h1⟩ := ih (by omega)
        exact ⟨id, len, hres, h1⟩

/- ### Soundness and totality of variant A matching -/

theorem findA_sound {dict tb : List Nat} {nextId : Nat} (st : LPMA)
    (ai : ArenaInv dict tb nextId)
    (hd : DictInv st.shortMatchLookup dict tb nextId)
    (canon : Nat → Nat × List Nat)
    (ht : TrieInv st.longMatchRoots st.nodePool dict tb nextId canon)
    (q : List Nat) (hq : ∀ b ∈ q, b < 256) {id len : Nat}
    (h : st.findLongestMatch q = some (id, len)) :
    1 ≤ len ∧ len ≤ q.length ∧ id < nextId ∧ tokenBytes dict tb id = q.take len := by
  have hshort : ∀ {id' len' : Nat},
      shortScanA st.shortMatchLookup q (min TRIE_PREFIX_LEN q.length) = some (id', len') →
      1 ≤ len' ∧ len' ≤ q.length ∧ id' < nextId ∧ tokenBytes dict tb id' = q.take len' := by
    intro id' len' h'
    obtain ⟨g1, g2, _, g4, g5⟩ := shortScanA_sound st.shortMatchLookup ai hd q hq
      (min TRIE_PREFIX_LEN q.length) (by omega) (by
        have : TRIE_PREFIX_LEN = 8 := rfl
        omega) id' len' h'
    exact ⟨g1, g2, g4, g5⟩
  unfold LPMA.findLongestMatch at h
  by_cases hbig : q.length > TRIE_PREFIX_LEN
  · simp only [if_pos hbig] at h
    cases hroot : alookup st.longMatchRoots (bytesToU64LE q TRIE_PREFIX_LEN) with
    | none =>
      rw [hroot] at h
      simp only at h
      exact hshort h
    | some rootIdx =>
      rw [hroot] at h
      simp only at h
      cases hwalk : trieWalk st.nodePool rootIdx (q.drop TRIE_PREFIX_LEN)
          TRIE_PREFIX_LEN none with
      | none =>
        rw [hwalk] at h
        simp only at h
        exact hshort h
      | some r =>
        rw [hwalk] at h
        simp only [Option.some.injEq] at h
        rw [h] at hwalk
        have hpfx8 : toLEBytes (bytesToU64LE q 8) 8 = q.take 8 := by
          rw [bytesToU64LE_eq q 8 hq (le_refl _)]
          have hlen8 : (q.take 8).length = 8 := by
            rw [List.length_take]
            have : TRIE_PREFIX_LEN = 8 := rfl
            omega
          have hte := toLEBytes_encodeLE (q.take 8)
            (fun b hb => hq b (List.mem_of_mem_take hb))
          rw [hlen8] at hte
          exact hte
        obtain ⟨hcl, hcanon⟩ := ht.rootsSound _ _ hroot
        have hval := trieWalk_sound st.nodePool canon ht.childSound ht.idSound q hq hpfx8
          (q.length - TRIE_PREFIX_LEN) TRIE_PREFIX_LEN rootIdx none
          (by have : TRIE_PREFIX_LEN = 8 := rfl; omega)
          (by have : TRIE_PREFIX_LEN = 8 := rfl; omega)
          (by
            rw [hcanon, slice_eq_nil q 8 TRIE_PREFIX_LEN (le_refl 8)]
            rfl)
          (by intro r' hr'; simp at hr')
          (id, len) hwalk
        exact ⟨by have := hval.2.1; omega, hval.2.2.1, hval.1, hval.2.2.2⟩
  · simp only [if_neg hbig] at h
    exact hshort h

theorem findA_total (st : LPMA)
    (hs : ∀ b, b < 256 → (alookup st.shortMatchLookup (b, 1)).isSome)
    (q : List Nat) (hq : ∀ b ∈ q, b < 256) (hne : q ≠ []) :
    ∃ r, st.findLongestMatch q = some r := by
  have hqlen : 1 ≤ q.length := List.length_pos.mpr hne
  have hmin : 1 ≤ min TRIE_PREFIX_LEN q.length := by
    have : TRIE_PREFIX_LEN = 8 := rfl
    omega
  obtain ⟨sid, slen, hres, _⟩ := shortScanA_total st.shortMatchLookup hs q hq hne
    (min TRIE_PREFIX_LEN q.length) hmin
  unfold LPMA.findLongestMatch
  by_cases hbig : q.length > TRIE_PREFIX_LEN
  · simp only [if_pos hbig]
    cases hroot : alookup st.longMatchRoots (bytesToU64LE q TRIE_PREFIX_LEN) with
    | none =>
      simp only
      exact ⟨(sid, slen), by rw [hres]⟩
    | some rootIdx =>
      simp only
      cases hwalk : trieWalk st.nodePool rootIdx (q.drop TRIE_PREFIX_LEN)
          TRIE_PREFIX_LEN none with
      | none => exact ⟨(sid, slen), by rw [hres]⟩
      | some r => exact ⟨r, rfl⟩
  · simp only [if_neg hbig]
    exact ⟨(sid, slen), hres⟩

/- ### Insertion path: the trie grows consistently with canon -/

theorem trieInsertPath_spec (pfxW : Nat) :
    ∀ (bs : List Nat) (pool : List TrieNode) (canon : Nat → Nat × List Nat)
      (start : Nat) (p0 : List Nat),
      start < pool.length →
      canon start = (pfxW, p0) →
      (∀ i c j, (c, j) ∈ (pool.getD i TrieNode.empty).children →
        j < pool.length ∧ canon j = ((canon i).1, (canon i).2 ++ [c])) →
      ∃ (pool1 : List TrieNode) (fin : Nat) (canon1 : Nat → Nat × List Nat),
        trieInsertPath pool start bs = (pool1, fin) ∧
        pool.length ≤ pool1.length ∧
        fin < pool1.length ∧
        canon1 fin = (pfxW, p0 ++ bs) ∧
        (∀ i, i < pool.length → canon1 i = canon i) ∧
        (∀ i, (pool1.getD i TrieNode.empty).id = (pool.getD i TrieNode.empty).id) ∧
        (∀ i c j, (c, j) ∈ (pool1.getD i TrieNode.empty).children →
          j < pool1.length ∧ canon1 j = ((canon1 i).1, (canon1 i).2 ++ [c])) := by
  intro bs
  induction bs with
  | nil =>
    intro pool canon start p0 hstart hcanon hchild
    exact ⟨pool, start, canon, rfl, le_refl _, hstart,
      by rw [List.append_nil]; exact hcanon,
      fun i _ => rfl, fun i => rfl, hchild⟩
  | cons b rest ih =>
    intro pool canon start p0 hstart hcanon hchild
    cases hfc : findChildAux (pool.getD start TrieNode.empty).children b with
    | some cidx =>
      have hstep : trieInsertPath pool start (b :: rest) = trieInsertPath pool cidx rest := by
        simp only [trieInsertPath]
        rw [hfc]
      obtain ⟨hjl, hcj⟩ := hchild start b cidx (findChildAux_mem _ _ _ hfc)
      simp only [hcanon] at hcj
      obtain ⟨pool1, fin, canon1, heq, hle, hfl, hcf, hagree, hids, hchild1⟩ :=
        ih pool canon cidx (p0 ++ [b]) hjl hcj hchild
      refine ⟨pool1, fin, canon1, by rw [hstep]; exact heq, hle, hfl, ?_,
        hagree, hids, hchild1⟩
      rw [hcf, List.append_assoc]
      rfl
    | none =>
      set pool2 := (pool ++ [TrieNode.empty]).set start
        ⟨((pool ++ [TrieNode.empty]).getD start TrieNode.empty).id,
          ((pool ++ [TrieNode.empty]).getD start TrieNode.empty).children
            ++ [(b, pool.length)]⟩ with hpool2
      have hstep : trieInsertPath pool start (b :: rest)
          = trieInsertPath pool2 pool.length rest := by
        simp only [trieInsertPath]
        rw [hfc]
      have hnode : (pool ++ [TrieNode.empty]).getD start TrieNode.empty
          = pool.getD start TrieNode.empty := getDg_append_left _ _ _ _ hstart
      have hlen2 : pool2.length = pool.length + 1 := by
        rw [hpool2, List.length_set, List.length_append]
        rfl
      set canon2 := fun i => if i = pool.length then (pfxW, p0 ++ [b]) else canon i
        with hcanon2
      have hcanon2new : canon2 pool.length = (pfxW, p0 ++ [b]) := by
        rw [hcanon2]
        simp
      have hcanon2old : ∀ i, i < pool.length → canon2 i = canon i := by
        intro i hi
        rw [hcanon2]
        simp only
        rw [if_neg (by omega)]
      -- children of the rewired pool
      have hget_start : pool2.getD start TrieNode.empty
          = ⟨(pool.getD start TrieNode.empty).id,
              (pool.getD start TrieNode.empty).children ++ [(b, pool.length)]⟩ := by
        rw [hpool2, getDg_set_self _ _ _ _ (by
          rw [List.length_append]
          simp only [List.length_singleton]
          omega), hnode]
      have hget_other : ∀ i, i ≠ start →
          pool2.getD i TrieNode.empty = (pool ++ [TrieNode.empty]).getD i TrieNode.empty := by
        intro i hi
        rw [hpool2, getDg_set_ne _ _ _ _ _ (fun hc => hi hc.symm)]
      have hget_new : pool2.getD pool.length TrieNode.empty = TrieNode.empty := by
        rw [hget_other pool.length (by omega), getDg_append_last]
      have hget_old : ∀ i, i < pool.length → i ≠ start →
          pool2.getD i TrieNode.empty = pool.getD i TrieNode.empty := by
        intro i hi hne
        rw [hget_other i hne, getDg_append_left _ _ _ _ hi]
      have hget_big : ∀ i, pool.length < i → pool2.getD i TrieNode.empty = TrieNode.empty := by
        intro i hi
        rw [hget_other i (by omega), getDg_ge]
        rw [List.length_append]
        simp only [List.length_singleton]
        omega
      have hchild2 : ∀ i c j, (c, j) ∈ (pool2.getD i TrieNode.empty).children →
          j < pool2.length ∧ canon2 j = ((canon2 i).1, (canon2 i).2 ++ [c]) := by
        intro i c j hmem
        by_cases hi : i = start
        · subst hi
          rw [hget_start] at hmem
          simp only [List.mem_append, List.mem_singleton] at hmem
          rcases hmem with hmem | hmem
          · obtain ⟨hjl, hcj⟩ := hchild i c j hmem
            refine ⟨by omega, ?_⟩
            rw [hcanon2old j hjl, hcanon2old i hstart, hcj]
          · rw [Prod.mk.injEq] at hmem
            obtain ⟨hc, hj⟩ := hmem
            subst hc
            subst hj
            refine ⟨by omega, ?_⟩
            rw [hcanon2new, hcanon2old _ hstart, hcanon]
        · rcases Nat.lt_trichotomy i pool.length with hlt | heq | hgt
          · rw [hget_old i hlt hi] at hmem
            obtain ⟨hjl, hcj⟩ := hchild i c j hmem
            refine ⟨by omega, ?_⟩
            rw [hcanon2old j hjl, hcanon2old i hlt, hcj]
          · rw [heq, hget_new] at hmem
            simp [TrieNode.empty] at hmem
          · rw [hget_big i hgt] at hmem
            simp [TrieNode.empty] at hmem
      have hids2 : ∀ i, (pool2.getD i TrieNode.empty).id = (pool.getD i TrieNode.empty).id := by
        intro i
        by_cases hi : i = start
        · subst hi
          rw [hget_start]
        · rcases Nat.lt_trichotomy i pool.length with hlt | heq | hgt
          · rw [hget_old i hlt hi]
          · rw [heq, hget_new, getDg_ge _ _ _ (le_refl _)]
          · rw [hget_big i hgt, getDg_ge _ _ _ (by omega)]
      obtain ⟨pool1, fin, canon1, heq, hle, hfl, hcf, hagree, hids, hchild1⟩ :=
        ih pool2 canon2 pool.length (p0 ++ [b]) (by omega) hcanon2new hchild2
      refine ⟨pool1, fin, canon1, by rw [hstep]; exact heq, by omega, hfl, ?_, ?_, ?_, hchild1⟩
      · rw [hcf, List.append_assoc]
        rfl
      · intro i hi
        rw [hagree i (by omega), hcanon2old i hi]
      · intro i
        rw [hids i, hids2 i]

/- ### setNodeId facts -/

theorem setNodeId_length (pool : List TrieNode) (idx id : Nat) :
    (setNodeId pool idx id).length = pool.length := by
  rw [setNodeId, List.length_set]

theorem setNodeId_children (pool : List TrieNode) (idx id : Nat) :
    ∀ i, ((setNodeId pool idx id).getD i TrieNode.empty).children
      = (pool.getD i TrieNode.empty).children := by
  intro i
  by_cases h : idx = i
  · subst h
    by_cases hl : idx < pool.length
    · rw [setNodeId, getDg_set_self _ _ _ _ hl]
    · rw [setNodeId, List.set_eq_of_length_le (by omega)]
  · rw [setNodeId, getDg_set_ne _ _ _ _ _ h]

theorem setNodeId_id_self (pool : List TrieNode) (idx id : Nat) (h : idx < pool.length) :
    ((setNodeId pool idx id).getD idx TrieNode.empty).id = some id := by
  rw [setNodeId, getDg_set_self _ _ _ _ h]

theorem setNodeId_id_ne (pool : List TrieNode) (idx id : Nat) (i : Nat) (h : idx ≠ i) :
    ((setNodeId pool idx id).getD i TrieNode.empty).id
      = (pool.getD i TrieNode.empty).id := by
  rw [setNodeId, getDg_set_ne _ _ _ _ _ h]

/- ### Variant A insert preserves the invariants -/

theorem insertA_inv {dict tb dict' tb' : List Nat} {nextId : Nat} (st : LPMA)
    (hd : DictInv st.shortMatchLookup dict tb nextId)
    (canon : Nat → Nat × List Nat)
    (ht : TrieInv st.longMatchRoots st.nodePool dict tb nextId canon)
    (key : List Nat) (hk2 : 2 ≤ key.length) (hkb : ∀ b ∈ key, b < 256)
    (hstb : ∀ id, id < nextId → tokenBytes dict' tb' id = tokenBytes dict tb id)
    (hnew : tokenBytes dict' tb' nextId = key) :
    DictInv (st.insert key nextId).shortMatchLookup dict' tb' (nextId + 1) ∧
    ∃ canon' : Nat → Nat × List Nat,
      TrieInv (st.insert key nextId).longMatchRoots
        (st.insert key nextId).nodePool dict' tb' (nextId + 1) canon' := by
  have hd2 : DictInv st.shortMatchLookup dict' tb' (nextId + 1) :=
    (hd.arena_stable_dict hstb).next_mono_dict (Nat.le_succ _)
  have ht2 : TrieInv st.longMatchRoots st.nodePool dict' tb' (nextId + 1) canon := by
    refine ⟨ht.rootsSound, ht.childSound, ?_⟩
    intro i v hv
    obtain ⟨h1, h2⟩ := ht.idSound i v hv
    rw [hstb v h1]
    exact ⟨by omega, h2⟩
  have h8 : TRIE_PREFIX_LEN = 8 := rfl
  by_cases hlen : key.length ≤ TRIE_PREFIX_LEN
  · have hins : st.insert key nextId = { st with shortMatchLookup :=
        (ainsert st.shortMatchLookup (bytesToU64LE key key.length, key.length) nextId) } := by
      simp only [LPMA.insert, if_pos hlen]
    rw [hins]
    refine ⟨?_, canon, ht2⟩
    refine ⟨ainsert_nodupKeys _ _ _ hd2.nodupKeys, ?_, ?_⟩
    · intro w l id hl
      by_cases hkey : ((w : Nat), (l : Nat)) = (bytesToU64LE key key.length, key.length)
      · rw [hkey, alookup_ainsert] at hl
        have hid : id = nextId := by simpa using hl.symm
        have hw : w = bytesToU64LE key key.length := congrArg Prod.fst hkey
        have hlval : l = key.length := congrArg Prod.snd hkey
        subst hid
        rw [hnew]
        refine ⟨by omega, by omega, by omega, by omega, ?_⟩
        rw [hw, bytesToU64LE_eq key key.length hkb (by omega),
          List.take_of_length_le (le_refl _)]
      · rw [alookup_ainsert_ne _ _ _ _ (fun hc => hkey hc)] at hl
        exact hd2.sound w l id hl
    · intro b hbb
      have hne : ((b : Nat), (1 : Nat)) ≠ (bytesToU64LE key key.length, key.length) := by
        intro hc
        have := congrArg Prod.snd hc
        simp at this
        omega
      rw [alookup_ainsert_ne _ _ _ _ hne]
      exact hd2.singles b hbb
  · have hpfx8 : toLEBytes (bytesToU64LE key 8) 8 = key.take 8 := by
      rw [bytesToU64LE_eq key 8 hkb (le_refl _)]
      have hlen8 : (key.take 8).length = 8 := by
        rw [List.length_take]
        omega
      have hte := toLEBytes_encodeLE (key.take 8)
        (fun b hb => hkb b (List.mem_of_mem_take hb))
      rw [hlen8] at hte
      exact hte
    have hnewdec : key = toLEBytes (bytesToU64LE key TRIE_PREFIX_LEN) 8
        ++ key.drop TRIE_PREFIX_LEN := by
      rw [h8, hpfx8, List.take_append_drop]
    cases hroot : alookup st.longMatchRoots (bytesToU64LE key TRIE_PREFIX_LEN) with
    | some rootIdx =>
      have hins : st.insert key nextId = { st with nodePool :=
          (setNodeId (trieInsertPath st.nodePool rootIdx (key.drop TRIE_PREFIX_LEN)).1
            (trieInsertPath st.nodePool rootIdx (key.drop TRIE_PREFIX_LEN)).2 nextId) } := by
        simp only [LPMA.insert, if_neg hlen]
        rw [hroot]
      obtain ⟨hrl, hrc⟩ := ht2.rootsSound _ _ hroot
      obtain ⟨pool1, fin, canon1, heqp, hle, hfl, hcf, hagree, hids, hchild1⟩ :=
        trieInsertPath_spec (bytesToU64LE key TRIE_PREFIX_LEN) (key.drop TRIE_PREFIX_LEN)
          st.nodePool canon rootIdx [] hrl hrc ht2.childSound
      have hsn : setNodeId (trieInsertPath st.nodePool rootIdx (key.drop TRIE_PREFIX_LEN)).1
          (trieInsertPath st.nodePool rootIdx (key.drop TRIE_PREFIX_LEN)).2 nextId
          = setNodeId pool1 fin nextId := by
        rw [heqp]
      rw [hins, hsn]
      refine ⟨hd2, canon1, ?_, ?_, ?_⟩
      · intro pfx idx hlook
        obtain ⟨hil, hic⟩ := ht2.rootsSound pfx idx hlook
        refine ⟨by rw [setNodeId_length]; omega, ?_⟩
        rw [hagree idx hil, hic]
      · intro i c j hmem
        rw [setNodeId_children] at hmem
        obtain ⟨hjl, hcj⟩ := hchild1 i c j hmem
        exact ⟨by rw [setNodeId_length]; omega, hcj⟩
      · intro i v hv
        by_cases hif : i = fin
        · subst hif
          rw [setNodeId_id_self _ _ _ hfl] at hv
          have hveq : v = nextId := by
            injection hv with hv'
            exact hv'.symm
          subst hveq
          refine ⟨by omega, ?_⟩
          rw [hnew, hcf]
          show key = toLEBytes (bytesToU64LE key TRIE_PREFIX_LEN) 8
            ++ ([] ++ key.drop TRIE_PREFIX_LEN)
          rw [List.nil_append]
          exact hnewdec
        · rw [setNodeId_id_ne _ _ _ _ (fun hc => hif hc.symm), hids i] at hv
          have hilt : i < st.nodePool.length := by
            by_contra hge
            rw [getDg_ge _ _ _ (by omega)] at hv
            simp [TrieNode.empty] at hv
          obtain ⟨h1, h2⟩ := ht2.idSound i v hv
          rw [hagree i hilt]
          exact ⟨h1, h2⟩
    | none =>
      have hins : st.insert key nextId = { st with
          longMatchRoots := (ainsert st.longMatchRoots
            (bytesToU64LE key TRIE_PREFIX_LEN) st.nodePool.length),
          nodePool := (setNodeId
            (trieInsertPath (st.nodePool ++ [TrieNode.empty]) st.nodePool.length
              (key.drop TRIE_PREFIX_LEN)).1
            (trieInsertPath (st.nodePool ++ [TrieNode.empty]) st.nodePool.length
              (key.drop TRIE_PREFIX_LEN)).2 nextId) } := by
        simp only [LPMA.insert, if_neg hlen]
        rw [hroot]
      set canon0 := fun i => if i = st.nodePool.length
          then (bytesToU64LE key TRIE_PREFIX_LEN, ([] : List Nat))
          else canon i with hcanon0
      have hcanon0new : canon0 st.nodePool.length
          = (bytesToU64LE key TRIE_PREFIX_LEN, []) := by
        rw [hcanon0]
        simp
      have hcanon0old : ∀ i, i < st.nodePool.length → canon0 i = canon i := by
        intro i hi
        rw [hcanon0]
        simp only
        rw [if_neg (by omega)]
      have hpool1get_old : ∀ i, i < st.nodePool.length →
          (st.nodePool ++ [TrieNode.empty]).getD i TrieNode.empty
            = st.nodePool.getD i TrieNode.empty := by
        intro i hi
        exact getDg_append_left _ _ _ _ hi
      have hchild0 : ∀ i c j,
          (c, j) ∈ ((st.nodePool ++ [TrieNode.empty]).getD i TrieNode.empty).children →
          j < (st.nodePool ++ [TrieNode.empty]).length ∧
          canon0 j = ((canon0 i).1, (canon0 i).2 ++ [c]) := by
        intro i c j hmem
        rcases Nat.lt_trichotomy i st.nodePool.length with hlt | heq | hgt
        · rw [hpool1get_old i hlt] at hmem
          obtain ⟨hjl, hcj⟩ := ht2.childSound i c j hmem
          refine ⟨by rw [List.length_append]; simp; omega, ?_⟩
          rw [hcanon0old j hjl, hcanon0old i hlt, hcj]
        · rw [heq, getDg_append_last] at hmem
          simp [TrieNode.empty] at hmem
        · rw [getDg_ge _ _ _ (by
            rw [List.length_append]
            simp only [List.length_singleton]
            omega)] at hmem
          simp [TrieNode.empty] at hmem
      obtain ⟨pool1, fin, canon1, heqp, hle, hfl, hcf, hagree, hids, hchild1⟩ :=
        trieInsertPath_spec (bytesToU64LE key TRIE_PREFIX_LEN) (key.drop TRIE_PREFIX_LEN)
          (st.nodePool ++ [TrieNode.empty]) canon0 st.nodePool.length []
          (by rw [List.length_append]; simp) hcanon0new hchild0
      have hsn : setNodeId
          (trieInsertPath (st.nodePool ++ [TrieNode.empty]) st.nodePool.length
            (key.drop TRIE_PREFIX_LEN)).1
          (trieInsertPath (st.nodePool ++ [TrieNode.empty]) st.nodePool.length
            (key.drop TRIE_PREFIX_LEN)).2 nextId
          = setNodeId pool1 fin nextId := by
        rw [heqp]
      rw [hins, hsn]
      have hlen1 : (st.nodePool ++ [TrieNode.empty]).length = st.nodePool.length + 1 := by
        rw [List.length_append]
        rfl
      refine ⟨hd2, canon1, ?_, ?_, ?_⟩
      · intro pfx idx hlook
        by_cases hpp : pfx = bytesToU64LE key TRIE_PREFIX_LEN
        · subst hpp
          rw [alookup_ainsert] at hlook
          have hidx : idx = st.nodePool.length := by
            injection hlook with h'
            exact h'.symm
          subst hidx
          refine ⟨by rw [setNodeId_length]; omega, ?_⟩
          rw [hagree _ (by omega), hcanon0new]
        · rw [alookup_ainsert_ne _ _ _ _ hpp] at hlook
          obtain ⟨hil, hic⟩ := ht2.rootsSound pfx idx hlook
          refine ⟨by rw [setNodeId_length]; omega, ?_⟩
          rw [hagree idx (by omega), hcanon0old idx hil, hic]
      · intro i c j hmem
        rw [setNodeId_children] at hmem
        obtain ⟨hjl, hcj⟩ := hchild1 i c j hmem
        exact ⟨by rw [setNodeId_length]; omega, hcj⟩
      · intro i v hv
        by_cases hif : i = fin
        · subst hif
          rw [setNodeId_id_self _ _ _ hfl] at hv
          have hveq : v = nextId := by
            injection hv with hv'
            exact hv'.symm
          subst hveq
          refine ⟨by omega, ?_⟩
          rw [hnew, hcf]
          show key = toLEBytes (bytesToU64LE key TRIE_PREFIX_LEN) 8
            ++ ([] ++ key.drop TRIE_PREFIX_LEN)
          rw [List.nil_append]
          exact hnewdec
        · rw [setNodeId_id_ne _ _ _ _ (fun hc => hif hc.symm), hids i] at hv
          rcases Nat.lt_trichotomy i st.nodePool.length with hlt | heq | hgt
          · rw [hpool1get_old i hlt] at hv
            obtain ⟨h1, h2⟩ := ht2.idSound i v hv
            rw [hagree i (by omega), hcanon0old i hlt]
            exact ⟨h1, h2⟩
          · rw [heq, getDg_append_last] at hv
            simp [TrieNode.empty] at hv
          · rw [getDg_ge _ _ _ (by
              rw [List.length_append]
              simp only [List.length_singleton]
              omega)] at hv
            simp [TrieNode.empty] at hv

/- ### Variant A training invariant -/

/-- The invariant carried by the variant-A learner between iterations. -/
structure TrainInvA (s : TrainStA) : Prop where
  arena : ArenaInv s.dict s.tb s.nextId
  dictI : DictInv s.lpm.shortMatchLookup s.dict s.tb s.nextId
  trie : ∃ canon : Nat → Nat × List Nat,
    TrieInv s.lpm.longMatchRoots s.lpm.nodePool s.dict s.tb s.nextId canon
  nextHi : s.nextId ≤ 65535

/-- The invariant of the final variant-A training state. -/
def PostInvA (s : TrainStA) : Prop := ∃ n,
  ArenaInv s.dict s.tb n ∧ DictInv s.lpm.shortMatchLookup s.dict s.tb n ∧
  ∃ canon : Nat → Nat × List Nat,
    TrieInv s.lpm.longMatchRoots s.lpm.nodePool s.dict s.tb n canon

theorem TrainInvA.postA {s : TrainStA} (h : TrainInvA s) : PostInvA s :=
  ⟨s.nextId, h.arena, h.dictI, h.trie⟩

theorem initA_dict : initTrainStA.dict = List.range 256 := by decide
theorem initA_tb : initTrainStA.tb = List.range 257 := by decide
theorem initA_nextId : initTrainStA.nextId = 256 := by decide
theorem initA_roots : initTrainStA.lpm.longMatchRoots = [] := by decide
theorem initA_pool : initTrainStA.lpm.nodePool = [] := rfl
theorem initA_short : initTrainStA.lpm.shortMatchLookup
    = (List.range 256).map (fun b => ((b, 1), b)) := by decide

theorem trainInvA_init : TrainInvA initTrainStA := by
  refine ⟨?_, ?_, ?_, ?_⟩
  · rw [initA_dict, initA_tb, initA_nextId]
    refine ⟨by decide, by decide, by decide, ?_, by decide, by decide⟩
    intro i hi
    simp only [List.length_range] at hi
    have h1 : (List.range 257).getD i 0 = i := by
      simp only [List.getD_eq_getElem?_getD]
      rw [List.getElem?_range (by omega)]
      rfl
    have h2 : (List.range 257).getD (i + 1) 0 = i + 1 := by
      simp only [List.getD_eq_getElem?_getD]
      rw [List.getElem?_range (by omega)]
      rfl
    rw [h1, h2]
    omega
  · rw [initA_short, initA_dict, initA_tb, initA_nextId]
    refine ⟨by decide, ?_, ?_⟩
    · intro w l id hl
      obtain ⟨hl1, hid, hw⟩ := singles_alookup _ w l id hl
      have hw256 : w < 256 := List.mem_range.mp hw
      subst hl1
      rw [hid, tokenBytes_range w hw256]
      refine ⟨by omega, by omega, by omega, by simp, ?_⟩
      simp [encodeLE]
    · intro b hb
      exact singles_alookup_self _ b (List.mem_range.mpr hb)
  · refine ⟨fun _ => (0, []), ?_, ?_, ?_⟩
    · intro pfx idx h
      rw [initA_roots] at h
      simp [alookup] at h
    · intro i c j h
      rw [initA_pool] at h
      rw [getDg_ge _ _ _ (by simp)] at h
      simp [TrieNode.empty] at h
    · intro i v h
      rw [initA_pool] at h
      rw [getDg_ge _ _ _ (by simp)] at h
      simp [TrieNode.empty] at h
  · rw [initA_nextId]
    omega

/- ### One step of variant-A training -/

theorem trainStepA_spec (data : List Nat) (hdata : ∀ b ∈ data, b < 256)
    (endPos threshold : Nat) (hend : endPos ≤ data.length)
    (s : TrainStA) (hInv : TrainInvA s)
    (prevId prevLen pos : Nat) (hp1 : 1 ≤ prevLen) (hple : prevLen ≤ pos)
    (hpT : True) (hpos : pos < endPos) :
    ∃ s1 pid plen pos1 brk,
      trainStepA data endPos threshold s prevId prevLen pos
        = some (s1, pid, plen, pos1, brk) ∧
      1 ≤ plen ∧ plen ≤ pos1 ∧ True ∧ pos < pos1 ∧ pos1 ≤ endPos ∧
      (brk = false → TrainInvA s1) ∧ (brk = true → PostInvA s1) := by
  obtain ⟨canon, hT⟩ := hInv.trie
  have hsingles : ∀ b, b < 256 → (alookup s.lpm.shortMatchLookup (b, 1)).isSome := by
    intro b hb
    rw [hInv.dictI.singles b hb]
    rfl
  have hslb : ∀ b ∈ slice data pos endPos, b < 256 := slice_bytes _ _ _ hdata
  have hslen : (slice data pos endPos).length = endPos - pos := by
    rw [slice_length]
    omega
  have hsne : slice data pos endPos ≠ [] := by
    intro hc
    rw [hc] at hslen
    simp at hslen
    omega
  obtain ⟨⟨mId, mLen⟩, hfind⟩ := findA_total s.lpm hsingles _ hslb hsne
  obtain ⟨hm1, hmle, hmid, htokm⟩ :=
    findA_sound s.lpm hInv.arena hInv.dictI canon hT _ hslb hfind
  have hmle' : mLen ≤ endPos - pos := by
    rw [hslen] at hmle
    exact hmle
  simp only [trainStepA, hfind]
  by_cases hthr : ((alookup s.freq (prevId, mId)).getD 0 + 1) % 65536 ≥ threshold
  · rw [if_pos hthr]
    set merged := slice data (pos - prevLen) (pos + mLen) with hmerged
    have hmlen : merged.length = prevLen + mLen := by
      rw [hmerged, slice_length]
      omega
    have hmb : ∀ b ∈ merged, b < 256 := slice_bytes _ _ _ hdata
    have haiExt : ArenaInv (s.dict ++ merged)
        (s.tb ++ [(s.dict ++ merged).length]) (s.nextId + 1) :=
      hInv.arena.extend merged (by omega) hmb
    have hstb : ∀ id, id < s.nextId →
        tokenBytes (s.dict ++ merged) (s.tb ++ [(s.dict ++ merged).length]) id
          = tokenBytes s.dict s.tb id := by
      intro id hid
      exact tokenBytes_stable hInv.arena merged _ id (by rw [hInv.arena.tbLen]; omega)
    have hnew : tokenBytes (s.dict ++ merged)
        (s.tb ++ [(s.dict ++ merged).length]) s.nextId = merged :=
      tokenBytes_new hInv.arena merged
    obtain ⟨hD, canon1, hT1⟩ := insertA_inv s.lpm hInv.dictI canon hT merged
      (by omega) hmb hstb hnew
    by_cases hbrk : s.nextId = 65535
    · rw [if_pos hbrk]
      refine ⟨_, _, _, _, _, rfl, by omega, ?_, trivial, by omega, by omega, ?_, ?_⟩
      · omega
      · intro hc
        simp at hc
      · intro _
        exact ⟨s.nextId + 1, haiExt, hD, canon1, hT1⟩
    · rw [if_neg hbrk]
      refine ⟨_, _, _, _, _, rfl, by omega, ?_, trivial, by omega, by omega, ?_, ?_⟩
      · omega
      · intro _
        refine ⟨haiExt, hD, ⟨canon1, hT1⟩, ?_⟩
        show s.nextId + 1 ≤ 65535
        have := hInv.nextHi
        omega
      · intro hc
        simp at hc
  · rw [if_neg hthr]
    refine ⟨_, _, _, _, _, rfl, by omega, by omega, trivial, by omega, by omega, ?_, ?_⟩
    · intro _
      exact ⟨hInv.arena, hInv.dictI, ⟨canon, hT⟩, hInv.nextHi⟩
    · intro hc
      simp at hc

/- ### Variant A training terminates with the invariant -/

theorem trainDictionaryA_spec (data eps : List Nat) (hdata : ∀ b ∈ data, b < 256)
    (threshold : Nat) (order : List Nat) (horder : ValidEps data eps order) :
    ∃ ts, trainDictionaryA data eps threshold order = some ts ∧ PostInvA ts := by
  have hfind : ∀ s a b, TrainInvA s → a < b → b ≤ data.length →
      ∃ mId mLen, s.lpm.findLongestMatch (slice data a b) = some (mId, mLen) ∧
        1 ≤ mLen ∧ mLen ≤ b - a ∧ True := by
    intro s a b hP hab hble
    obtain ⟨canon, hT⟩ := hP.trie
    have hslb : ∀ x ∈ slice data a b, x < 256 := slice_bytes _ _ _ hdata
    have hslen : (slice data a b).length = b - a := by
      rw [slice_length]
      omega
    have hsne : slice data a b ≠ [] := by
      intro hc
      rw [hc] at hslen
      simp at hslen
      omega
    have hsingles : ∀ x, x < 256 → (alookup s.lpm.shortMatchLookup (x, 1)).isSome := by
      intro x hx
      rw [hP.dictI.singles x hx]
      rfl
    obtain ⟨⟨mId, mLen⟩, hfind⟩ := findA_total s.lpm hsingles _ hslb hsne
    obtain ⟨hm1, hmle, _, _⟩ := findA_sound s.lpm hP.arena hP.dictI canon hT _ hslb hfind
    exact ⟨mId, mLen, hfind, hm1, by rw [hslen] at hmle; exact hmle, trivial⟩
  obtain ⟨ts, hts, hPQ⟩ :=
    gTrainOuter_spec data eps (fun s => s.lpm.findLongestMatch)
      (fun endPos => trainStepA data endPos threshold) TrainInvA PostInvA
      (fun _ => True) hfind
      (fun endPos hend s prevId prevLen pos hP ha hb hc hd =>
        trainStepA_spec data hdata endPos threshold hend s hP prevId prevLen pos ha hb hc hd)
      order initTrainStA trainInvA_init horder
  exact ⟨ts, hts, hPQ.elim TrainInvA.postA id⟩


/- ### Cumulative-sum helpers for string boundaries -/

theorem sumTo_succ_getD (ws : List (List Nat)) :
    ∀ i, i < ws.length → sumTo ws (i + 1) = sumTo ws i + (ws.getD i []).length := by
  induction ws with
  | nil => intro i hi; simp at hi
  | cons w rest ih =>
    intro i hi
    cases i with
    | zero => simp [sumTo_cons_succ, sumTo_zero]
    | succ j =>
      have hj : j < rest.length := by simp at hi; omega
      rw [sumTo_cons_succ, sumTo_cons_succ, ih j hj]
      simp only [List.getD_cons_succ]
      omega

theorem sb_getD (ws : List (List Nat)) :
    ∀ i, i ≤ ws.length → (0 :: marks ws 0).getD i 0 = sumTo ws i := by
  intro i hi
  cases i with
  | zero => rfl
  | succ j =>
    have hj : j < ws.length := by omega
    simp only [List.getD_cons_succ]
    rw [marks_getD ws 0 j hj]
    omega

/- ### End-to-end spec of variant-B compression -/

theorem compress16_spec (data eps : List Nat) (hdata : ∀ b ∈ data, b < 256)
    (threshold : Nat) (order : List Nat) (horder : ValidEps data eps order)
    (hchain : List.Chain' (· ≤ ·) eps) (hbound : ∀ e ∈ eps, e ≤ data.length) :
    ∃ ts stat ws,
      trainDictionary16 data eps threshold order = some ts ∧
      ts.lpm.finalize = some stat ∧
      (∀ a b, a < b → b ≤ data.length → ∃ id len,
        stat.findLongestMatch (slice data a b) = some (id, len) ∧ 1 ≤ len) ∧
      windowsOf stat.findLongestMatch data eps = some ws ∧
      parseDataG stat.findLongestMatch data eps = some (ws.flatten, 0 :: marks ws 0) ∧
      compressBytes16 threshold data eps order
        = some ⟨threshold, ws.flatten, 0 :: marks ws 0, ts.dict, ts.tb⟩ ∧
      ws.length + 1 = max eps.length 1 ∧
      ∀ i, i < ws.length →
        ((ws.getD i []).map (tokenBytes ts.dict ts.tb)).flatten
            = slice data (eps.getD i 0) (eps.getD (i + 1) 0) ∧
        (ws.getD i []).length ≤ eps.getD (i + 1) 0 - eps.getD i 0 ∧
        (eps.getD i 0 < eps.getD (i + 1) 0 → 1 ≤ (ws.getD i []).length) ∧
        ∀ id ∈ ws.getD i [], id + 1 < ts.tb.length ∧
          ts.tb.getD id 0 ≤ ts.tb.getD (id + 1) 0 ∧
          ts.tb.getD (id + 1) 0 ≤ ts.dict.length ∧
          ts.tb.getD (id + 1) 0 - ts.tb.getD id 0 ≤ 16 := by
  obtain ⟨ts, hts, n, ai, dI, bI, h16, hSO⟩ :=
    trainDictionary16_spec data eps hdata threshold order horder
  obtain ⟨stat, hstat, hequiv⟩ := finalize_equiv ts.lpm dI bI hSO
  have hsingles : ∀ x, x < 256 → (alookup ts.lpm.dictionary (x, 1)).isSome := by
    intro x hx
    rw [dI.singles x hx]
    rfl
  have hfindP : ∀ pos endP, pos < endP → endP ≤ data.length →
      ∃ id len, stat.findLongestMatch (slice data pos endP) = some (id, len) ∧
        1 ≤ len ∧ len ≤ endP - pos ∧
        tokenBytes ts.dict ts.tb id = slice data pos (pos + len) ∧
        (id + 1 < ts.tb.length ∧
          ts.tb.getD id 0 ≤ ts.tb.getD (id + 1) 0 ∧
          ts.tb.getD (id + 1) 0 ≤ ts.dict.length ∧
          ts.tb.getD (id + 1) 0 - ts.tb.getD id 0 ≤ 16) := by
    intro pos endP hlt hle
    have hslb : ∀ x ∈ slice data pos endP, x < 256 := slice_bytes _ _ _ hdata
    have hslen : (slice data pos endP).length = endP - pos := by
      rw [slice_length]
      omega
    have hsne : slice data pos endP ≠ [] := by
      intro hc
      rw [hc] at hslen
      simp at hslen
      omega
    obtain ⟨id, len, hfind, h1⟩ := find16_total ts.lpm hsingles _ hslb hsne
    obtain ⟨_, hlen2, _, hid, htok⟩ := find16_sound ts.lpm ai dI bI _ hslb hfind
    have hlen2' : len ≤ endP - pos := by
      rw [hslen] at hlen2
      exact hlen2
    have htb := ai.tbLen
    have hid1 : id + 1 < ts.tb.length := by omega
    refine ⟨id, len, by rw [hequiv _ hslb]; exact hfind, h1, hlen2', ?_,
      hid1, le_of_lt (ai.tokPos id hid1), ai.le_dictLen (id + 1) hid1, h16 id hid1⟩
    rw [htok, slice_take data pos endP len (by omega)]
  obtain ⟨ws, hws, hwlen, hwspec⟩ := windowsOf_spec stat.findLongestMatch data
    (tokenBytes ts.dict ts.tb)
    (fun id => id + 1 < ts.tb.length ∧
      ts.tb.getD id 0 ≤ ts.tb.getD (id + 1) 0 ∧
      ts.tb.getD (id + 1) 0 ≤ ts.dict.length ∧
      ts.tb.getD (id + 1) 0 - ts.tb.getD id 0 ≤ 16)
    hfindP eps hchain hbound
  have hparse := parseDataG_eq stat.findLongestMatch data eps ws hws
  refine ⟨ts, stat, ws, hts, hstat, ?_, hws, hparse, ?_, hwlen, hwspec⟩
  · intro a b hab hble
    obtain ⟨id, len, hfind, h1, _, _, _⟩ := hfindP a b hab hble
    exact ⟨id, len, hfind, h1⟩
  · unfold compressBytes16
    rw [hts]
    simp only
    rw [hstat]
    simp only
    rw [hparse]

/- ### End-to-end spec of variant-A compression -/

theorem compressA_spec (data eps : List Nat) (hdata : ∀ b ∈ data, b < 256)
    (threshold : Nat) (order : List Nat) (horder : ValidEps data eps order)
    (hchain : List.Chain' (· ≤ ·) eps) (hbound : ∀ e ∈ eps, e ≤ data.length) :
    ∃ ts ws,
      trainDictionaryA data eps threshold order = some ts ∧
      (∀ a b, a < b → b ≤ data.length → ∃ id len,
        ts.lpm.findLongestMatch (slice data a b) = some (id, len) ∧ 1 ≤ len) ∧
      windowsOf ts.lpm.findLongestMatch data eps = some ws ∧
      parseDataG ts.lpm.findLongestMatch data eps = some (ws.flatten, 0 :: marks ws 0) ∧
      compressBytesA data eps threshold order
        = some ⟨ws.flatten, 0 :: marks ws 0, ts.dict, ts.tb⟩ ∧
      ws.length + 1 = max eps.length 1 ∧
      ∀ i, i < ws.length →
        ((ws.getD i []).map (tokenBytes ts.dict ts.tb)).flatten
            = slice data (eps.getD i 0) (eps.getD (i + 1) 0) ∧
        (ws.getD i []).length ≤ eps.getD (i + 1) 0 - eps.getD i 0 ∧
        (eps.getD i 0 < eps.getD (i + 1) 0 → 1 ≤ (ws.getD i []).length) ∧
        ∀ id ∈ ws.getD i [], id + 1 < ts.tb.length ∧
          ts.tb.getD id 0 ≤ ts.tb.getD (id + 1) 0 ∧
          ts.tb.getD (id + 1) 0 ≤ ts.dict.length := by
  obtain ⟨ts, hts, n, ai, dI, canon, hT⟩ :=
    trainDictionaryA_spec data eps hdata threshold order horder
  have hsingles : ∀ x, x < 256 → (alookup ts.lpm.shortMatchLookup (x, 1)).isSome := by
    intro x hx
    rw [dI.singles x hx]
    rfl
  have hfindP : ∀ pos endP, pos < endP → endP ≤ data.length →
      ∃ id len, ts.lpm.findLongestMatch (slice data pos endP) = some (id, len) ∧
        1 ≤ len ∧ len ≤ endP - pos ∧
        tokenBytes ts.dict ts.tb id = slice data pos (pos + len) ∧
        (id + 1 < ts.tb.length ∧
          ts.tb.getD id 0 ≤ ts.tb.getD (id + 1) 0 ∧
          ts.tb.getD (id + 1) 0 ≤ ts.dict.length) := by
    intro pos endP hlt hle
    have hslb : ∀ x ∈ slice data pos endP, x < 256 := slice_bytes _ _ _ hdata
    have hslen : (slice data pos endP).length = endP - pos := by
      rw [slice_length]
      omega
    have hsne : slice data pos endP ≠ [] := by
      intro hc
      rw [hc] at hslen
      simp at hslen
      omega
    obtain ⟨⟨id, len⟩, hfind⟩ := findA_total ts.lpm hsingles _ hslb hsne
    obtain ⟨h1, hlen2, hid, htok⟩ := findA_sound ts.lpm ai dI canon hT _ hslb hfind
    have hlen2' : len ≤ endP - pos := by
      rw [hslen] at hlen2
      exact hlen2
    have htb := ai.tbLen
    have hid1 : id + 1 < ts.tb.length := by omega
    refine ⟨id, len, hfind, h1, hlen2', ?_,
      hid1, le_of_lt (ai.tokPos id hid1), ai.le_dictLen (id + 1) hid1⟩
    rw [htok, slice_take data pos endP len (by omega)]
  obtain ⟨ws, hws, hwlen, hwspec⟩ := windowsOf_spec ts.lpm.findLongestMatch data
    (tokenBytes ts.dict ts.tb)
    (fun id => id + 1 < ts.tb.length ∧
      ts.tb.getD id 0 ≤ ts.tb.getD (id + 1) 0 ∧
      ts.tb.getD (id + 1) 0 ≤ ts.dict.length)
    hfindP eps hchain hbound
  have hparse := parseDataG_eq ts.lpm.findLongestMatch data eps ws hws
  refine ⟨ts, ws, hts, ?_, hws, hparse, ?_, hwlen, hwspec⟩
  · intro a b hab hble
    obtain ⟨id, len, hfind, h1, _, _, _⟩ := hfindP a b hab hble
    exact ⟨id, len, hfind, h1⟩
  · unfold compressBytesA
    rw [hts]
    simp only
    rw [hparse]

/- ### Adjacent-boundary facts -/

theorem chain_adjacent (eps : List Nat) (h : List.Chain' (· ≤ ·) eps) (i : Nat)
    (hi : i + 1 < eps.length) : eps.getD i 0 ≤ eps.getD (i + 1) 0 := by
  rw [List.chain'_iff_get] at h
  have := h i (by omega)
  simp only [List.getD_eq_getElem?_getD, List.getElem?_eq_getElem hi,
    List.getElem?_eq_getElem (by omega : i < eps.length)] at *
  simpa [List.get_eq_getElem] using this

theorem getD_le_of_bound (eps : List Nat) (m : Nat) (h : ∀ e ∈ eps, e ≤ m) (i : Nat)
    (hi : i < eps.length) : eps.getD i 0 ≤ m := by
  apply h
  simp only [List.getD_eq_getElem?_getD, List.getElem?_eq_getElem hi]
  exact List.getElem_mem hi

theorem windows_sb_counts (ws : List (List Nat)) (eps : List Nat)
    (hwlen : ws.length + 1 = max eps.length 1)
    (hcount : ∀ i, i < ws.length →
      (ws.getD i []).length ≤ eps.getD (i + 1) 0 - eps.getD i 0)
    (hpos : ∀ i, i < ws.length →
      eps.getD i 0 < eps.getD (i + 1) 0 → 1 ≤ (ws.getD i []).length) :
    ∀ i, i + 1 < eps.length →
      (0 :: marks ws 0).getD i 0 ≤ (0 :: marks ws 0).getD (i + 1) 0 ∧
      (0 :: marks ws 0).getD (i + 1) 0 - (0 :: marks ws 0).getD i 0
        ≤ eps.getD (i + 1) 0 - eps.getD i 0 ∧
      (eps.getD i 0 < eps.getD (i + 1) 0 →
        1 ≤ (0 :: marks ws 0).getD (i + 1) 0 - (0 :: marks ws 0).getD i 0) ∧
      (eps.getD i 0 = eps.getD (i + 1) 0 →
        (0 :: marks ws 0).getD (i + 1) 0 - (0 :: marks ws 0).getD i 0 = 0) := by
  intro i hi
  have hiw : i < ws.length := by omega
  rw [sb_getD ws i (by omega), sb_getD ws (i + 1) (by omega),
    sumTo_succ_getD ws i hiw]
  have hc := hcount i hiw
  refine ⟨by omega, by omega, ?_, ?_⟩
  · intro h
    have := hpos i hiw h
    omega
  · intro h
    omega

/-- **C3.**  Coverage and parse termination, both variants: after a successful
training run the matcher answers every non-empty window slice with a match of
length at least one, the parser never panics, and each window of length `L`
emits between 1 and `L` token IDs (0 when `L = 0`), read off the string
boundary table. -/
theorem C3_coverage_parse_termination (data eps : List Nat)
    (hdata : ∀ b ∈ data, b < 256) (threshold : Nat) (order : List Nat)
    (horder : ValidEps data eps order) (hchain : List.Chain' (· ≤ ·) eps)
    (hbound : ∀ e ∈ eps, e ≤ data.length) :
    (∃ ts stat, trainDictionary16 data eps threshold order = some ts ∧
      ts.lpm.finalize = some stat ∧
      (∀ a b, a < b → b ≤ data.length → ∃ id len,
        stat.findLongestMatch (slice data a b) = some (id, len) ∧ 1 ≤ len) ∧
      ∃ cd sb, parseDataG stat.findLongestMatch data eps = some (cd, sb) ∧
        ∀ i, i + 1 < eps.length →
          sb.getD i 0 ≤ sb.getD (i + 1) 0 ∧
          sb.getD (i + 1) 0 - sb.getD i 0 ≤ eps.getD (i + 1) 0 - eps.getD i 0 ∧
          (eps.getD i 0 < eps.getD (i + 1) 0 →
            1 ≤ sb.getD (i + 1) 0 - sb.getD i 0) ∧
          (eps.getD i 0 = eps.getD (i + 1) 0 →
            sb.getD (i + 1) 0 - sb.getD i 0 = 0)) ∧
    (∃ ts, trainDictionaryA data eps threshold order = some ts ∧
      (∀ a b, a < b → b ≤ data.length → ∃ id len,
        ts.lpm.findLongestMatch (slice data a b) = some (id, len) ∧ 1 ≤ len) ∧
      ∃ cd sb, parseDataG ts.lpm.findLongestMatch data eps = some (cd, sb) ∧
        ∀ i, i + 1 < eps.length →
          sb.getD i 0 ≤ sb.getD (i + 1) 0 ∧
          sb.getD (i + 1) 0 - sb.getD i 0 ≤ eps.getD (i + 1) 0 - eps.getD i 0 ∧
          (eps.getD i 0 < eps.getD (i + 1) 0 →
            1 ≤ sb.getD (i + 1) 0 - sb.getD i 0) ∧
          (eps.getD i 0 = eps.getD (i + 1) 0 →
            sb.getD (i + 1) 0 - sb.getD i 0 = 0)) := by
  constructor
  · obtain ⟨ts, stat, ws, hts, hstat, hcov, hws, hparse, _, hwlen, hwspec⟩ :=
      compress16_spec data eps hdata threshold order horder hchain hbound
    exact ⟨ts, stat, hts, hstat, hcov, ws.flatten, 0 :: marks ws 0, hparse,
      windows_sb_counts ws eps hwlen (fun i hi => (hwspec i hi).2.1)
        (fun i hi => (hwspec i hi).2.2.1)⟩
  · obtain ⟨ts, ws, hts, hcov, hws, hparse, _, hwlen, hwspec⟩ :=
      compressA_spec data eps hdata threshold order horder hchain hbound
    exact ⟨ts, hts, hcov, ws.flatten, 0 :: marks ws 0, hparse,
      windows_sb_counts ws eps hwlen (fun i hi => (hwspec i hi).2.1)
        (fun i hi => (hwspec i hi).2.2.1)⟩

/-- **C1.**  Round-trip correctness, both variants: on any byte corpus with
well-formed end positions, compression succeeds and `decompress_string i`
writes exactly the original bytes of string `i` into the first `len` output
positions and returns that length, whatever the initial buffer contents. -/
theorem C1_round_trip (data eps : List Nat)
    (hdata : ∀ b ∈ data, b < 256) (threshold : Nat) (order : List Nat)
    (horder : ValidEps data eps order) (hchain : List.Chain' (· ≤ ·) eps)
    (hbound : ∀ e ∈ eps, e ≤ data.length) :
    (∃ st, compressBytes16 threshold data eps order = some st ∧
      ∀ i, i + 1 < eps.length → ∀ buffer : Nat → Nat,
        (decompressString16 st i buffer).2 = eps.getD (i + 1) 0 - eps.getD i 0 ∧
        ∀ j, j < eps.getD (i + 1) 0 - eps.getD i 0 →
          (decompressString16 st i buffer).1 j = data.getD (eps.getD i 0 + j) 0) ∧
    (∃ st, compressBytesA data eps threshold order = some st ∧
      ∀ i, i + 1 < eps.length → ∀ buffer : Nat → Nat,
        (decompressStringA st i buffer).2 = eps.getD (i + 1) 0 - eps.getD i 0 ∧
        ∀ j, j < eps.getD (i + 1) 0 - eps.getD i 0 →
          (decompressStringA st i buffer).1 j = data.getD (eps.getD i 0 + j) 0) := by
  constructor
  · obtain ⟨ts, stat, ws, hts, hstat, _, hws, hparse, hcomp, hwlen, hwspec⟩ :=
      compress16_spec data eps hdata threshold order horder hchain hbound
    refine ⟨_, hcomp, ?_⟩
    intro i hi buffer
    have hiw : i < ws.length := by omega
    obtain ⟨hjoin, hcnt, _, hPid⟩ := hwspec i hiw
    have hab : eps.getD i 0 ≤ eps.getD (i + 1) 0 := chain_adjacent eps hchain i hi
    have hble : eps.getD (i + 1) 0 ≤ data.length :=
      getD_le_of_bound eps data.length hbound (i + 1) hi
    have hflatlen : ((ws.getD i []).map (tokenBytes ts.dict ts.tb)).flatten.length
        = eps.getD (i + 1) 0 - eps.getD i 0 := by
      rw [hjoin, slice_length]
      omega
    obtain ⟨hL1, hL2, hL3⟩ := decompressLoop16_spec ts.dict ts.tb (ws.getD i []) buffer 0 hPid
    have hds : decompressString16 ⟨threshold, ws.flatten, 0 :: marks ws 0,
          ts.dict, ts.tb⟩ i buffer
        = decompressLoop16 ts.dict ts.tb (ws.getD i []) buffer 0 := by
      show decompressLoop16 ts.dict ts.tb
          (slice ws.flatten ((0 :: marks ws 0).getD i 0)
            ((0 :: marks ws 0).getD (i + 1) 0)) buffer 0 = _
      rw [sb_getD ws i (by omega), sb_getD ws (i + 1) (by omega), flatten_slice ws i hiw]
    rw [hds]
    constructor
    · rw [hL1, hflatlen]
      omega
    · intro j hj
      have hj' : j < ((ws.getD i []).map (tokenBytes ts.dict ts.tb)).flatten.length := by
        rw [hflatlen]
        omega
      have hcontent := hL3 j hj'
      simp only [Nat.zero_add] at hcontent
      rw [hcontent, hjoin, slice_getD data _ _ j (by omega) hble]
  · obtain ⟨ts, ws, hts, _, hws, hparse, hcomp, hwlen, hwspec⟩ :=
      compressA_spec data eps hdata threshold order horder hchain hbound
    refine ⟨_, hcomp, ?_⟩
    intro i hi buffer
    have hiw : i < ws.length := by omega
    obtain ⟨hjoin, hcnt, _, hPid⟩ := hwspec i hiw
    have hab : eps.getD i 0 ≤ eps.getD (i + 1) 0 := chain_adjacent eps hchain i hi
    have hble : eps.getD (i + 1) 0 ≤ data.length :=
      getD_le_of_bound eps data.length hbound (i + 1) hi
    have hflatlen : ((ws.getD i []).map (tokenBytes ts.dict ts.tb)).flatten.length
        = eps.getD (i + 1) 0 - eps.getD i 0 := by
      rw [hjoin, slice_length]
      omega
    obtain ⟨hL1, hL2, hL3⟩ := decompressLoopA_spec ts.dict ts.tb (ws.getD i []) buffer 0 hPid
    have hds : decompressStringA ⟨ws.flatten, 0 :: marks ws 0, ts.dict, ts.tb⟩ i buffer
        = decompressLoopA ts.dict ts.tb (ws.getD i []) buffer 0 := by
      show decompressLoopA ts.dict ts.tb
          (slice ws.flatten ((0 :: marks ws 0).getD i 0)
            ((0 :: marks ws 0).getD (i + 1) 0)) buffer 0 = _
      rw [sb_getD ws i (by omega), sb_getD ws (i + 1) (by omega), flatten_slice ws i hiw]
    rw [hds]
    constructor
    · rw [hL1, hflatlen]
      omega
    · intro j hj
      have hj' : j < ((ws.getD i []).map (tokenBytes ts.dict ts.tb)).flatten.length := by
        rw [hflatlen]
        omega
      have hcontent := hL3 j hj'
      simp only [Nat.zero_add] at hcontent
      rw [hcontent, hjoin, slice_getD data _ _ j (by omega) hble]

theorem C3_coverage_parse_termination_witness :
    (∀ b ∈ [104, 105], b < 256) ∧ ValidEps [104, 105] [0, 2] [0] ∧
    List.Chain' (· ≤ ·) [0, 2] ∧ (∀ e ∈ [0, 2], e ≤ [104, 105].length) ∧
    ((∃ ts stat, trainDictionary16 [104, 105] [0, 2] 2 [0] = some ts ∧
      ts.lpm.finalize = some stat ∧
      (∀ a b, a < b → b ≤ [104, 105].length → ∃ id len,
        stat.findLongestMatch (slice [104, 105] a b) = some (id, len) ∧ 1 ≤ len) ∧
      ∃ cd sb, parseDataG stat.findLongestMatch [104, 105] [0, 2] = some (cd, sb) ∧
        ∀ i, i + 1 < [0, 2].length →
          sb.getD i 0 ≤ sb.getD (i + 1) 0 ∧
          sb.getD (i + 1) 0 - sb.getD i 0
            ≤ [0, 2].getD (i + 1) 0 - [0, 2].getD i 0 ∧
          ([0, 2].getD i 0 < [0, 2].getD (i + 1) 0 →
            1 ≤ sb.getD (i + 1) 0 - sb.getD i 0) ∧
          ([0, 2].getD i 0 = [0, 2].getD (i + 1) 0 →
            sb.getD (i + 1) 0 - sb.getD i 0 = 0)) ∧
    (∃ ts, trainDictionaryA [104, 105] [0, 2] 2 [0] = some ts ∧
      (∀ a b, a < b → b ≤ [104, 105].length → ∃ id len,
        ts.lpm.findLongestMatch (slice [104, 105] a b) = some (id, len) ∧ 1 ≤ len) ∧
      ∃ cd sb, parseDataG ts.lpm.findLongestMatch [104, 105] [0, 2] = some (cd, sb) ∧
        ∀ i, i + 1 < [0, 2].length →
          sb.getD i 0 ≤ sb.getD (i + 1) 0 ∧
          sb.getD (i + 1) 0 - sb.getD i 0
            ≤ [0, 2].getD (i + 1) 0 - [0, 2].getD i 0 ∧
          ([0, 2].getD i 0 < [0, 2].getD (i + 1) 0 →
            1 ≤ sb.getD (i + 1) 0 - sb.getD i 0) ∧
          ([0, 2].getD i 0 = [0, 2].getD (i + 1) 0 →
            sb.getD (i + 1) 0 - sb.getD i 0 = 0))) :=
  ⟨by decide, by decide, by simp, by decide,
   C3_coverage_parse_termination [104, 105] [0, 2] (by decide) 2 [0]
     (by decide) (by simp) (by decide)⟩

theorem C1_round_trip_witness :
    (∀ b ∈ [104, 105], b < 256) ∧ ValidEps [104, 105] [0, 2] [0] ∧
    List.Chain' (· ≤ ·) [0, 2] ∧ (∀ e ∈ [0, 2], e ≤ [104, 105].length) ∧
    ((∃ st, compressBytes16 2 [104, 105] [0, 2] [0] = some st ∧
      ∀ i, i + 1 < [0, 2].length → ∀ buffer : Nat → Nat,
        (decompressString16 st i buffer).2
          = [0, 2].getD (i + 1) 0 - [0, 2].getD i 0 ∧
        ∀ j, j < [0, 2].getD (i + 1) 0 - [0, 2].getD i 0 →
          (decompressString16 st i buffer).1 j
            = [104, 105].getD ([0, 2].getD i 0 + j) 0) ∧
    (∃ st, compressBytesA [104, 105] [0, 2] 2 [0] = some st ∧
      ∀ i, i + 1 < [0, 2].length → ∀ buffer : Nat → Nat,
        (decompressStringA st i buffer).2
          = [0, 2].getD (i + 1) 0 - [0, 2].getD i 0 ∧
        ∀ j, j < [0, 2].getD (i + 1) 0 - [0, 2].getD i 0 →
          (decompressStringA st i buffer).1 j
            = [104, 105].getD ([0, 2].getD i 0 + j) 0)) :=
  ⟨by decide, by decide, by simp, by decide,
   C1_round_trip [104, 105] [0, 2] (by decide) 2 [0]
     (by decide) (by simp) (by decide)⟩


/- ### Association-list helpers for bucket construction -/

theorem alookup_append_none {α β : Type} [DecidableEq α] (l₁ l₂ : List (α × β)) (k : α)
    (h : alookup l₁ k = none) : alookup (l₁ ++ l₂) k = alookup l₂ k := by
  induction l₁ with
  | nil => simp
  | cons p rest ih =>
    obtain ⟨k₀, v⟩ := p
    simp only [alookup] at h
    by_cases hk : k = k₀
    · rw [if_pos hk] at h
      exact absurd h (by simp)
    · rw [if_neg hk] at h
      rw [List.cons_append]
      show (if k = k₀ then some v else alookup (rest ++ l₂) k) = alookup l₂ k
      rw [if_neg hk]
      exact ih h

theorem alookup_map_of_mem {β : Type} (f : Nat → β) :
    ∀ (l : List Nat) (k : Nat), k ∈ l →
      alookup (l.map (fun j => (j, f j))) k = some (f k) := by
  intro l
  induction l with
  | nil => intro k hk; simp at hk
  | cons j rest ih =>
    intro k hk
    simp only [List.map_cons]
    by_cases hkj : k = j
    · subst hkj
      exact alookup_cons_self _ _ _
    · rw [alookup_cons_ne _ _ _ _ hkj]
      exact ih k (by
        rcases List.mem_cons.mp hk with h | h
        · exact absurd h hkj
        · exact h)

theorem ainsert_append_last {α β : Type} [DecidableEq α] :
    ∀ (pre : List (α × β)) (k : α) (v w : β),
      alookup pre k = none →
      ainsert (pre ++ [(k, v)]) k w = pre ++ [(k, w)] := by
  intro pre
  induction pre with
  | nil => intro k v w _; simp [ainsert]
  | cons p rest ih =>
    intro k v w h
    obtain ⟨k₀, u⟩ := p
    simp only [alookup] at h
    by_cases hk : k = k₀
    · rw [if_pos hk] at h
      exact absurd h (by simp)
    · rw [if_neg hk] at h
      simp only [List.cons_append, ainsert, if_neg hk]
      show (k₀, u) :: ainsert (rest ++ [(k, v)]) k w = (k₀, u) :: (rest ++ [(k, w)])
      rw [ih k v w h]

theorem ainsert_absent_append {α β : Type} [DecidableEq α] :
    ∀ (l : List (α × β)) (k : α) (v : β),
      alookup l k = none → ainsert l k v = l ++ [(k, v)] := by
  intro l
  induction l with
  | nil => intro k v _; rfl
  | cons p rest ih =>
    intro k v h
    obtain ⟨k₀, u⟩ := p
    simp only [alookup] at h
    by_cases hk : k = k₀
    · rw [if_pos hk] at h
      exact absurd h (by simp)
    · rw [if_neg hk] at h
      simp only [ainsert, if_neg hk, List.cons_append]
      rw [ih k v h]

/- ### The counterexample key family: 526 over-full buckets -/

/-- The 16-byte keys' bucket entry: suffix word 2, suffix length 8, ID 7. -/
def cexA : BEntry := (2, 8, 7)

/-- The 9-byte keys' bucket entry for bucket `j`: suffix word 1, suffix
length 1, ID `1000 + j % 2`. -/
def cexB (j : Nat) : BEntry := (1, 1, 1000 + j % 2)

/-- The full dynamic bucket contents for prefix `j`: four 16-byte entries
followed by 125 9-byte entries (129 entries, the dynamic cap). -/
def fullBucket (j : Nat) : List BEntry :=
  List.replicate 4 cexA ++ List.replicate 125 (cexB j)

/-- A 16-byte key whose 8-byte prefix word is `j` and whose suffix word is 2. -/
def kA (j : Nat) : List Nat := toLEBytes j 8 ++ toLEBytes 2 8

/-- A 9-byte key whose 8-byte prefix word is `j` and whose suffix byte is 1. -/
def kB (j : Nat) : List Nat := toLEBytes j 8 ++ [1]

/-- The insert sequence filling bucket `j` to its 129-entry cap. -/
def bucketKeys (j : Nat) : List (List Nat × Nat) :=
  List.replicate 4 (kA j, 7) ++ List.replicate 125 (kB j, 1000 + j % 2)

/-- Fold a list of `(key, id)` inserts over a matcher state. -/
def insKeys (st : LPM16) (ks : List (List Nat × Nat)) : LPM16 :=
  ks.foldl (fun s kv => (s.insert kv.1 kv.2).2) st

theorem insKeys_cons (st : LPM16) (kv : List Nat × Nat) (ks : List (List Nat × Nat)) :
    insKeys st (kv :: ks) = insKeys (st.insert kv.1 kv.2).2 ks := rfl

theorem insKeys_append (st : LPM16) (l₁ l₂ : List (List Nat × Nat)) :
    insKeys st (l₁ ++ l₂) = insKeys (insKeys st l₁) l₂ := by
  simp [insKeys, List.foldl_append]

theorem lpm16_ext (a b : LPM16) (h1 : a.dictionary = b.dictionary)
    (h2 : a.buckets = b.buckets) : a = b := by
  cases a
  cases b
  simp_all

/- ### Word values of the key family -/

theorem word_toLE (w : Nat) (hw : w < 2 ^ 64) : bytesToU64LE (toLEBytes w 8) 8 = w := by
  rw [bytesToU64LE_eq _ 8 (toLEBytes_lt _ _) (le_refl 8),
    List.take_of_length_le (by rw [toLEBytes_length])]
  exact encodeLE_toLEBytes w 8 (by norm_num; omega)

theorem bytesToU64LE_append8 (j : Nat) (hj : j < 2 ^ 64) (tail : List Nat)
    (ht : ∀ b ∈ tail, b < 256) :
    bytesToU64LE (toLEBytes j 8 ++ tail) 8 = j := by
  rw [bytesToU64LE_eq _ 8 (by
      intro b hb
      rcases List.mem_append.mp hb with h | h
      · exact toLEBytes_lt _ _ b h
      · exact ht b h) (le_refl 8)]
  rw [List.take_left' (toLEBytes_length j 8)]
  exact encodeLE_toLEBytes j 8 (by norm_num; omega)

theorem drop8_append (j : Nat) (tail : List Nat) :
    (toLEBytes j 8 ++ tail).drop 8 = tail := by
  rw [List.drop_left' (toLEBytes_length j 8)]

theorem kA_length (j : Nat) : (kA j).length = 16 := by
  simp [kA, toLEBytes_length]

theorem kB_length (j : Nat) : (kB j).length = 9 := by
  simp [kB, toLEBytes_length]

theorem kA_pfx (j : Nat) (hj : j < 2 ^ 64) : bytesToU64LE (kA j) 8 = j :=
  bytesToU64LE_append8 j hj _ (toLEBytes_lt _ _)

theorem kB_pfx (j : Nat) (hj : j < 2 ^ 64) : bytesToU64LE (kB j) 8 = j :=
  bytesToU64LE_append8 j hj _ (by intro b hb; simp at hb; omega)

theorem kA_suffixW (j : Nat) :
    bytesToU64LE ((kA j).drop 8) ((kA j).length - 8) = 2 := by
  rw [kA_length, kA, drop8_append]
  exact word_toLE 2 (by norm_num)

theorem kB_suffixW (j : Nat) :
    bytesToU64LE ((kB j).drop 8) ((kB j).length - 8) = 1 := by
  rw [kB_length, kB, drop8_append]
  decide

/- ### The unstable sort on the two entry shapes -/

theorem oi_front (x b : BEntry) (t : List BEntry) (h : b.2.1 ≤ x.2.1) :
    List.orderedInsert (fun a b => b.2.1 ≤ a.2.1) x (b :: t) = x :: b :: t := by
  simp [List.orderedInsert, h]

theorem sort_replicate_cexA : ∀ a : Nat,
    sortByLenDesc (List.replicate a cexA ++ [cexA]) = List.replicate (a + 1) cexA := by
  intro a
  induction a with
  | zero => rfl
  | succ m ih =>
    rw [List.replicate_succ, List.cons_append]
    show List.orderedInsert _ cexA (sortByLenDesc (List.replicate m cexA ++ [cexA]))
      = List.replicate (m + 1 + 1) cexA
    rw [ih, List.replicate_succ, oi_front cexA cexA _ (le_refl _), ← List.replicate_succ,
      ← List.replicate_succ]

theorem sort_inner_cexB (j : Nat) : ∀ m : Nat,
    List.insertionSort (fun a b => b.2.1 ≤ a.2.1)
      (List.replicate m (cexB j) ++ [cexB j]) = List.replicate (m + 1) (cexB j) := by
  intro m
  induction m with
  | zero => rfl
  | succ m ih =>
    rw [List.replicate_succ, List.cons_append]
    show List.orderedInsert _ (cexB j)
      (List.insertionSort _ (List.replicate m (cexB j) ++ [cexB j]))
      = List.replicate (m + 1 + 1) (cexB j)
    rw [ih, List.replicate_succ, oi_front (cexB j) (cexB j) _ (le_refl _),
      ← List.replicate_succ, ← List.replicate_succ]

theorem sort_bucketB (j : Nat) (m : Nat) :
    sortByLenDesc ((List.replicate 4 cexA ++ List.replicate m (cexB j)) ++ [cexB j])
      = List.replicate 4 cexA ++ List.replicate (m + 1) (cexB j) := by
  have hshow : (List.replicate 4 cexA ++ List.replicate m (cexB j)) ++ [cexB j]
      = cexA :: cexA :: cexA :: cexA :: (List.replicate m (cexB j) ++ [cexB j]) := by
    simp [List.replicate_succ]
  rw [hshow]
  show List.orderedInsert _ cexA (List.insertionSort _ (cexA :: cexA :: cexA ::
      (List.replicate m (cexB j) ++ [cexB j]))) = _
  show List.orderedInsert _ cexA (List.orderedInsert _ cexA (List.insertionSort _
      (cexA :: cexA :: (List.replicate m (cexB j) ++ [cexB j])))) = _
  show List.orderedInsert _ cexA (List.orderedInsert _ cexA (List.orderedInsert _ cexA
      (List.insertionSort _ (cexA :: (List.replicate m (cexB j) ++ [cexB j]))))) = _
  show List.orderedInsert _ cexA (List.orderedInsert _ cexA (List.orderedInsert _ cexA
      (List.orderedInsert _ cexA (List.insertionSort _
        (List.replicate m (cexB j) ++ [cexB j]))))) = _
  rw [sort_inner_cexB j m]
  have hfront : ∀ t : List BEntry,
      List.orderedInsert (fun a b => b.2.1 ≤ a.2.1) cexA (cexA :: t) = cexA :: cexA :: t :=
    fun t => oi_front cexA cexA t (le_refl _)
  have hfrontB : List.orderedInsert (fun a b => b.2.1 ≤ a.2.1) cexA
      (List.replicate (m + 1) (cexB j)) = cexA :: List.replicate (m + 1) (cexB j) := by
    rw [List.replicate_succ]
    exact oi_front cexA (cexB j) _ (by simp [cexA, cexB])
  rw [hfrontB, hfront, hfront, hfront]
  simp [List.replicate_succ]

/- ### One long-key insert, unfolded -/

theorem insert_long (st : LPM16) (k : List Nat) (id : Nat) (h8 : ¬ k.length ≤ 8)
    (hacc : ¬ ((alookup st.buckets (bytesToU64LE k 8)).getD []).length > MAX_BUCKET_SIZE) :
    (st.insert k id).2 = { st with buckets := (ainsert st.buckets (bytesToU64LE k 8)
      (sortByLenDesc (((alookup st.buckets (bytesToU64LE k 8)).getD []) ++
        [(bytesToU64LE (k.drop 8) (k.length - 8), k.length - 8, id)]))) } := by
  simp only [LPM16.insert, if_neg h8, if_neg hacc]

/- ### Filling one bucket to the 129-entry cap -/

theorem fillA (j : Nat) (hj : j < 2 ^ 64) :
    ∀ (n a : Nat), a + n ≤ 4 →
    ∀ (d : List ((Nat × Nat) × Nat)) (pre : List (Nat × List BEntry)),
      alookup pre j = none →
      insKeys ⟨d, pre ++ [(j, List.replicate a cexA)]⟩ (List.replicate n (kA j, 7))
        = ⟨d, pre ++ [(j, List.replicate (a + n) cexA)]⟩ := by
  intro n
  induction n with
  | zero => intro a _ d pre _; rfl
  | succ m ih =>
    intro a han d pre hpre
    rw [List.replicate_succ, insKeys_cons]
    have hlook : alookup (pre ++ [(j, List.replicate a cexA)]) j
        = some (List.replicate a cexA) := by
      rw [alookup_append_none _ _ _ hpre, alookup_cons_self]
    have hins : ((⟨d, pre ++ [(j, List.replicate a cexA)]⟩ : LPM16).insert (kA j) 7).2
        = ⟨d, pre ++ [(j, List.replicate (a + 1) cexA)]⟩ := by
      rw [insert_long _ _ _ (by rw [kA_length]; omega)
        (by
          show ¬ ((alookup (pre ++ [(j, List.replicate a cexA)])
            (bytesToU64LE (kA j) 8)).getD []).length > MAX_BUCKET_SIZE
          rw [kA_pfx j hj, hlook]
          simp [MAX_BUCKET_SIZE]
          omega)]
      show (⟨d, ainsert (pre ++ [(j, List.replicate a cexA)]) (bytesToU64LE (kA j) 8)
        (sortByLenDesc _)⟩ : LPM16) = _
      rw [kA_pfx j hj]
      show (⟨d, ainsert (pre ++ [(j, List.replicate a cexA)]) j
        (sortByLenDesc (((alookup (pre ++ [(j, List.replicate a cexA)]) j).getD []) ++
          [(bytesToU64LE ((kA j).drop 8) ((kA j).length - 8), (kA j).length - 8, 7)]))⟩
          : LPM16) = _
      rw [hlook, kA_suffixW j, kA_length]
      show (⟨d, ainsert (pre ++ [(j, List.replicate a cexA)]) j
        (sortByLenDesc (List.replicate a cexA ++ [cexA]))⟩ : LPM16) = _
      rw [sort_replicate_cexA a, ainsert_append_last _ _ _ _ hpre]
    rw [hins, ih (a + 1) (by omega) d pre hpre]
    have : a + 1 + m = a + (m + 1) := by omega
    rw [this]

theorem fillB (j : Nat) (hj : j < 2 ^ 64) :
    ∀ (n m : Nat), m + n ≤ 125 →
    ∀ (d : List ((Nat × Nat) × Nat)) (pre : List (Nat × List BEntry)),
      alookup pre j = none →
      insKeys ⟨d, pre ++ [(j, List.replicate 4 cexA ++ List.replicate m (cexB j))]⟩
          (List.replicate n (kB j, 1000 + j % 2))
        = ⟨d, pre ++ [(j, List.replicate 4 cexA ++ List.replicate (m + n) (cexB j))]⟩ := by
  intro n
  induction n with
  | zero => intro m _ d pre _; rfl
  | succ n' ih =>
    intro m hmn d pre hpre
    have hrep : (List.replicate (n' + 1) (kB j, 1000 + j % 2) : List (List Nat × Nat))
        = (kB j, 1000 + j % 2) :: List.replicate n' (kB j, 1000 + j % 2) :=
      List.replicate_succ _ _
    rw [hrep, insKeys_cons]
    have hlook : alookup (pre ++ [(j, List.replicate 4 cexA ++ List.replicate m (cexB j))]) j
        = some (List.replicate 4 cexA ++ List.replicate m (cexB j)) := by
      rw [alookup_append_none _ _ _ hpre, alookup_cons_self]
    have hins : ((⟨d, pre ++ [(j, List.replicate 4 cexA ++ List.replicate m (cexB j))]⟩
          : LPM16).insert (kB j) (1000 + j % 2)).2
        = ⟨d, pre ++ [(j, List.replicate 4 cexA ++ List.replicate (m + 1) (cexB j))]⟩ := by
      rw [insert_long _ _ _ (by rw [kB_length]; omega)
        (by
          show ¬ ((alookup (pre ++ [(j, List.replicate 4 cexA ++ List.replicate m (cexB j))])
            (bytesToU64LE (kB j) 8)).getD []).length > MAX_BUCKET_SIZE
          rw [kB_pfx j hj, hlook]
          simp [MAX_BUCKET_SIZE]
          omega)]
      show (⟨d, ainsert (pre ++ [(j, List.replicate 4 cexA ++ List.replicate m (cexB j))])
        (bytesToU64LE (kB j) 8) (sortByLenDesc _)⟩ : LPM16) = _
      rw [kB_pfx j hj]
      show (⟨d, ainsert (pre ++ [(j, List.replicate 4 cexA ++ List.replicate m (cexB j))]) j
        (sortByLenDesc (((alookup (pre ++ [(j, List.replicate 4 cexA ++
          List.replicate m (cexB j))]) j).getD []) ++
          [(bytesToU64LE ((kB j).drop 8) ((kB j).length - 8), (kB j).length - 8,
            1000 + j % 2)]))⟩ : LPM16) = _
      rw [hlook, kB_suffixW j, kB_length]
      show (⟨d, ainsert (pre ++ [(j, List.replicate 4 cexA ++ List.replicate m (cexB j))]) j
        (sortByLenDesc ((List.replicate 4 cexA ++ List.replicate m (cexB j)) ++
          [cexB j]))⟩ : LPM16) = _
      rw [sort_bucketB j m, ainsert_append_last _ _ _ _ hpre]
    rw [hins, ih (m + 1) (by omega) d pre hpre]
    have : m + 1 + n' = m + (n' + 1) := by omega
    rw [this]

theorem bucket_fill (j : Nat) (hj : j < 2 ^ 64) (d : List ((Nat × Nat) × Nat))
    (pre : List (Nat × List BEntry)) (hpre : alookup pre j = none) :
    insKeys ⟨d, pre⟩ (bucketKeys j) = ⟨d, pre ++ [(j, fullBucket j)]⟩ := by
  unfold bucketKeys
  rw [insKeys_append]
  have h4 : (List.replicate 4 (kA j, 7) : List (List Nat × Nat))
      = (kA j, 7) :: List.replicate 3 (kA j, 7) := by
    rw [← List.replicate_succ]
  rw [h4, insKeys_cons]
  have hfirst : ((⟨d, pre⟩ : LPM16).insert (kA j) 7).2
      = ⟨d, pre ++ [(j, List.replicate 1 cexA)]⟩ := by
    rw [insert_long _ _ _ (by rw [kA_length]; omega)
      (by
        show ¬ ((alookup pre (bytesToU64LE (kA j) 8)).getD []).length > MAX_BUCKET_SIZE
        rw [kA_pfx j hj, hpre]
        simp [MAX_BUCKET_SIZE])]
    show (⟨d, ainsert pre (bytesToU64LE (kA j) 8) (sortByLenDesc _)⟩ : LPM16) = _
    rw [kA_pfx j hj]
    show (⟨d, ainsert pre j (sortByLenDesc (((alookup pre j).getD []) ++
      [(bytesToU64LE ((kA j).drop 8) ((kA j).length - 8), (kA j).length - 8, 7)]))⟩
        : LPM16) = _
    rw [hpre, kA_suffixW j, kA_length]
    show (⟨d, ainsert pre j (sortByLenDesc ([] ++ [cexA]))⟩ : LPM16) = _
    rw [show sortByLenDesc ([] ++ [cexA]) = List.replicate 1 cexA from rfl,
      ainsert_absent_append _ _ _ hpre]
  rw [hfirst, fillA j hj 3 1 (by omega) d pre hpre]
  have hstart : (List.replicate (1 + 3) cexA : List BEntry)
      = List.replicate 4 cexA ++ List.replicate 0 (cexB j) := by
    simp
  rw [hstart, fillB j hj 125 0 (by omega) d pre hpre]
  rfl

/- ### Filling all 526 buckets -/

theorem fill_all : ∀ (js : List Nat), (∀ j ∈ js, j < 2 ^ 64) → js.Nodup →
    ∀ (d : List ((Nat × Nat) × Nat)) (pre : List (Nat × List BEntry)),
      (∀ j ∈ js, alookup pre j = none) →
      insKeys ⟨d, pre⟩ ((js.map bucketKeys).flatten)
        = ⟨d, pre ++ js.map (fun j => (j, fullBucket j))⟩ := by
  intro js
  induction js with
  | nil => intro _ _ d pre _; simp [insKeys]
  | cons j rest ih =>
    intro hlt hnd d pre habs
    simp only [List.map_cons, List.flatten_cons]
    rw [insKeys_append, bucket_fill j (hlt j (List.mem_cons_self _ _)) d pre
      (habs j (List.mem_cons_self _ _))]
    rw [ih (fun x hx => hlt x (List.mem_cons_of_mem _ hx)) (List.nodup_cons.mp hnd).2 d
      (pre ++ [(j, fullBucket j)])
      (fun x hx => by
        rw [alookup_append_none _ _ _ (habs x (List.mem_cons_of_mem _ hx))]
        have hxj : x ≠ j := by
          intro hc
          subst hc
          exact (List.nodup_cons.mp hnd).1 hx
        simp [alookup, hxj])]
    simp

/- ### The counterexample state -/

/-- The 256 single-byte inserts `(key = [b], id = b)` every training run
performs first. -/
def singlesKV : List (List Nat × Nat) := (List.range 256).map (fun b => ([b], b))

/-- The long-key insert sequence of the counterexample: 526 buckets, each
filled with four 16-byte keys and 125 9-byte keys. -/
def cexLongKeys : List (List Nat × Nat) := ((List.range 526).map bucketKeys).flatten

/-- The full insert sequence of the counterexample. -/
def cexKeys : List (List Nat × Nat) := singlesKV ++ cexLongKeys

/-- The dynamic matcher state of the counterexample. -/
def cexState : LPM16 := insKeys LPM16.empty cexKeys

/-- The counterexample query: the 8-byte prefix of bucket 525 followed by
the suffix byte 1. -/
def cexQuery : List Nat := toLEBytes 525 8 ++ [1]

theorem seed_dictionary : (insKeys LPM16.empty singlesKV).dictionary
    = (List.range 256).map (fun b => ((b, 1), b)) := by decide

theorem seed_buckets : (insKeys LPM16.empty singlesKV).buckets = [] := by decide

theorem cexState_eq : cexState
    = ⟨(List.range 256).map (fun b => ((b, 1), b)),
       (List.range 526).map (fun j => (j, fullBucket j))⟩ := by
  have hseed : insKeys LPM16.empty singlesKV
      = ⟨(List.range 256).map (fun b => ((b, 1), b)), []⟩ :=
    lpm16_ext _ _ seed_dictionary seed_buckets
  show insKeys LPM16.empty (singlesKV ++ cexLongKeys) = _
  rw [insKeys_append, hseed]
  unfold cexLongKeys
  rw [fill_all (List.range 526)
    (fun j hj => lt_trans (List.mem_range.mp hj) (by norm_num))
    (List.nodup_range 526) _ [] (fun _ _ => rfl)]
  rw [List.nil_append]

/- ### The dynamic answer on the counterexample query -/

theorem cexQuery_length : cexQuery.length = 9 := by
  simp [cexQuery, toLEBytes_length]

theorem cexQuery_pfx : bytesToU64LE cexQuery 8 = 525 :=
  bytesToU64LE_append8 525 (by norm_num) [1] (by intro b hb; simp at hb; omega)

theorem cexQuery_suffix : cexQuery.drop 8 = [1] := drop8_append 525 [1]

theorem cexB_525 : cexB 525 = (1, 1, 1001) := by
  show ((1 : Nat), (1 : Nat), 1000 + 525 % 2) = (1, 1, 1001)
  norm_num

theorem scan_cexA_none : scanBucket (List.replicate 4 cexA) 1 1 = none := by
  decide

theorem scan_fullBucket_525 : scanBucket (fullBucket 525) 1 1 = some (1001, 9) := by
  unfold fullBucket
  rw [scanBucket_append, scan_cexA_none]
  rw [cexB_525]
  show scanBucket (List.replicate 125 ((1 : Nat), (1 : Nat), (1001 : Nat))) 1 1
    = some (1001, 9)
  rw [show (List.replicate 125 ((1 : Nat), (1 : Nat), (1001 : Nat)))
    = (1, 1, 1001) :: List.replicate 124 (1, 1, 1001) from List.replicate_succ _ _]
  show (if isPrefixWord 1 1 1 1 = true then some (1001, 8 + 1)
    else scanBucket (List.replicate 124 ((1 : Nat), (1 : Nat), (1001 : Nat))) 1 1)
    = some (1001, 9)
  rw [if_pos (by decide)]

theorem cex_dynamic : cexState.findLongestMatch cexQuery = some (1001, 9) := by
  rw [find16_eq_big cexState cexQuery (by rw [cexQuery_length]; omega)]
  rw [cexQuery_pfx, cexQuery_suffix, cexQuery_length]
  have hbk : alookup cexState.buckets 525 = some (fullBucket 525) := by
    rw [cexState_eq]
    exact alookup_map_of_mem _ _ 525 (List.mem_range.mpr (by norm_num))
  rw [hbk]
  show (match scanBucket (fullBucket 525) (bytesToU64LE [1] (min 9 16 - 8))
      (min 9 16 - 8) with
    | some r => some r
    | none => shortScan cexState.dictionary 525 8) = some (1001, 9)
  rw [show min 9 16 - 8 = 1 from by norm_num,
    show bytesToU64LE [1] 1 = 1 from by decide, scan_fullBucket_525]

/- ### Finalize bucket layout with offset truncation -/

theorem finalizeBuckets_trunc (st : LPM16)
    (htotal : ∀ pfx, ∃ r, st.findLongestMatch (toLEBytes pfx 8) = some r) :
    ∀ (bkts : List (Nat × List BEntry)) (d0 : List (Nat × LongMatchInfo))
      (b0 : List BEntry),
      (bkts.map (fun p => p.1)).Nodup →
      (∀ p ∈ bkts, alookup d0 p.1 = none) →
      ∃ d1, finalizeBuckets st bkts d0 b0
          = some (d1, b0 ++ (bkts.map (fun p => p.2.drop N_INLINE_SUFFIXES)).flatten) ∧
        d1.map (fun p => p.1) = d0.map (fun p => p.1) ++ bkts.map (fun p => p.1) ∧
        (∀ i, i < bkts.length → ∃ aId aLen,
          alookup d1 (bkts.getD i (0, [])).1
            = some ⟨(bkts.getD i (0, [])).1,
                (bkts.getD i (0, [])).2.take N_INLINE_SUFFIXES,
                (bkts.getD i (0, [])).2.length % 65536,
                (b0.length
                  + ((bkts.take i).map
                      (fun p => (p.2.drop N_INLINE_SUFFIXES).length)).sum) % 65536,
                aId, aLen⟩) := by
  intro bkts
  induction bkts with
  | nil =>
    intro d0 b0 _ _
    refine ⟨d0, by simp [finalizeBuckets], by simp, ?_⟩
    intro i hi
    simp at hi
  | cons pb rest ih =>
    intro d0 b0 hnd hfresh
    obtain ⟨pfx0, bucket0⟩ := pb
    obtain ⟨⟨aId0, aLen0⟩, hr⟩ := htotal pfx0
    simp only [List.map_cons, List.nodup_cons] at hnd
    have hp0 : alookup d0 pfx0 = none := hfresh (pfx0, bucket0) (List.mem_cons_self _ _)
    have hstep : finalizeBuckets st ((pfx0, bucket0) :: rest) d0 b0
        = finalizeBuckets st rest
            (ainsert d0 pfx0 ⟨pfx0, bucket0.take N_INLINE_SUFFIXES,
              bucket0.length % 65536, b0.length % 65536, aId0, aLen0⟩)
            (b0 ++ bucket0.drop N_INLINE_SUFFIXES) := by
      simp only [finalizeBuckets]
      rw [hr]
    set info0 : LongMatchInfo := ⟨pfx0, bucket0.take N_INLINE_SUFFIXES,
      bucket0.length % 65536, b0.length % 65536, aId0, aLen0⟩ with hinfo0
    have hfresh2 : ∀ p ∈ rest, alookup (ainsert d0 pfx0 info0) p.1 = none := by
      intro p hp
      have hne : p.1 ≠ pfx0 := by
        intro hc
        exact hnd.1 (hc ▸ List.mem_map.mpr ⟨p, hp, rfl⟩)
      rw [alookup_ainsert_ne _ _ _ _ hne]
      exact hfresh p (List.mem_cons_of_mem _ hp)
    obtain ⟨d1, hres, hkeys, hper⟩ :=
      ih (ainsert d0 pfx0 info0) (b0 ++ bucket0.drop N_INLINE_SUFFIXES) hnd.2 hfresh2
    refine ⟨d1, ?_, ?_, ?_⟩
    · rw [hstep, hres]
      simp [List.append_assoc]
    · rw [hkeys, ainsert_keys_fresh d0 pfx0 info0 (not_mem_of_alookup_none d0 pfx0 hp0)]
      simp
    · intro i hi
      cases i with
      | zero =>
        refine ⟨aId0, aLen0, ?_⟩
        show alookup d1 pfx0
          = some ⟨pfx0, bucket0.take N_INLINE_SUFFIXES, bucket0.length % 65536,
              (b0.length + 0) % 65536, aId0, aLen0⟩
        have hstable : alookup d1 pfx0 = alookup (ainsert d0 pfx0 info0) pfx0 := by
          have hnotin : pfx0 ∉ rest.map (fun p => p.1) := hnd.1
          have : ∀ (l : List (Nat × List BEntry)) (dd : List (Nat × LongMatchInfo))
              (bb : List BEntry) (dres : List (Nat × LongMatchInfo))
              (bres : List BEntry) (k : Nat),
              finalizeBuckets st l dd bb = some (dres, bres) →
              k ∉ l.map (fun p => p.1) → alookup dres k = alookup dd k := by
            intro l
            induction l with
            | nil =>
              intro dd bb dres bres k hfb hk
              simp only [finalizeBuckets] at hfb
              injection hfb with hfb
              injection hfb with h1 h2
              rw [← h1]
            | cons q qrest ihq =>
              intro dd bb dres bres k hfb hk
              obtain ⟨qp, qb⟩ := q
              obtain ⟨⟨qa, ql⟩, hq⟩ := htotal qp
              simp only [finalizeBuckets, hq] at hfb
              simp only [List.map_cons, List.mem_cons] at hk
              push_neg at hk
              rw [ihq _ _ _ _ k hfb hk.2, alookup_ainsert_ne _ _ _ _ hk.1]
          exact this rest _ _ _ _ pfx0 hres hnotin
        rw [hstable, alookup_ainsert, hinfo0]
        simp
      | succ i' =>
        have hi' : i' < rest.length := by
          simp at hi
          omega
        obtain ⟨aId, aLen, hlook⟩ := hper i' hi'
        refine ⟨aId, aLen, ?_⟩
        have hgetD : (((pfx0, bucket0) :: rest).getD (i' + 1) (0, []))
            = rest.getD i' (0, []) := by
          simp [List.getD_cons_succ]
        rw [hgetD, hlook]
        have harith : (b0 ++ bucket0.drop N_INLINE_SUFFIXES).length
              + ((rest.take i').map (fun p => (p.2.drop N_INLINE_SUFFIXES).length)).sum
            = b0.length + ((((pfx0, bucket0) :: rest).take (i' + 1)).map
                (fun p => (p.2.drop N_INLINE_SUFFIXES).length)).sum := by
          simp only [List.take_succ_cons, List.map_cons, List.sum_cons,
            List.length_append]
          show b0.length + (bucket0.drop N_INLINE_SUFFIXES).length + _
            = b0.length + ((bucket0.drop N_INLINE_SUFFIXES).length + _)
          omega
        rw [harith]

/- ### Locating a stored record in the finalized static matcher -/

theorem finalize_present (st : LPM16) (d1 : List (Nat × LongMatchInfo)) (b1 : List BEntry)
    (hfb : finalizeBuckets st st.buckets [] [] = some (d1, b1))
    (hd1nd : (d1.map (fun p => p.1)).Nodup)
    (hdnd : (st.dictionary.map (fun p => p.1)).Nodup)
    (pfx : Nat) (rec : LongMatchInfo)
    (hlook : alookup (finalizeShortDict st.dictionary d1 []).1 pfx = some rec) :
    ∃ SD KS LI, st.finalize = some ⟨SD, KS, LI, b1⟩ ∧
      phfIndexNoRemap KS pfx < LI.length ∧
      LI.getD (phfIndexNoRemap KS pfx) LongMatchInfo.default = rec := by
  obtain ⟨hslow, hs8, hldl, hldnd⟩ := finalizeShortDict_spec st.dictionary d1 [] hdnd
  set LD := (finalizeShortDict st.dictionary d1 []).1 with hLDdef
  set SD := (finalizeShortDict st.dictionary d1 []).2 with hSDdef
  set KS := LD.map (fun p => p.1) with hKSdef
  set MX := (KS.map (phfIndexNoRemap KS)).foldl max 0 with hMXdef
  set LI := LD.foldl (fun acc p => acc.set (phfIndexNoRemap KS p.1) p.2)
    (List.replicate (MX + 1) LongMatchInfo.default) with hLIdef
  have hldnd2 : (LD.map (fun p => p.1)).Nodup := hldnd hd1nd
  have hfin : st.finalize = some ⟨SD, KS, LI, b1⟩ := by
    unfold LPM16.finalize
    rw [hfb]
  have hmem : pfx ∈ KS := by
    rw [hKSdef]
    exact List.mem_map.mpr ⟨(pfx, rec), alookup_mem _ _ _ hlook, rfl⟩
  have hidx_le : phfIndexNoRemap KS pfx ≤ MX := by
    rw [hMXdef]
    exact le_foldl_max _ 0 _ (List.mem_map.mpr ⟨pfx, hmem, rfl⟩)
  have hLIlen : LI.length = MX + 1 := by
    rw [hLIdef, foldl_set_length, List.length_replicate]
  refine ⟨SD, KS, LI, hfin, by omega, ?_⟩
  rw [hLIdef]
  apply foldl_set_lookup (phfIndexNoRemap KS) LD _ pfx rec hldnd2 hlook
  · intro p hp hfeq
    have hpmem : p.1 ∈ KS := by
      rw [hKSdef]
      exact List.mem_map.mpr ⟨p, hp, rfl⟩
    rw [phfIndex_mem _ _ hpmem, phfIndex_mem _ _ hmem] at hfeq
    exact (List.indexOf_inj hpmem hmem).mp hfeq
  · rw [List.length_replicate]
    omega

/- ### The static answer on the counterexample query -/

theorem singles_keys_nodup :
    (((List.range 256).map (fun b => ((b, 1), b))).map (fun p => p.1)).Nodup := by
  rw [List.map_map]
  exact List.Nodup.map (fun a b hab => by
    have := congrArg Prod.fst hab
    simpa using this) (List.nodup_range 256)

theorem cex_bkts_keys :
    ((List.range 526).map (fun j => (j, fullBucket j))).map
        (fun p => (p.1 : Nat)) = List.range 526 := by
  rw [List.map_map]
  exact List.map_id ..

theorem fullBucket_length (j : Nat) : (fullBucket j).length = 129 := by
  simp [fullBucket]

theorem fullBucket_drop (j : Nat) :
    (fullBucket j).drop N_INLINE_SUFFIXES = List.replicate 125 (cexB j) := by
  unfold fullBucket
  rw [show N_INLINE_SUFFIXES = (List.replicate 4 cexA : List BEntry).length from by
      simp [N_INLINE_SUFFIXES],
    List.drop_left]

theorem fullBucket_take (j : Nat) :
    (fullBucket j).take N_INLINE_SUFFIXES = List.replicate 4 cexA := by
  unfold fullBucket
  rw [show N_INLINE_SUFFIXES = (List.replicate 4 cexA : List BEntry).length from by
      simp [N_INLINE_SUFFIXES],
    List.take_left]

theorem getD_map_range_pair {β : Type} (f : Nat → β) (n i : Nat) (d : β) (hi : i < n) :
    ((List.range n).map f).getD i d = f i := by
  simp only [List.getD_eq_getElem?_getD, List.getElem?_map, List.getElem?_range hi]
  rfl

theorem region_calc (a b : BEntry) (rest : List BEntry) :
    ((List.replicate 125 a ++ (List.replicate 125 b ++ rest)).take 214).drop 89
      = List.replicate 36 a ++ List.replicate 89 b := by
  simp [List.take_append_eq_append_take, List.drop_append_eq_append_drop,
    List.take_replicate, List.drop_replicate]

theorem cex_singles_isSome : ∀ b, b < 256 →
    (alookup cexState.dictionary (b, 1)).isSome := by
  intro b hb
  rw [cexState_eq]
  show (alookup ((List.range 256).map (fun b => ((b, 1), b))) (b, 1)).isSome
  rw [singles_alookup_self (List.range 256) b (List.mem_range.mpr hb)]
  rfl

theorem cex_total : ∀ pfx, ∃ r, cexState.findLongestMatch (toLEBytes pfx 8) = some r := by
  intro pfx
  obtain ⟨id, len, hfind, _⟩ := find16_total cexState cex_singles_isSome
    (toLEBytes pfx 8) (toLEBytes_lt _ _)
    (by
      intro hc
      have h8 := toLEBytes_length pfx 8
      rw [hc] at h8
      simp at h8)
  exact ⟨(id, len), hfind⟩

theorem cex_static : ∃ stat, cexState.finalize = some stat ∧
    stat.findLongestMatch cexQuery = some (1000, 9) := by
  have hbkts : cexState.buckets = (List.range 526).map (fun j => (j, fullBucket j)) := by
    rw [cexState_eq]
  have hdict : cexState.dictionary = (List.range 256).map (fun b => ((b, 1), b)) := by
    rw [cexState_eq]
  obtain ⟨d1, hfb, hkeys, hper⟩ := finalizeBuckets_trunc cexState cex_total
    cexState.buckets [] []
    (by rw [hbkts, cex_bkts_keys]; exact List.nodup_range 526)
    (fun p _ => rfl)
  obtain ⟨aId, aLen, hd525⟩ := hper 525 (by rw [hbkts]; simp)
  have hgetD : (cexState.buckets.getD 525 (0, [])) = (525, fullBucket 525) := by
    rw [hbkts]
    exact getD_map_range_pair _ 526 525 _ (by norm_num)
  rw [hgetD] at hd525
  have hoffs : (([] : List BEntry).length
      + ((cexState.buckets.take 525).map
          (fun p => (p.2.drop N_INLINE_SUFFIXES).length)).sum) % 65536 = 89 := by
    rw [hbkts, ← List.map_take, List.take_range, show min 525 526 = 525 from by norm_num,
      List.map_map]
    have hconst : (List.range 525).map
        ((fun p => ((p : Nat × List BEntry).2.drop N_INLINE_SUFFIXES).length) ∘
          (fun j => (j, fullBucket j)))
        = (List.range 525).map (fun _ => 125) := by
      apply List.map_congr_left
      intro x _
      show ((fullBucket x).drop N_INLINE_SUFFIXES).length = 125
      rw [fullBucket_drop]
      simp
    rw [hconst, List.map_const', List.sum_replicate]
    simp

  rw [hoffs] at hd525
  have hrec : alookup d1 525
      = some ⟨525, List.replicate 4 cexA, 129, 89, aId, aLen⟩ := by
    rw [hd525, fullBucket_take, fullBucket_length]
  have hd1nd : (d1.map (fun p => p.1)).Nodup := by
    rw [hkeys, hbkts, cex_bkts_keys]
    simp [List.nodup_range]
  have hLDrec : alookup (finalizeShortDict cexState.dictionary d1 []).1 525
      = some ⟨525, List.replicate 4 cexA, 129, 89, aId, aLen⟩ := by
    obtain ⟨_, _, hldl, _⟩ := finalizeShortDict_spec cexState.dictionary d1 []
      (by rw [hdict]; exact singles_keys_nodup)
    rw [hldl 525, hrec]
  obtain ⟨SD, KS, LI, hfin, hidx, hgd⟩ := finalize_present cexState d1 _ hfb hd1nd
    (by rw [hdict]; exact singles_keys_nodup) 525 _ hLDrec
  refine ⟨⟨SD, KS, LI, _⟩, hfin, ?_⟩
  rw [static16_eq_big _ cexQuery (by rw [cexQuery_length]; omega)]
  rw [cexQuery_pfx, cexQuery_suffix, cexQuery_length,
    show min 9 16 - 8 = 1 from by norm_num,
    show bytesToU64LE [1] 1 = 1 from by decide]
  rw [computeLongAnswer_present SD KS LI _ 525 1 1 (List.replicate 4 cexA)
    129 89 aId aLen hidx hgd]
  rw [show (List.replicate 4 cexA).take (min N_INLINE_SUFFIXES 129)
      = List.replicate 4 cexA from by
    rw [List.take_replicate]
    norm_num
    rfl]
  rw [scan_cexA_none]
  rw [if_pos (by norm_num [N_INLINE_SUFFIXES])]
  have hmap2 : ((List.range 526).map
      ((fun p => ((p : Nat × List BEntry).2.drop N_INLINE_SUFFIXES)) ∘
        (fun j => (j, fullBucket j))))
      = (List.range 526).map (fun j => List.replicate 125 (cexB j)) := by
    apply List.map_congr_left
    intro x _
    exact fullBucket_drop x
  have h2 : List.range 526 = 0 :: 1 :: ((List.range 524).map Nat.succ).map Nat.succ := by
    rw [show (526 : Nat) = 525 + 1 from rfl, List.range_succ_eq_map,
      show (525 : Nat) = 524 + 1 from rfl, List.range_succ_eq_map, List.map_cons]
  have hLB : ([] : List BEntry) ++ (cexState.buckets.map
      (fun p => p.2.drop N_INLINE_SUFFIXES)).flatten
      = List.replicate 125 (cexB 0) ++ (List.replicate 125 (cexB 1)
          ++ ((((List.range 524).map Nat.succ).map Nat.succ).map
              (fun j => List.replicate 125 (cexB j))).flatten) := by
    rw [List.nil_append, hbkts, List.map_map, hmap2, h2, List.map_cons, List.map_cons,
      List.flatten_cons, List.flatten_cons]
  rw [show (89 : Nat) + 129 - N_INLINE_SUFFIXES = 214 from by
    norm_num [N_INLINE_SUFFIXES]]
  rw [hLB, region_calc]
  rw [show cexB 0 = ((1 : Nat), (1 : Nat), (1000 : Nat)) from by
    show ((1 : Nat), (1 : Nat), 1000 + 0 % 2) = _
    norm_num]
  rw [show (List.replicate 36 ((1 : Nat), (1 : Nat), (1000 : Nat)))
      = (1, 1, 1000) :: List.replicate 35 (1, 1, 1000) from List.replicate_succ _ _]
  rw [List.cons_append]
  show (match (if isPrefixWord 1 1 1 1 = true then some (1000, 8 + 1)
      else scanBucket (List.replicate 35 ((1 : Nat), (1 : Nat), (1000 : Nat)) ++
        List.replicate 89 (cexB 1)) 1 1) with
    | some r => some r
    | none => some (aId, aLen)) = some (1000, 9)
  rw [if_pos (by decide)]

/- ### Insert-reachable dynamic states -/

/-- The matcher state after the 256 single-byte inserts. -/
def seedLPM : LPM16 := insKeys LPM16.empty singlesKV

/-- Fold a list of keys over the matcher, assigning consecutive IDs from `n`
(the ID discipline of both training loops). -/
def insSeq : LPM16 → Nat → List (List Nat) → LPM16
  | st, _, [] => st
  | st, n, k :: rest => insSeq (st.insert k n).2 (n + 1) rest

theorem insSeq_inv :
    ∀ (ks : List (List Nat)),
      (∀ k ∈ ks, 2 ≤ k.length ∧ k.length ≤ 16 ∧ ∀ b ∈ k, b < 256) →
    ∀ (st : LPM16) (dict tb : List Nat) (n : Nat),
      ArenaInv dict tb n → DictInv st.dictionary dict tb n →
      BucketInv st.buckets dict tb n →
      ∃ dict2 tb2, ArenaInv dict2 tb2 (n + ks.length) ∧
        DictInv (insSeq st n ks).dictionary dict2 tb2 (n + ks.length) ∧
        BucketInv (insSeq st n ks).buckets dict2 tb2 (n + ks.length) := by
  intro ks
  induction ks with
  | nil =>
    intro _ st dict tb n ha hd hb
    exact ⟨dict, tb, by simpa using ha, by simpa using hd, by simpa using hb⟩
  | cons k rest ih =>
    intro hks st dict tb n ha hd hb
    obtain ⟨hk2, hk16, hkb⟩ := hks k (List.mem_cons_self _ _)
    have ha2 : ArenaInv (dict ++ k) (tb ++ [(dict ++ k).length]) (n + 1) :=
      ha.extend k (by omega) hkb
    have hstb : ∀ id, id < n →
        tokenBytes (dict ++ k) (tb ++ [(dict ++ k).length]) id
          = tokenBytes dict tb id := by
      intro id hid
      exact tokenBytes_stable ha k _ id (by rw [ha.tbLen]; omega)
    have hnew : tokenBytes (dict ++ k) (tb ++ [(dict ++ k).length]) n = k :=
      tokenBytes_new ha k
    obtain ⟨hd2, hb2, _⟩ := insert16_inv_accepted st hd hb k hk2 hk16 hkb hstb hnew
    obtain ⟨dict2, tb2, ha3, hd3, hb3⟩ :=
      ih (fun x hx => hks x (List.mem_cons_of_mem _ hx)) (st.insert k n).2
        (dict ++ k) (tb ++ [(dict ++ k).length]) (n + 1) ha2 hd2 hb2
    have heq : n + (k :: rest).length = n + 1 + rest.length := by
      simp [List.length_cons]
      omega
    rw [heq]
    exact ⟨dict2, tb2, ha3, hd3, hb3⟩

/-- **C2 (amended).**  Finalize equivalence for insert-reachable variant-B
states that do not overflow the 16-bit cumulative overflow offset: starting
from the 256 single-byte seeds and inserting any keys of length 2..=16 with
consecutive IDs, if the total overflow spill (the final length of
`long_buckets`) fits in a `u16`, then `finalize` succeeds and the static
matcher agrees with the dynamic matcher on every byte query.  The external
`ptr_hash` index is spec-modelled by `phfIndexNoRemap`. -/
theorem C2_finalize_equiv_amended (ks : List (List Nat))
    (hks : ∀ k ∈ ks, 2 ≤ k.length ∧ k.length ≤ 16 ∧ ∀ b ∈ k, b < 256)
    (hso : sumOverflow (insSeq seedLPM 256 ks).buckets ≤ 65535) :
    ∃ stat, (insSeq seedLPM 256 ks).finalize = some stat ∧
      ∀ q, (∀ x ∈ q, x < 256) →
        stat.findLongestMatch q = (insSeq seedLPM 256 ks).findLongestMatch q := by
  have hseed : seedLPM = initTrainSt16.lpm :=
    lpm16_ext _ _ (by rw [init16_dictionary]; exact seed_dictionary)
      (by rw [init16_buckets]; exact seed_buckets)
  have harena : ArenaInv (List.range 256) (List.range 257) 256 := by
    have h := trainInv16_init.arena
    rwa [init16_dict, init16_tb, init16_nextId] at h
  have hdict : DictInv seedLPM.dictionary (List.range 256) (List.range 257) 256 := by
    have h := trainInv16_init.dictI
    rw [init16_dict, init16_tb, init16_nextId] at h
    rwa [← hseed] at h
  have hbkt : BucketInv seedLPM.buckets (List.range 256) (List.range 257) 256 := by
    have h := trainInv16_init.bktI
    rw [init16_dict, init16_tb, init16_nextId] at h
    rwa [← hseed] at h
  obtain ⟨dict2, tb2, _, hd2, hb2⟩ :=
    insSeq_inv ks hks seedLPM (List.range 256) (List.range 257) 256 harena hdict hbkt
  exact finalize_equiv (insSeq seedLPM 256 ks) hd2 hb2 hso

theorem C2_finalize_equiv_amended_witness :
    (∀ k ∈ ([] : List (List Nat)), 2 ≤ k.length ∧ k.length ≤ 16 ∧ ∀ b ∈ k, b < 256) ∧
    sumOverflow (insSeq seedLPM 256 []).buckets ≤ 65535 ∧
    (∃ stat, (insSeq seedLPM 256 []).finalize = some stat ∧
      ∀ q, (∀ x ∈ q, x < 256) →
        stat.findLongestMatch q = (insSeq seedLPM 256 []).findLongestMatch q) :=
  ⟨by simp, by decide, C2_finalize_equiv_amended [] (by simp) (by decide)⟩

/-- **C2 (counterexample).**  The unamended equivalence claim is false: a
sequence of inserts of keys of length 1..=16 (containing all 256 single-byte
keys, with `u16` IDs) reaches a dynamic state on which `finalize` succeeds
but the static matcher disagrees with the dynamic matcher on a byte query.
The 526 buckets of 129 entries spill `526 * 125 = 65750` overflow entries,
so the `u16` offset stored for the last bucket wraps to `65625 % 65536 = 89`
and its overflow scan reads entries of the first two buckets, returning
token ID 1000 where the dynamic matcher returns 1001.  The external
`ptr_hash` index is spec-modelled by `phfIndexNoRemap`. -/
theorem C2_finalize_equiv_counterexample :
    ∃ (ks : List (List Nat × Nat)) (q : List Nat) (stat : Static16),
      (∀ kv ∈ ks, 1 ≤ kv.1.length ∧ kv.1.length ≤ 16 ∧ (∀ b ∈ kv.1, b < 256) ∧
        kv.2 < 65536) ∧
      (∀ b, b < 256 → ([b], b) ∈ ks) ∧
      (∀ x ∈ q, x < 256) ∧
      (insKeys LPM16.empty ks).finalize = some stat ∧
      stat.findLongestMatch q ≠ (insKeys LPM16.empty ks).findLongestMatch q := by
  obtain ⟨stat, hfin, hstat⟩ := cex_static
  refine ⟨cexKeys, cexQuery, stat, ?_, ?_, ?_, hfin, ?_⟩
  · intro kv hkv
    rcases List.mem_append.mp hkv with h | h
    · obtain ⟨b, hb, hkv⟩ := List.mem_map.mp h
      rw [← hkv]
      refine ⟨by simp, by simp, ?_, ?_⟩
      · intro x hx
        simp at hx
        rw [hx]
        exact List.mem_range.mp hb
      · show b < 65536
        have := List.mem_range.mp hb
        omega
    · obtain ⟨l, hl, hkv⟩ := List.mem_flatten.mp h
      obtain ⟨j, _, hleq⟩ := List.mem_map.mp hl
      rw [← hleq] at hkv
      rcases List.mem_append.mp hkv with h2 | h2
      · rw [List.eq_of_mem_replicate h2]
        refine ⟨by rw [kA_length]; omega, by rw [kA_length], ?_, by show 7 < 65536; omega⟩
        intro x hx
        rcases List.mem_append.mp hx with h3 | h3
        · exact toLEBytes_lt _ _ x h3
        · exact toLEBytes_lt _ _ x h3
      · rw [List.eq_of_mem_replicate h2]
        refine ⟨by rw [kB_length]; omega, by rw [kB_length]; omega, ?_, ?_⟩
        · intro x hx
          rcases List.mem_append.mp hx with h3 | h3
          · exact toLEBytes_lt _ _ x h3
          · simp at h3
            omega
        · show 1000 + j % 2 < 65536
          have : j % 2 < 2 := Nat.mod_lt _ (by omega)
          omega
  · intro b hb
    exact List.mem_append_left _ (List.mem_map.mpr ⟨b, List.mem_range.mpr hb, rfl⟩)
  · intro x hx
    rcases List.mem_append.mp hx with h | h
    · exact toLEBytes_lt _ _ x h
    · simp at h
      omega
  · rw [hstat]
    show _ ≠ cexState.findLongestMatch cexQuery
    rw [cex_dynamic]
    simp

end OnPairModel
